import Mathlib

/-!
Verification of debmutate's format-preserving edit protocol
(`debmutate/reformatting.py`) and package-relation algebra
(`debmutate/control.py`, `debmutate/_deb822.py`).

File contents are modelled as `List Char` (`Chars`); Python string
primitives (`str.strip`, `str.split`, `str.isspace`, ...) are embedded for
their ASCII behaviour, which is the domain of Debian control files.
Python exceptions are modelled with `Except PyErr`.
-/

set_option maxRecDepth 10000

abbrev Chars := List Char

/-- Python exceptions raised by the embedded code. -/
inductive PyErr where
  /-- `IndexError` (e.g. `arch[0]` on an empty string in `parse_archs`). -/
  | indexError : PyErr
  /-- `ValueError` (e.g. invalid `Version` strings, `get_relation` complex rule). -/
  | valueError : PyErr
  /-- `KeyError` raised by `get_relation` when the package is absent. -/
  | keyError : PyErr
  /-- plain `Exception("Complex rule for ...")`. -/
  | complexRule : PyErr
  /-- `AssertionError` from `is_dep_implied` on unsupported operators. -/
  | assertionError : PyErr
deriving DecidableEq, Repr

/-- Python `str.isspace` for a single character (ASCII whitespace). -/
def pyIsSpace (c : Char) : Bool :=
  c = ' ' || c = '\t' || c = '\n' || c = '\x0d' || c = '\x0b' || c = '\x0c'

/-- Python `str.strip()`: drop leading and trailing whitespace. -/
def pyStrip (s : Chars) : Chars :=
  ((s.dropWhile pyIsSpace).reverse.dropWhile pyIsSpace).reverse

/-- Python `str.lstrip()`. -/
def pyLStrip (s : Chars) : Chars :=
  s.dropWhile pyIsSpace

/-- Python `str.rstrip()`. -/
def pyRStrip (s : Chars) : Chars :=
  (s.reverse.dropWhile pyIsSpace).reverse

/-- Python `str.split(sep)` for a one-character separator: always returns
at least one piece, empty pieces included. -/
def pySplit (sep : Char) : Chars → List Chars
  | [] => [[]]
  | c :: cs =>
    match pySplit sep cs with
    | [] => [[c]]
    | r :: rs => if c = sep then [] :: r :: rs else (c :: r) :: rs

/-- Join pieces with a one-character separator (inverse of `pySplit`). -/
def pyJoin (sep : Char) (l : List Chars) : Chars :=
  List.intercalate [sep] l

/-- Python `str.strip(chars)` with an explicit character set. -/
def pyStripSet (bad : Char → Bool) (s : Chars) : Chars :=
  ((s.dropWhile bad).reverse.dropWhile bad).reverse

/-! ## Debian version comparison

Modelled from the spec: `VersionOrdering` "wraps Debian version comparison
semantics (epoch:upstream-revision, `~` sorts before everything)" and is an
"external collaborator, assumed correct" (python-debian's `Version`, which
is not part of this repository's sources).  The embedding below implements
that ordering: versions split into `epoch ':' upstream '-' revision`
(epoch before the first colon when it is a nonempty digit run, revision
after the last dash when nonempty), epochs compare numerically, and the
other two parts compare by alternating non-digit/digit runs where digit
runs compare numerically, non-digit runs compare by a character order that
puts `~` before everything (the end of the string included) and letters
before all other characters, and a missing part counts as `"0"`. -/

/-- Character order used inside non-digit runs: `~` sorts below everything,
digits (only reachable through padding) small, letters next, others last. -/
def verCharOrd (c : Char) : Int :=
  if c = '~' then -1
  else if c.isDigit then (c.toNat - '0'.toNat : Int) + 1
  else if c.isAlpha then (c.toNat : Int)
  else (c.toNat : Int) + 256

/-- Lexicographic comparison of two integer lists where a missing element
counts as `0` (how the version-string comparison pads the shorter side). -/
def zerosCmp : List Int → Ordering
  | [] => .eq
  | b :: bs => match compare (0 : Int) b with
    | .eq => zerosCmp bs
    | o => o

def padLexCmp : List Int → List Int → Ordering
  | [], bs => zerosCmp bs
  | a :: as, [] => match compare a (0 : Int) with
    | .eq => padLexCmp as []
    | o => o
  | a :: as, b :: bs => match compare a b with
    | .eq => padLexCmp as bs
    | o => o

/-- Numeric value of a digit run. -/
def digitsVal (s : Chars) : Nat :=
  s.foldl (fun acc c => acc * 10 + (c.toNat - '0'.toNat)) 0

/-- Is every character of the run a digit (Python `str.isdigit`, empty
strings are not digit runs)? -/
def allDigits (s : Chars) : Bool :=
  s ≠ [] && s.all Char.isDigit

/-- Compare two runs: numerically when both are digit runs, otherwise by
the padded character order. -/
def cmpRun (a b : Chars) : Ordering :=
  if allDigits a && allDigits b then compare (digitsVal a) (digitsVal b)
  else padLexCmp (a.map verCharOrd) (b.map verCharOrd)

/-- Split a version part into maximal digit / non-digit runs
(`re.findall(r"\d+|\D+")`). -/
def splitRunsGo (curDigit : Bool) (cur : Chars) : Chars → List Chars
  | [] => [cur.reverse]
  | c :: cs =>
    if c.isDigit = curDigit then splitRunsGo curDigit (c :: cur) cs
    else cur.reverse :: splitRunsGo c.isDigit [c] cs

def splitRuns : Chars → List Chars
  | [] => []
  | c :: cs => splitRunsGo c.isDigit [c] cs

/-- Compare two run lists positionally, a missing run counting as `"0"`. -/
def zeroRunsCmp : List Chars → Ordering
  | [] => .eq
  | b :: bs => match cmpRun ['0'] b with
    | .eq => zeroRunsCmp bs
    | o => o

def cmpRuns : List Chars → List Chars → Ordering
  | [], bs => zeroRunsCmp bs
  | a :: as, [] => match cmpRun a ['0'] with
    | .eq => cmpRuns as []
    | o => o
  | a :: as, b :: bs => match cmpRun a b with
    | .eq => cmpRuns as bs
    | o => o

/-- Compare upstream-version / revision parts. -/
def cmpPart (a b : Chars) : Ordering :=
  cmpRuns (splitRuns a) (splitRuns b)

/-- Split off the epoch: the digits before the first `:` when that prefix
is nonempty and all digits, else no epoch. -/
def splitEpoch (s : Chars) : Nat × Chars :=
  let pre := s.takeWhile Char.isDigit
  match s.dropWhile Char.isDigit with
  | ':' :: rest => if pre = [] then (0, s) else (digitsVal pre, rest)
  | _ => (0, s)

/-- Split off the Debian revision: the part after the last `-` when there
is one and it is nonempty; a missing revision compares as `"0"`. -/
def splitRevision (s : Chars) : Chars × Chars :=
  let rev := (s.reverse.takeWhile (· ≠ '-')).reverse
  if s.contains '-' && rev ≠ [] then
    ((s.take (s.length - rev.length - 1)), rev)
  else (s, ['0'])

/-- Debian version comparison (see the section comment). -/
def pyVersionCmp (a b : Chars) : Ordering :=
  let (ea, ra) := splitEpoch a
  let (eb, rb) := splitEpoch b
  match compare ea eb with
  | .eq =>
    let (ua, va) := splitRevision ra
    let (ub, vb) := splitRevision rb
    match cmpPart ua ub with
    | .eq => cmpPart va vb
    | o => o
  | o => o

/-- Character set accepted anywhere in a version string by python-debian's
validation regex (`[A-Za-z0-9.+:~-]`, the union of the epoch, upstream and
revision character classes). -/
def verChar (c : Char) : Bool :=
  c.isAlpha || c.isDigit || c = '.' || c = '+' || c = ':' || c = '~' || c = '-'

/-- python-debian `Version(v)` validation: the constructor raises
`ValueError` unless the string matches
`^((\d+):)?([A-Za-z0-9.+:~-]+?)(-([A-Za-z0-9+.~]+))?$`; since the upstream
class contains `:` and `-` and the revision is optional, that is exactly
the nonempty strings over `[A-Za-z0-9.+:~-]`. -/
def validVersion (s : Chars) : Bool :=
  s ≠ [] && s.all verChar

/-- python-debian `Version(s)` construction: raises `ValueError` on invalid
strings, otherwise the object prints back as the original string. -/
def pyVersionE (s : Chars) : Except PyErr Unit :=
  if validVersion s then .ok () else .error .valueError

/-- `Version(a) <op> Version(b)`: both constructors, then the comparison. -/
def vcmp (a b : Chars) : Except PyErr Ordering := do
  pyVersionE a
  pyVersionE b
  .ok (pyVersionCmp a b)

/-! ## `debmutate/_deb822.py`: `PkgRelation` -/

/-- `PkgRelation.ArchRestriction`. -/
structure ArchRestriction where
  enabled : Bool
  arch : Chars
deriving DecidableEq, Repr

/-- `PkgRelation.BuildRestriction`. -/
structure BuildRestriction where
  enabled : Bool
  profile : Chars
deriving DecidableEq, Repr

/-- `PkgRelation`: name, optional `(relop, version)`, optional architecture
restriction list, optional arch qualifier, optional build-profile
restriction formula.  Equality is `__eq__` (tuple equality). -/
structure PkgRelation where
  name : Chars
  version : Option (Chars × Chars) := none
  arch : Option (List ArchRestriction) := none
  archqual : Option Chars := none
  restrictions : Option (List (List BuildRestriction)) := none
deriving DecidableEq, Repr, Inhabited

/-- `[a-zA-Z0-9.+\-]`, the package-name class of `__dep_RE` (ASCII). -/
def nameChar (c : Char) : Bool :=
  c.isAlphanum || c = '.' || c = '+' || c = '-'

/-- `[a-zA-Z0-9-]`, the arch-qualifier tail class. -/
def archqualChar (c : Char) : Bool :=
  c.isAlphanum || c = '-'

/-- `[>=<]`, the relation-operator class. -/
def relopChar (c : Char) : Bool :=
  c = '>' || c = '=' || c = '<'

/-- `[0-9a-zA-Z:\-+~.]`, the version class of `__dep_RE`. -/
def versChar (c : Char) : Bool :=
  c.isAlphanum || c = ':' || c = '-' || c = '+' || c = '~' || c = '.'

/-- `\w` (ASCII): letters, digits and underscore. -/
def wordChar (c : Char) : Bool :=
  c.isAlphanum || c = '_'

/-- `[\s!\w\-]`, the architecture-list content class. -/
def archContentChar (c : Char) : Bool :=
  pyIsSpace c || c = '!' || wordChar c || c = '-'

/-- The named groups captured by `__dep_RE`. -/
structure RelMatch where
  name : Chars
  archqual : Option Chars
  version : Option (Chars × Chars)
  archs : Option Chars
  restrictions : Option Chars
deriving DecidableEq, Repr

/-- Deterministic equivalent of matching `__dep_RE` against `raw`:

`^\s*(?P<name>[a-zA-Z0-9.+\-]{2,})(:(?P<archqual>([a-zA-Z0-9][a-zA-Z0-9-]*)))?`
`(\s*\(\s*(?P<relop>[>=<]+)\s*(?P<version>[0-9a-zA-Z:\-+~.]+)\s*\))?`
`(\s*\[(?P<archs>[\s!\w\-]+)\])?\s*((?P<restrictions><.+>))?\s*$`

Each quantified class is disjoint from whatever may legally follow it, so
every run is maximal and no backtracking can rescue a failed group; the
restrictions group `<.+>\s*$` (`.` does not match a newline) can only end
at the last non-whitespace character, which must be `>`, with no newline
in between. -/
def stepName (raw : Chars) : Option (Chars × Chars) :=
  let s := raw.dropWhile pyIsSpace
  let name := s.takeWhile nameChar
  if name.length < 2 then none else some (name, s.dropWhile nameChar)

def stepArchqual (s : Chars) : Option (Option Chars × Chars) :=
  match s with
  | c0 :: rest =>
    if c0 = ':' then
      match rest.takeWhile archqualChar with
      | [] => none
      | c :: q' =>
        if c.isAlphanum then some (some (c :: q'), rest.dropWhile archqualChar)
        else none
    else some (none, c0 :: rest)
  | [] => some (none, s)

def stepVersion (s : Chars) : Option (Option (Chars × Chars) × Chars) :=
  match s.dropWhile pyIsSpace with
  | c0 :: rest =>
    if c0 = '(' then
      let r1 := rest.dropWhile pyIsSpace
      let op := r1.takeWhile relopChar
      if op = [] then none else
      let r2 := (r1.dropWhile relopChar).dropWhile pyIsSpace
      let vs := r2.takeWhile versChar
      if vs = [] then none else
      match (r2.dropWhile versChar).dropWhile pyIsSpace with
      | c1 :: rest2 => if c1 = ')' then some (some (op, vs), rest2) else none
      | [] => none
    else some (none, s)
  | [] => some (none, s)

def stepArchs (s : Chars) : Option (Option Chars × Chars) :=
  match s.dropWhile pyIsSpace with
  | c0 :: rest =>
    if c0 = '[' then
      let content := rest.takeWhile archContentChar
      if content = [] then none else
      match rest.dropWhile archContentChar with
      | c1 :: rest2 => if c1 = ']' then some (some content, rest2) else none
      | [] => none
    else some (none, s)
  | [] => some (none, s)

def stepRestr (s : Chars) : Option (Option Chars) :=
  match s.dropWhile pyIsSpace with
  | [] => some none
  | c0 :: tl =>
    if c0 = '<' then
      let r1 := pyRStrip (c0 :: tl)
      if r1.length ≥ 3 && r1.getLast? = some '>' && (r1.drop 1).dropLast.all (· ≠ '\n')
      then some (some r1)
      else none
    else none

def relMatch (raw : Chars) : Option RelMatch :=
  match stepName raw with
  | none => none
  | some (name, s) =>
    match stepArchqual s with
    | none => none
    | some (aq, s) =>
      match stepVersion s with
      | none => none
      | some (ver, s) =>
        match stepArchs s with
        | none => none
        | some (archs, s) =>
          match stepRestr s with
          | none => none
          | some restr => some ⟨name, aq, ver, archs, restr⟩

/-- Sequential monadic map over `Except` (Python list construction with
exception propagation). -/
def mapME {a b : Type} (f : a → Except PyErr b) : List a → Except PyErr (List b)
  | [] => .ok []
  | x :: xs => do
    let y ← f x
    let ys ← mapME f xs
    .ok (y :: ys)

/-- Words of a whitespace-stripped string (`re.split(r"\s+")` yields these,
plus empty pieces at stripped ends which the callers never see or skip). -/
def splitWordsGo (cur : Chars) : Chars → List Chars
  | [] => if cur = [] then [] else [cur.reverse]
  | c :: cs =>
    if pyIsSpace c then
      if cur = [] then splitWordsGo [] cs else cur.reverse :: splitWordsGo [] cs
    else splitWordsGo (c :: cur) cs

/-- `PkgRelation.parse.parse_archs`: split the bracket content on
whitespace and read a leading `!` as "disabled"; `re.split(r"\s+", "")`
yields `[""]`, whose `arch[0]` raises `IndexError`. -/
def parse_archs (raw : Chars) : Except PyErr (List ArchRestriction) := do
  let stripped := pyStrip raw
  let toks := if stripped = [] then [([] : Chars)] else splitWordsGo [] stripped
  mapME (fun t =>
    match t with
    | [] => .error .indexError
    | c :: rest => if c = '!' then .ok ⟨false, rest⟩ else .ok ⟨true, c :: rest⟩) toks

/-- Split on the separator regex `>\s*<` (single left-to-right scan; every
`>` opens a candidate separator, closed by `<` after optional whitespace). -/
def splitRestrSepGo (cur : Chars) (pend : Option Chars) : Chars → List Chars
  | [] =>
    match pend with
    | none => [cur.reverse]
    | some buf => [(buf ++ cur).reverse]
  | c :: cs =>
    match pend with
    | none =>
      if c = '>' then splitRestrSepGo cur (some ['>']) cs
      else splitRestrSepGo (c :: cur) none cs
    | some buf =>
      if c = '<' then cur.reverse :: splitRestrSepGo [] none cs
      else if pyIsSpace c then splitRestrSepGo cur (some (c :: buf)) cs
      else if c = '>' then splitRestrSepGo (buf ++ cur) (some ['>']) cs
      else splitRestrSepGo (c :: buf ++ cur) none cs

/-- The token regex `(?P<enabled>\!)?(?P<profile>[^\s]+)` used via
`.match`: a lone `!` backtracks into the profile. -/
def matchRestrTok (tok : Chars) : Option BuildRestriction :=
  match tok with
  | [] => none
  | c :: rest =>
    if c = '!' then
      if rest = [] then some ⟨true, ['!']⟩ else some ⟨false, rest⟩
    else some ⟨true, c :: rest⟩

/-- `PkgRelation.parse.parse_restrictions`: lower-case, strip `"<> "`,
split groups on `>\s*<`, split each group on whitespace and match each
token. -/
def parse_restrictions (raw : Chars) : List (List BuildRestriction) :=
  let body := pyStripSet (fun c => c = '<' || c = '>' || c = ' ')
    (raw.map Char.toLower)
  (splitRestrSepGo [] none body).map fun g =>
    (splitWordsGo [] g).filterMap matchRestrTok

/-- `PkgRelation.parse.parse_rel`: a failed `__dep_RE` match degrades to a
raw-name relation ("cannot parse package relationship ..., returning it
raw"). -/
def parse_rel (raw : Chars) : Except PyErr PkgRelation :=
  match relMatch raw with
  | none => .ok ⟨raw, none, none, none, none⟩
  | some m => do
    let arch ← match m.archs with
      | none => pure none
      | some content => (parse_archs content).map some
    .ok ⟨m.name, m.version, arch, m.archqual, m.restrictions.map parse_restrictions⟩

/-- `re.split(r"\s*\|\s*", t)`: equivalently split on `|` and strip the
whitespace that sat next to each bar (right of the first piece, both ends
of middle pieces, left of the last piece). -/
def pipeSplitTail : List Chars → List Chars
  | [] => []
  | [q] => [pyLStrip q]
  | q :: qs => pyStrip q :: pipeSplitTail qs

def pipeSplit (t : Chars) : List Chars :=
  match pySplit '|' t with
  | [] => [[]]
  | [p] => [p]
  | p :: ps => pyRStrip p :: pipeSplitTail ps

/-- `PkgRelation.parse`. -/
def pkgRelationParse (text : Chars) : Except PyErr (List PkgRelation) :=
  if text = [] then .ok []
  else mapME parse_rel (pipeSplit text)

def joinSpace (l : List Chars) : Chars :=
  List.intercalate [' '] l

/-- `PkgRelation.str.pp_arch`. -/
def ppArch (a : ArchRestriction) : Chars :=
  (if a.enabled then [] else ['!']) ++ a.arch

/-- One rendered token of `pp_restrictions`. -/
def restrTok (t : BuildRestriction) : Chars :=
  (if t.enabled then [] else ['!']) ++ t.profile

/-- `PkgRelation.str.pp_restrictions`. -/
def ppRestrictions (g : List BuildRestriction) : Chars :=
  '<' :: joinSpace (g.map restrTok) ++ ['>']

/-- `PkgRelation.str`. -/
def pkgRelationStr (r : PkgRelation) : Chars :=
  r.name
  ++ (match r.archqual with | none => [] | some q => ':' :: q)
  ++ (match r.version with
      | none => []
      | some (op, v) => ' ' :: '(' :: (op ++ ' ' :: v ++ [')']))
  ++ (match r.arch with
      | none => []
      | some l => ' ' :: '[' :: (joinSpace (l.map ppArch) ++ [']']))
  ++ (match r.restrictions with
      | none => []
      | some gs => ' ' :: joinSpace (gs.map ppRestrictions))

/-- The archqual component of `PkgRelation.str` (`":%s" % archqual`). -/
def ppArchqual : Option Chars → Chars
  | none => []
  | some q => ':' :: q

/-- The version component of `PkgRelation.str` (`" (%s %s)"`). -/
def ppVersion : Option (Chars × Chars) → Chars
  | none => []
  | some (op, v) => ' ' :: '(' :: (op ++ ' ' :: v ++ [')'])

/-- The architecture-list component of `PkgRelation.str` (`" [%s]"`). -/
def ppArchList : Option (List ArchRestriction) → Chars
  | none => []
  | some l => ' ' :: '[' :: (joinSpace (l.map ppArch) ++ [']'])

/-- The restriction-formula component of `PkgRelation.str`. -/
def ppRestrField : Option (List (List BuildRestriction)) → Chars
  | none => []
  | some gs => ' ' :: joinSpace (gs.map ppRestrictions)

/-- The whitespace-free content between the brackets of one restriction
group. -/
def groupContent (g : List BuildRestriction) : Chars :=
  joinSpace (g.map restrTok)

/-! ## `debmutate/control.py`: the relation list -/

/-- `parse_relation` (the `warnings` context is irrelevant here). -/
def parse_relation (t : Chars) : Except PyErr (List PkgRelation) :=
  pkgRelationParse t

/-- One element of a parsed relation list:
`(head_whitespace, relation, tail_whitespace)`. -/
structure RelEntry where
  hw : Chars
  rel : List PkgRelation
  tw : Chars
deriving DecidableEq, Repr, Inhabited

/-- Python `str.isspace()`: nonempty and all whitespace. -/
def pyIsSpaceStr (s : Chars) : Bool :=
  s ≠ [] && s.all pyIsSpace

/-- One comma-segment of `parse_relations`: whitespace-only segments become
`(segment, [], "")`; otherwise the head/tail whitespace scan loops strip
the ends and the core goes through `parse_relation`. -/
def parseSegment (tl : Chars) : Except PyErr RelEntry :=
  if pyIsSpaceStr tl then .ok ⟨tl, [], []⟩
  else do
    let hw := tl.takeWhile pyIsSpace
    let t1 := tl.dropWhile pyIsSpace
    let tw := (t1.reverse.takeWhile pyIsSpace).reverse
    let core := t1.take (t1.length - tw.length)
    let rel ← parse_relation core
    .ok ⟨hw, rel, tw⟩

/-- `parse_relations`: split on commas; the empty string (one empty
segment, no comma in the text) returns `[]` outright. -/
def parse_relations (text : Chars) : Except PyErr (List RelEntry) :=
  if text = [] then .ok []
  else mapME parseSegment (pySplit ',' text)

/-- Drop every whitespace-only line except the first
("The first line can be whitespace only, the subsequent ones can not"). -/
def pruneLines : List Chars → List Chars
  | [] => []
  | l0 :: rest => l0 :: rest.filter (fun l => pyStrip l ≠ [])

/-- The rendered text of one relation entry (the loop body of
`format_relations`). -/
def entryStr (e : RelEntry) : Chars :=
  e.hw ++ List.intercalate (' ' :: '|' :: [' ']) (e.rel.map pkgRelationStr) ++ e.tw

/-- `format_relations`. -/
def format_relations (relations : List RelEntry) : Chars :=
  pyJoin '\n' (pruneLines (pySplit '\n' (pyJoin ',' (relations.map entryStr))))

/-- `get_relation`: scan entries containing the package (`iter_relations`),
raise `ValueError` on a complex rule, `KeyError` when absent. -/
def getRelGo (package : Chars) : Nat → List RelEntry → Except PyErr (Nat × List PkgRelation)
  | _, [] => .error .keyError
  | i, e :: es =>
    let names := e.rel.map (·.name)
    if names.contains package then
      if names.length > 1 then .error .valueError
      else if names = [package] then .ok (i, e.rel)
      else getRelGo package (i + 1) es
    else getRelGo package (i + 1) es

def get_relation (relationstr package : Chars) : Except PyErr (Nat × List PkgRelation) := do
  let relations ← parse_relations relationstr
  getRelGo package 0 relations

/-- `ensure_minimum_version.is_obsolete`. -/
def is_obsolete (package minimum_version : Chars) (relation : List PkgRelation) :
    Except PyErr Bool :=
  match relation with
  | [] => .ok false
  | r :: rs => do
    if r.name ≠ package then is_obsolete package minimum_version rs
    else match r.version with
    | none => is_obsolete package minimum_version rs
    | some (op, v) =>
      if op = ">>".data then
        if (← vcmp v minimum_version) = .lt then .ok true
        else is_obsolete package minimum_version rs
      else if op = ">=".data then
        if (← vcmp v minimum_version) ≠ .gt then .ok true
        else is_obsolete package minimum_version rs
      else is_obsolete package minimum_version rs

/-- `_add_relation` step 1: pop a trailing entry with an empty relation
("pointless tail"). -/
def addRelPrep (relations : List RelEntry) : List RelEntry × Option RelEntry :=
  match relations.getLast? with
  | some last =>
    if last.rel = [] then (relations.dropLast, some last) else (relations, none)
  | none => (relations, none)

/-- `_add_relation` step 2: best-guess head/tail whitespace (single entry:
its head whitespace or `" "`; more: the common value over the tails/heads,
else the last head / first tail). -/
def addRelWs (relations : List RelEntry) : Chars × Chars :=
  if relations.length = 0 then ([], [])
  else if relations.length = 1 then
    (if (relations.headI).hw = [] then [' '] else (relations.headI).hw, [])
  else
    ((match (relations.drop 1).map (·.hw) with
      | [] => (relations.getLastI).hw
      | v :: vs => if vs.all (· = v) then v else (relations.getLastI).hw),
     (match (relations.dropLast).map (·.tw) with
      | [] => (relations.headI).tw
      | v :: vs => if vs.all (· = v) then v else (relations.headI).tw))

/-- `_add_relation` step 3: insert at the position (appending moves the
previous last entry's tail whitespace onto the new entry). -/
def addRelInsert (relations : List RelEntry) (relation : List PkgRelation)
    (position : Nat) (head_whitespace tail_whitespace : Chars) : List RelEntry :=
  if position = relations.length then
    if relations.length = 0 then
      [⟨head_whitespace, relation, []⟩]
    else
      let last := relations.getLastI
      relations.dropLast ++ [⟨last.hw, last.rel, tail_whitespace⟩,
        ⟨head_whitespace, relation, last.tw⟩]
  else if position = 0 then
    match relations with
    | [] => [⟨head_whitespace, relation, tail_whitespace⟩]
    | e0 :: rest => ⟨e0.hw, relation, tail_whitespace⟩ :: ⟨head_whitespace, e0.rel, e0.tw⟩ :: rest
  else
    relations.take position ++ ⟨head_whitespace, relation, tail_whitespace⟩ :: relations.drop position

/-- `_add_relation`: best-guess whitespace (majority vote / fallbacks),
pointless-tail handling, optional insert position (out of bounds raises
`IndexError`). -/
def _add_relation (relations : List RelEntry) (relation : List PkgRelation)
    (position : Option Nat := none) : Except PyErr (List RelEntry) :=
  let pr := addRelPrep relations
  let ws := addRelWs pr.1
  let pos := position.getD pr.1.length
  if pos > pr.1.length then .error .indexError
  else .ok (addRelInsert pr.1 relation pos ws.1 ws.2 ++ pr.2.toList)

/-- Remove the elements at the given (strictly ascending) indices
(`for i in reversed(obsolete_relations): del relations[i]`). -/
def deleteIndices (l : List RelEntry) (idxs : List Nat) : List RelEntry :=
  ((l.enum.filter (fun p => !(idxs.contains p.1))).map (·.2))

/-- The scanning loop of `ensure_minimum_version` (index, found/changed
flags, obsolete indices in reverse, processed entries in reverse). -/
def emvGo (package minimum_version : Chars) (i : Nat) (found changed : Bool)
    (obsolete : List Nat) (acc : List RelEntry) :
    List RelEntry → Except PyErr (List RelEntry × Bool × Bool × List Nat)
  | [] => .ok (acc.reverse, found, changed, obsolete.reverse)
  | e :: es => do
    let names := e.rel.map (·.name)
    let obsolete ← do
      if names.length > 1 && names.contains package then
        if (← is_obsolete package minimum_version e.rel) then pure (i :: obsolete)
        else pure obsolete
      else pure obsolete
    if names ≠ [package] then emvGo package minimum_version (i + 1) found changed obsolete (e :: acc) es
    else
      let r0 := e.rel.headI
      let update ← match r0.version with
        | none => pure true
        | some (_, v) => do pure ((← vcmp v minimum_version) == .lt)
      if update then
        emvGo package minimum_version (i + 1) true true obsolete
          (⟨e.hw, [{ r0 with version := some (">=".data, minimum_version) }], e.tw⟩ :: acc) es
      else emvGo package minimum_version (i + 1) true changed obsolete (e :: acc) es

/-- `ensure_minimum_version`. -/
def ensure_minimum_version (relationstr package minimum_version : Chars) :
    Except PyErr Chars := do
  pyVersionE minimum_version
  let relations ← parse_relations relationstr
  let (relations, found, changed, obsolete) ←
    emvGo package minimum_version 0 false false [] [] relations
  let (relations, changed) ← do
    if !found then
      pure (← _add_relation relations [⟨package, some (">=".data, minimum_version), none, none, none⟩], true)
    else pure (relations, changed)
  let relations := deleteIndices relations obsolete
  if changed then .ok (format_relations relations) else .ok relationstr

/-- The scanning loop of `ensure_exact_version`. -/
def eevGo (package version : Chars) (found changed : Bool) (acc : List RelEntry) :
    List RelEntry → Except PyErr (List RelEntry × Bool × Bool)
  | [] => .ok (acc.reverse, found, changed)
  | e :: es => do
    let names := e.rel.map (·.name)
    if names.length > 1 && names.headI = package then .error .complexRule
    else if names ≠ [package] then eevGo package version found changed (e :: acc) es
    else
      let r0 := e.rel.headI
      let update ← match r0.version with
        | none => pure true
        | some (op, v) => do
          pyVersionE v
          pure (!(op = "=".data && pyVersionCmp v version = .eq))
      if update then
        eevGo package version true true
          (⟨e.hw, [{ r0 with version := some ("=".data, version) }], e.tw⟩ :: acc) es
      else eevGo package version true changed (e :: acc) es

/-- `ensure_exact_version`. -/
def ensure_exact_version (relationstr package version : Chars)
    (position : Option Nat := none) : Except PyErr Chars := do
  pyVersionE version
  let relations ← parse_relations relationstr
  let (relations, found, changed) ← eevGo package version false false [] relations
  let (relations, changed) ← do
    if !found then
      pure (← _add_relation relations [⟨package, some ("=".data, version), none, none, none⟩] position, true)
    else pure (relations, changed)
  if changed then .ok (format_relations relations) else .ok relationstr

/-- `is_dep_implied`. -/
def is_dep_implied (dep outer : PkgRelation) : Except PyErr Bool :=
  if dep.name ≠ outer.name then .ok false
  else if dep.version = none then .ok true
  else if outer.version = dep.version then .ok true
  else if outer.version = none then .ok false
  else match dep.version, outer.version with
  | some (dop, dv), some (oop, ov) =>
    if dop = ">=".data then
      if oop = ">>".data then do pure ((← vcmp ov dv) == .gt)
      else if oop = ">=".data || oop = "=".data then do pure ((← vcmp ov dv) != .lt)
      else if oop = "<<".data || oop = "<=".data then .ok false
      else .error .assertionError
    else if dop = "=".data then
      if oop = "=".data then do pure ((← vcmp ov dv) == .eq)
      else .ok false
    else if dop = "<<".data then
      if oop = "<<".data then do pure ((← vcmp ov dv) != .gt)
      else if oop = "<=".data || oop = "=".data then do pure ((← vcmp ov dv) = .lt)
      else if oop = ">>".data || oop = ">=".data then .ok false
      else .error .assertionError
    else if dop = "<=".data then
      if oop = "<=".data || oop = "=".data || oop = "<<".data then do pure ((← vcmp ov dv) != .gt)
      else if oop = ">>".data || oop = ">=".data then .ok false
      else .error .assertionError
    else if dop = ">>".data then
      if oop = ">>".data then do pure ((← vcmp ov dv) != .lt)
      else if oop = "=".data || oop = ">=".data then do pure ((← vcmp ov dv) == .gt)
      else if oop = "<<".data || oop = "<=".data then .ok false
      else .error .assertionError
    else .error .assertionError
  | _, _ => .ok false

/-- Short-circuiting monadic `any` (Python `any(...)` over a generator). -/
def anyME (f : α → Except PyErr Bool) : List α → Except PyErr Bool
  | [] => .ok false
  | x :: xs => do
    if (← f x) then .ok true else anyME f xs

/-- `is_relation_implied` on already-parsed lists. -/
def is_relation_implied_l (inner outer : List PkgRelation) : Except PyErr Bool :=
  if inner = outer then .ok true
  else anyME (fun i => anyME (fun o => is_dep_implied i o) outer) inner

/-- `is_relation_implied` on strings (both arguments parsed first). -/
def is_relation_implied (inner outer : Chars) : Except PyErr Bool := do
  is_relation_implied_l (← parse_relation inner) (← parse_relation outer)

/-! ## `merge3` and `difflib.SequenceMatcher`

`edit_formatted_file` falls back to the external `merge3` package (Breezy's
three-way merge, built on `difflib.SequenceMatcher` matching blocks).  This
section embeds those collaborators for concrete evaluation.  Junk handling
is not modelled: `SequenceMatcher` is created with `isjunk=None` and its
autojunk heuristic only affects sequences of 200 or more lines. -/

/-- Python `str.splitlines(True)` (keepends).  Boundaries: `\n`, `\r`,
`\r\n` and the rarer control/unicode breaks. -/
def isLineBreak (c : Char) : Bool :=
  c = '\n' || c = '\x0b' || c = '\x0c' || c = '\x1c' || c = '\x1d' ||
  c = '\x1e' || c = '\x85' || c = ' ' || c = ' '

def pySplitlinesKeepGo (cur : Chars) : Chars → List Chars
  | [] => if cur = [] then [] else [cur.reverse]
  | '\x0d' :: '\n' :: rest => (('\n' :: '\x0d' :: cur).reverse) :: pySplitlinesKeepGo [] rest
  | '\x0d' :: rest => (('\x0d' :: cur).reverse) :: pySplitlinesKeepGo [] rest
  | c :: rest =>
    if isLineBreak c then ((c :: cur).reverse) :: pySplitlinesKeepGo [] rest
    else pySplitlinesKeepGo (c :: cur) rest

def pySplitlinesKeep (s : Chars) : List Chars :=
  pySplitlinesKeepGo [] s

/-- `difflib`: indices of `x` in `b` in ascending order (the `b2j` map). -/
def b2jOf (b : List Chars) (x : Chars) : List Nat :=
  (b.enum.filter (fun p => p.2 = x)).map (·.1)

/-- Inner loop of `find_longest_match`: walk `b2j(a[i])` ascending,
maintaining the run-length map `j2len` (runs of matches ending at `(i, j)`)
and the current best `(besti, bestj, bestsize)`. -/
def flmInner (blo bhi i : Nat) (j2len : List (Nat × Nat)) :
    List Nat → List (Nat × Nat) × Nat × Nat × Nat → List (Nat × Nat) × Nat × Nat × Nat
  | [], st => st
  | j :: js, (newj2len, besti, bestj, bestsize) =>
    if j < blo then flmInner blo bhi i j2len js (newj2len, besti, bestj, bestsize)
    else if j ≥ bhi then (newj2len, besti, bestj, bestsize)
    else
      let k := (if j = 0 then 0 else ((j2len.lookup (j - 1)).getD 0)) + 1
      let st' := ((j, k) :: newj2len,
        if k > bestsize then (i + 1 - k, j + 1 - k, k) else (besti, bestj, bestsize))
      flmInner blo bhi i j2len js (st'.1, st'.2.1, st'.2.2.1, st'.2.2.2)

def flmOuter (a b : List Chars) (blo bhi : Nat) (j2len : List (Nat × Nat))
    (best : Nat × Nat × Nat) : List Nat → Nat × Nat × Nat
  | [] => best
  | i :: is' =>
    let (newj2len, besti, bestj, bestsize) :=
      flmInner blo bhi i j2len (b2jOf b (a.getD i [])) ([], best.1, best.2.1, best.2.2)
    flmOuter a b blo bhi newj2len (besti, bestj, bestsize) is'

/-- Backward extension loop of `find_longest_match` (a no-op for the
maximal blocks the DP finds, kept for fidelity); `steps` bounds fuel. -/
def flmExtendBack (a b : List Chars) (alo blo : Nat) :
    Nat → Nat × Nat × Nat → Nat × Nat × Nat
  | 0, st => st
  | fuel + 1, (besti, bestj, bestsize) =>
    if besti > alo && bestj > blo && a.getD (besti - 1) [] = b.getD (bestj - 1) [] then
      flmExtendBack a b alo blo fuel (besti - 1, bestj - 1, bestsize + 1)
    else (besti, bestj, bestsize)

def flmExtendFwd (a b : List Chars) (ahi bhi : Nat) :
    Nat → Nat × Nat × Nat → Nat × Nat × Nat
  | 0, st => st
  | fuel + 1, (besti, bestj, bestsize) =>
    if besti + bestsize < ahi && bestj + bestsize < bhi &&
        a.getD (besti + bestsize) [] = b.getD (bestj + bestsize) [] then
      flmExtendFwd a b ahi bhi fuel (besti, bestj, bestsize + 1)
    else (besti, bestj, bestsize)

/-- `SequenceMatcher.find_longest_match` with `isjunk=None`. -/
def findLongestMatch (a b : List Chars) (alo ahi blo bhi : Nat) : Nat × Nat × Nat :=
  let best := flmOuter a b blo bhi [] (alo, blo, 0) (List.range' alo (ahi - alo))
  let best := flmExtendBack a b alo blo (best.1 + best.2.1 + 1) best
  flmExtendFwd a b ahi bhi (a.length + b.length + 1) best

/-- Queue loop of `get_matching_blocks` (LIFO, matching Python's
`queue.pop()`); fuel is generous, each region splits in two. -/
def gmbGo (a b : List Chars) :
    Nat → List (Nat × Nat × Nat × Nat) → List (Nat × Nat × Nat) → List (Nat × Nat × Nat)
  | 0, _, acc => acc
  | _ + 1, [], acc => acc
  | fuel + 1, (alo, ahi, blo, bhi) :: queue, acc =>
    let (i, j, k) := findLongestMatch a b alo ahi blo bhi
    if k ≠ 0 then
      let queue := if i + k < ahi && j + k < bhi then (i + k, ahi, j + k, bhi) :: queue else queue
      let queue := if alo < i && blo < j then (alo, i, blo, j) :: queue else queue
      gmbGo a b fuel queue ((i, j, k) :: acc)
    else gmbGo a b fuel queue acc

/-- Lexicographic order on the `(i, j, k)` triples (`list.sort()`). -/
def tripleLE (x y : Nat × Nat × Nat) : Bool :=
  x.1 < y.1 || (x.1 = y.1 && (x.2.1 < y.2.1 || (x.2.1 = y.2.1 && x.2.2 ≤ y.2.2)))

def insertSorted (x : Nat × Nat × Nat) : List (Nat × Nat × Nat) → List (Nat × Nat × Nat)
  | [] => [x]
  | y :: ys => if tripleLE x y then x :: y :: ys else y :: insertSorted x ys

def sortTriples : List (Nat × Nat × Nat) → List (Nat × Nat × Nat)
  | [] => []
  | x :: xs => insertSorted x (sortTriples xs)

/-- Collapse adjacent blocks (`i1 + k1 == i2 and j1 + k1 == j2`). -/
def collapseBlocks : Nat × Nat × Nat → List (Nat × Nat × Nat) → List (Nat × Nat × Nat)
  | (i1, j1, k1), [] => if k1 ≠ 0 then [(i1, j1, k1)] else []
  | (i1, j1, k1), (i2, j2, k2) :: rest =>
    if i1 + k1 = i2 && j1 + k1 = j2 then collapseBlocks (i1, j1, k1 + k2) rest
    else if k1 ≠ 0 then (i1, j1, k1) :: collapseBlocks (i2, j2, k2) rest
    else collapseBlocks (i2, j2, k2) rest

/-- `SequenceMatcher(None, a, b).get_matching_blocks()` (over lines). -/
def getMatchingBlocks (a b : List Chars) : List (Nat × Nat × Nat) :=
  let blocks := gmbGo a b ((a.length + 1) * (b.length + 1) + 1) [(0, a.length, 0, b.length)] []
  collapseBlocks (0, 0, 0) (sortTriples blocks) ++ [(a.length, b.length, 0)]

/-- `merge3.intersect`. -/
def rangeIntersect (ra rb : Nat × Nat) : Option (Nat × Nat) :=
  let sa := max ra.1 rb.1
  let sb := min ra.2 rb.2
  if sa < sb then some (sa, sb) else none

/-- One sync region: `(zstart, zend, astart, aend, bstart, bend)`. -/
abbrev SyncRegion := Nat × Nat × Nat × Nat × Nat × Nat

/-- `Merge3.find_sync_regions` while-loop (fuel bounded by the two block
lists' lengths). -/
def fsrGo (base a b : List Chars) :
    Nat → List (Nat × Nat × Nat) → List (Nat × Nat × Nat) → List SyncRegion
  | 0, _, _ => []
  | _ + 1, [], _ => []
  | _ + 1, _, [] => []
  | fuel + 1, (abase, amatch, alen) :: amatches, (bbase, bmatch, blen) :: bmatches =>
    let next :=
      if abase + alen < bbase + blen then fsrGo base a b fuel amatches ((bbase, bmatch, blen) :: bmatches)
      else fsrGo base a b fuel ((abase, amatch, alen) :: amatches) bmatches
    match rangeIntersect (abase, abase + alen) (bbase, bbase + blen) with
    | some (intbase, intend) =>
      let intlen := intend - intbase
      let asub := amatch + (intbase - abase)
      let bsub := bmatch + (intbase - bbase)
      (intbase, intend, asub, asub + intlen, bsub, bsub + intlen) :: next
    | none => next

def findSyncRegions (base a b : List Chars) : List SyncRegion :=
  let amatches := getMatchingBlocks base a
  let bmatches := getMatchingBlocks base b
  fsrGo base a b (amatches.length + bmatches.length + 1) amatches bmatches
    ++ [(base.length, base.length, a.length, a.length, b.length, b.length)]

/-- `Merge3.merge_regions` region tags. -/
inductive MergeRegion where
  | unchanged (zstart zend : Nat)
  | same (astart aend : Nat)
  | useA (astart aend : Nat)
  | useB (bstart bend : Nat)
  | conflict (zstart zend astart aend bstart bend : Nat)
deriving DecidableEq, Repr

/-- `compare_range`: slice equality. -/
def compareRange (a : List Chars) (astart aend : Nat) (b : List Chars) (bstart bend : Nat) : Bool :=
  (a.drop astart).take (aend - astart) = (b.drop bstart).take (bend - bstart)

def mergeRegionsGo (base a b : List Chars) (iz ia ib : Nat) :
    List SyncRegion → List MergeRegion
  | [] => []
  | (zmatch, zend, amatch, aend, bmatch, bend) :: rest =>
    let matchlen := zend - zmatch
    let lenA := amatch - ia
    let lenB := bmatch - ib
    let pre :=
      if lenA > 0 || lenB > 0 then
        let equalA := compareRange a ia amatch base iz zmatch
        let equalB := compareRange b ib bmatch base iz zmatch
        let same := compareRange a ia amatch b ib bmatch
        if same then [MergeRegion.same ia amatch]
        else if equalA && !equalB then [MergeRegion.useB ib bmatch]
        else if equalB && !equalA then [MergeRegion.useA ia amatch]
        else [MergeRegion.conflict iz zmatch ia amatch ib bmatch]
      else []
    if matchlen > 0 then
      pre ++ MergeRegion.unchanged zmatch zend :: mergeRegionsGo base a b zend aend bend rest
    else pre ++ mergeRegionsGo base a b zmatch aend bend rest

/-- `Merge3(base, a, b).merge_regions()`. -/
def mergeRegions (base a b : List Chars) : List MergeRegion :=
  mergeRegionsGo base a b 0 0 0 (findSyncRegions base a b)

def sliceOf (l : List Chars) (s e : Nat) : List Chars :=
  (l.drop s).take (e - s)

/-- `Merge3.merge_lines()` with the default markers (the conflict branch is
unreachable from `edit_formatted_file`, which checks for conflicts first). -/
def mergeLines (base a b : List Chars) : List Chars :=
  let newline : Chars :=
    match a.head? with
    | some l0 =>
      if ['\x0d', '\n'] <:+ l0 then ['\x0d', '\n']
      else if ['\x0d'] <:+ l0 then ['\x0d'] else ['\n']
    | none => ['\n']
  (mergeRegions base a b).flatMap fun r =>
    match r with
    | .unchanged zs ze => sliceOf base zs ze
    | .same as' ae => sliceOf a as' ae
    | .useA as' ae => sliceOf a as' ae
    | .useB bs be => sliceOf b bs be
    | .conflict _ _ as' ae bs be =>
      ("<<<<<<<".data ++ newline) :: sliceOf a as' ae
        ++ ("=======".data ++ newline) :: sliceOf b bs be ++ [">>>>>>>".data ++ newline]

def hasConflict (base a b : List Chars) : Bool :=
  (mergeRegions base a b).any fun r =>
    match r with
    | .conflict _ _ _ _ _ _ => true
    | _ => false

/-! ## `debmutate/reformatting.py` -/

/-- The filesystem state relevant to one edited path: whether the sibling
template files `path + ".in"` / `path + ".m4"` exist, and the contents of
the file itself (`none` = the file does not exist). -/
structure FS where
  inExists : Bool
  m4Exists : Bool
  contents : Option Chars
deriving DecidableEq, Repr

/-- Result of `check_generated_file`: normal return, or a raised
`GeneratedFile` carrying the optional template path. -/
inductive GenCheck where
  | ok
  | generated (template : Option Chars)
deriving DecidableEq, Repr

/-- Substring test (`b"DO NOT EDIT" in line`). -/
def containsSub (needle hay : Chars) : Bool :=
  decide (needle <:+: hay)

/-- `check_generated_file`: a sibling `.in` template wins over `.m4`;
otherwise scan (roughly) the first 20 lines — indices 0 through 20, the
loop breaks once `i > 20` — of the file for the literal marker
`DO NOT EDIT`; a missing file returns normally. -/
def check_generated_file (path : Chars) (fs : FS) : GenCheck :=
  if fs.inExists then .generated (some (path ++ ".in".data))
  else if fs.m4Exists then .generated (some (path ++ ".m4".data))
  else match fs.contents with
    | none => .ok
    | some c =>
      if ((pySplit '\n' c).take 21).any (containsSub "DO NOT EDIT".data) then
        .generated none
      else .ok

/-- Outcome of `edit_formatted_file`: `False` return, raised
`GeneratedFile`, raised `FormattingUnpreservable` (which carries the
already-stripped original and rewritten contents it was constructed with
in `check_preserve_formatting`), or a write followed by a `True` return.
`writeNone` marks the unreachable `f.write(None)` type error. -/
inductive EditResult where
  | noop
  | generatedFile (path : Chars) (template : Option Chars)
  | unpreservable (original rewritten : Option Chars)
  | written (contents : Chars)
  | writeNone
deriving DecidableEq, Repr

/-- `check_preserve_formatting` outcome: `none` = normal return, `some` =
raised `FormattingUnpreservable path text rewritten_text`. -/
def check_preserve_formatting (rewritten_text text : Option Chars)
    (allow_reformatting : Bool) : Option (Option Chars × Option Chars) :=
  if rewritten_text = text then none
  else if allow_reformatting then none
  else some (text, rewritten_text)

/-- `edit_formatted_file` (the contents share one type here, so the
`TypeError` consistency check cannot fire; the `merge3` import and its
bytes-support version check are taken as satisfied). -/
def edit_formatted_file (path : Chars) (fs : FS)
    (original_contents rewritten_contents updated_contents : Option Chars)
    (allow_generated : Bool := false) (allow_reformatting : Bool := false) :
    EditResult :=
  if updated_contents = rewritten_contents ∨ updated_contents = original_contents then
    .noop
  else
    let gen := if !allow_generated then check_generated_file path fs else .ok
    match gen with
    | .generated t => .generatedFile path t
    | .ok =>
      let fin :=
        match check_preserve_formatting (rewritten_contents.map pyStrip)
            (original_contents.map pyStrip) allow_reformatting with
        | none => Except.ok updated_contents
        | some (origS, rewS) =>
          match rewritten_contents, original_contents, updated_contents with
          | some r, some o, some u =>
            if hasConflict (pySplitlinesKeep r) (pySplitlinesKeep o) (pySplitlinesKeep u) then
              Except.error (origS, rewS)
            else
              Except.ok (some ((mergeLines (pySplitlinesKeep r) (pySplitlinesKeep o)
                (pySplitlinesKeep u)).flatten))
          | _, _, _ => Except.error (origS, rewS)
      match fin with
      | .error (origS, rewS) => .unpreservable origS rewS
      | .ok none => .writeNone
      | .ok (some u) => .written u

/-- The file state after an `edit_formatted_file` outcome. -/
def applyEdit (r : EditResult) (fs : FS) : FS :=
  match r with
  | .written u => { fs with contents := some u }
  | _ => fs

/-- A format adapter: an `Editor` subclass's pure `_parse` / `_format`
pair over some parsed representation `P`. -/
structure EditorCtx (P : Type) where
  parse : Chars → P
  format : P → Chars

/-- `Editor.__enter__` for an existing file: read, parse, re-serialize.
Returns `(orig_content, parsed, rewritten_content)`. -/
def editorEnter {P : Type} (ctx : EditorCtx P) (orig : Chars) : Chars × P × Chars :=
  (orig, ctx.parse orig, ctx.format (ctx.parse orig))

/-- `Editor.__exit__` outcome: the deletion branch (updated content
`None`), or the reconciliation via `edit_formatted_file`. -/
inductive ExitOutcome where
  | deleted
  | edit (r : EditResult)
deriving DecidableEq, Repr

/-- `Editor.__exit__`.  `excRaised` states whether the `with` body ended
with an exception; the source ignores `exc_type`/`exc_val`/`exc_tb` and
returns `False`, so the exception information takes no part in the
computation and any exception is re-raised after reconciliation. -/
def editorExit {P : Type} (ctx : EditorCtx P) (path : Chars) (fs : FS)
    (origContent : Option Chars) (rewrittenContent : Option Chars)
    (parsedNow : Option P) (excRaised : Bool)
    (allow_generated allow_reformatting : Bool) : ExitOutcome :=
  match parsedNow with
  | none => .deleted
  | some p =>
    .edit (edit_formatted_file path fs origContent rewrittenContent
      (some (ctx.format p)) allow_generated allow_reformatting)

/-- The file state after `Editor.__exit__`. -/
def applyExit (r : ExitOutcome) (fs : FS) : FS :=
  match r with
  | .deleted => { fs with contents := none }
  | .edit e => applyEdit e fs

/-! ## Canonical-form predicates

`format_relations ∘ parse_relations` is byte-identical only on relation
strings in canonical form; the predicates below carve out that form.  An
atom is canonical when each of its fields uses exactly the spellings
`PkgRelation.str` produces and re-reads: `name[:archqual] [(op version)]`
`[[!]arch ...] [<[!]profile ...> ...]` with the grammar's character
classes, nonempty pieces, no leading `!` inside names/profiles, and
lower-case profiles (parsing lower-cases them). -/

/-- Every character a list starts with (if any) fails `p`. -/
def HeadNot (p : Char → Bool) (l : Chars) : Prop :=
  ∀ c, l.head? = some c → p c = false

/-- Every character a list ends with (if any) fails `p`. -/
def LastNot (p : Char → Bool) (l : Chars) : Prop :=
  ∀ c, l.getLast? = some c → p c = false

/-- A character that cannot terminate a comma segment, an OR branch or a
line: the three separators `format_relations` re-splits on. -/
def PlainChar (c : Char) : Prop :=
  c ≠ ',' ∧ c ≠ '|' ∧ c ≠ '\n'

def wfName (n : Chars) : Bool :=
  n.length ≥ 2 && n.all nameChar

def wfArchqual : Option Chars → Bool
  | none => true
  | some q => q ≠ [] && q.headI.isAlphanum && q.all archqualChar

def relopStr (op : Chars) : Bool :=
  op ≠ [] && op.all relopChar

def wfVersionF : Option (Chars × Chars) → Bool
  | none => true
  | some (op, v) => relopStr op && v ≠ [] && v.all versChar

def wfArchName (a : Chars) : Bool :=
  a ≠ [] && a.headI ≠ '!' && a.all (fun c => wordChar c || c = '-')

def wfArchF : Option (List ArchRestriction) → Bool
  | none => true
  | some l => l ≠ [] && l.all (fun a => wfArchName a.arch)

def profChar (c : Char) : Bool :=
  !(pyIsSpace c) && c ≠ '<' && c ≠ '>' && c ≠ ',' && c ≠ '|' && c.toLower = c

def wfProfile (p : Chars) : Bool :=
  p ≠ [] && p.headI ≠ '!' && p.all profChar

def wfRestrictionsF : Option (List (List BuildRestriction)) → Bool
  | none => true
  | some gs => gs ≠ [] && gs.all (fun g => g ≠ [] && g.all (fun t => wfProfile t.profile))

def wfAtom (r : PkgRelation) : Bool :=
  wfName r.name && wfArchqual r.archqual && wfVersionF r.version &&
    wfArchF r.arch && wfRestrictionsF r.restrictions

/-- A canonical relation-list entry: whitespace pieces really are
whitespace, the head whitespace holds at most one newline and the tail
none (so `format_relations`' blank-line pruning never fires), well-formed
atoms, and whitespace-only entries carry their text in `hw` (as
`parse_relations` produces them). -/
def wfEntry (e : RelEntry) : Bool :=
  e.hw.all pyIsSpace && e.tw.all pyIsSpace &&
  e.hw.count '\n' ≤ 1 && e.tw.count '\n' = 0 &&
  e.rel.all wfAtom &&
  (!e.rel.isEmpty || (e.tw.isEmpty && e.hw.count '\n' = 0))

/-- A canonical parsed relation list (the lone degenerate empty entry,
which renders as the empty string, is excluded). -/
def wfRelList (R : List RelEntry) : Bool :=
  R.all wfEntry && R ≠ [⟨[], [], []⟩]

/-! ## Spec-side definitions for the claims -/

/-- The five Debian relation operators the implication table covers. -/
def stdOp (op : Chars) : Bool :=
  op = ">=".data || op = "=".data || op = "<<".data ||
  op = "<=".data || op = ">>".data

/-- A version constraint suitable for the implication table: a standard
operator and a constructible version string. -/
def tableVersion : Option (Chars × Chars) → Bool
  | none => true
  | some (op, v) => stdOp op && validVersion v

/-- The implication table exactly as the spec states it (C4): name
mismatch false; unversioned inner true; equal constraints true; then the
operator table, everything else false. -/
def depImpliedSpec (dep outer : PkgRelation) : Bool :=
  if dep.name ≠ outer.name then false
  else match dep.version with
  | none => true
  | some (dop, dv) =>
    match outer.version with
    | none => false
    | some (oop, ov) =>
      if (oop, ov) = (dop, dv) then true
      else if dop = ">=".data then
        (oop = ">>".data && pyVersionCmp ov dv == .gt) ||
        ((oop = ">=".data || oop = "=".data) && pyVersionCmp ov dv != .lt)
      else if dop = "=".data then
        oop = "=".data && pyVersionCmp ov dv == .eq
      else if dop = "<<".data then
        (oop = "<<".data && pyVersionCmp ov dv != .gt) ||
        ((oop = "<=".data || oop = "=".data) && pyVersionCmp ov dv == .lt)
      else if dop = "<=".data then
        (oop = "<=".data || oop = "=".data || oop = "<<".data) &&
          pyVersionCmp ov dv != .gt
      else if dop = ">>".data then
        (oop = ">>".data && pyVersionCmp ov dv != .lt) ||
        ((oop = "=".data || oop = ">=".data) && pyVersionCmp ov dv == .gt)
      else false

/-- Names of an OR-group. -/
def relNames (rel : List PkgRelation) : List Chars :=
  rel.map (·.name)

/-- Is the except value an error? -/
def isErr {ε α : Type} (e : Except ε α) : Bool :=
  match e with
  | .error _ => true
  | .ok _ => false

/-- Decidable equality for `Except` values (used to evaluate the embedded
functions at concrete inputs). -/
instance {e a : Type} [DecidableEq e] [DecidableEq a] : DecidableEq (Except e a) :=
  fun x y =>
    match x, y with
    | .ok u, .ok v => if h : u = v then isTrue (by rw [h]) else isFalse (by simp [h])
    | .error u, .error v => if h : u = v then isTrue (by rw [h]) else isFalse (by simp [h])
    | .ok _, .error _ => isFalse (by simp)
    | .error _, .ok _ => isFalse (by simp)

/-- The version constraint (if any) of an atom is valid `Version`
constructor input. -/
def versionOK (r : PkgRelation) : Bool :=
  match r.version with
  | none => true
  | some opv => validVersion opv.2

/-- All version strings stored in a parsed relation list are valid
`Version` constructor inputs (the grammar's version class is exactly the
constructor's class). -/
def atomVersionsValid (R : List RelEntry) : Bool :=
  R.all fun e => e.rel.all versionOK

/-- Lexicographic composition of two comparison outcomes. -/
def lexComp (o r : Ordering) : Ordering :=
  match o with
  | .eq => r
  | x => x

/-- A run produced by `splitRuns`: nonempty and homogeneous (all digits or
all non-digits). -/
def GoodRun (r : Chars) : Prop :=
  r ≠ [] ∧ (r.all Char.isDigit = true ∨ r.all (fun c => !c.isDigit) = true)

/-- The three-way classification driving mixed-run comparisons: `~`-led
runs sort below digit runs, which sort below other non-digit runs. -/
def runClass (r : Chars) : Nat :=
  if r.headI = '~' then 0 else if allDigits r then 1 else 2

/-- All runs of a list are homogeneous and nonempty. -/
def GoodRuns (l : List Chars) : Prop :=
  ∀ r ∈ l, GoodRun r

/-- One step of the `ensure_minimum_version` scan, per entry: the rewritten
entry, whether the package was found, whether the entry changed, and
whether it is an obsolete complex rule. -/
def emvStep (package minimum_version : Chars) (e : RelEntry) :
    Except PyErr (RelEntry × Bool × Bool × Bool) := do
  let names := e.rel.map (·.name)
  let ob ← if names.length > 1 && names.contains package then
      is_obsolete package minimum_version e.rel
    else pure false
  if names ≠ [package] then .ok (e, false, false, ob)
  else
    let r0 := e.rel.headI
    let update ← match r0.version with
      | none => pure true
      | some (_, v) => do pure ((← vcmp v minimum_version) == .lt)
    if update then
      .ok (⟨e.hw, [{ r0 with version := some (">=".data, minimum_version) }], e.tw⟩,
        true, true, ob)
    else .ok (e, true, false, ob)

/-- The obsolete-entry indices of a step list, counting from `i`. -/
def obsIdxs (i : Nat) : List (RelEntry × Bool × Bool × Bool) → List Nat
  | [] => []
  | p :: ps => if p.2.2.2 then i :: obsIdxs (i + 1) ps else obsIdxs (i + 1) ps

/-! # Claim theorems -/

/-- C2: when the updated contents equal the rewritten or the original
contents, `edit_formatted_file` returns `False` and writes nothing; hence
an editor session that is opened and closed without mutating the parsed
structure leaves the file unchanged and reports `changed = False`. -/
theorem C2_noop_sessions_never_write :
    (∀ (path : Chars) (fs : FS) (original rewritten updated : Option Chars)
      (ag ar : Bool), updated = rewritten ∨ updated = original →
      edit_formatted_file path fs original rewritten updated ag ar = .noop ∧
      applyEdit (edit_formatted_file path fs original rewritten updated ag ar) fs = fs) ∧
    (∀ (P : Type) (ctx : EditorCtx P) (path : Chars) (fs : FS) (orig : Chars)
      (exc ag ar : Bool),
      editorExit ctx path fs (some (editorEnter ctx orig).1)
        (some (editorEnter ctx orig).2.2) (some (editorEnter ctx orig).2.1)
        exc ag ar = .edit .noop ∧
      applyExit (editorExit ctx path fs (some (editorEnter ctx orig).1)
        (some (editorEnter ctx orig).2.2) (some (editorEnter ctx orig).2.1)
        exc ag ar) fs = fs) := by
  constructor
  · intro path fs original rewritten updated ag ar h
    have : edit_formatted_file path fs original rewritten updated ag ar = .noop := by
      unfold edit_formatted_file
      simp [h]
    exact ⟨this, by rw [this]; rfl⟩
  · intro P ctx path fs orig exc ag ar
    have : editorExit ctx path fs (some (editorEnter ctx orig).1)
        (some (editorEnter ctx orig).2.2) (some (editorEnter ctx orig).2.1)
        exc ag ar = .edit .noop := by
      unfold editorExit editorEnter edit_formatted_file
      simp
    exact ⟨this, by rw [this]; rfl⟩

/-- Witness for C2 at a concrete input. -/
theorem C2_noop_sessions_never_write_witness :
    edit_formatted_file "debian/control".data ⟨false, false, some "a\n".data⟩
      (some "a\n".data) (some "a".data) (some "a".data) false false = .noop ∧
    editorExit ⟨fun s => s, fun s => s⟩ "debian/control".data
      ⟨false, false, some "a\n".data⟩ (some "a\n".data) (some "a\n".data)
      (some "a\n".data) false false false = .edit .noop := by
  refine ⟨(C2_noop_sessions_never_write.1 "debian/control".data
    ⟨false, false, some "a\n".data⟩ (some "a\n".data) (some "a".data)
    (some "a".data) false false (Or.inl rfl)).1, ?_⟩
  exact (C2_noop_sessions_never_write.2 Chars ⟨fun s => s, fun s => s⟩
    "debian/control".data ⟨false, false, some "a\n".data⟩ "a\n".data
    false false false).1

/-- C9 counterexample: a session whose body raised (`excRaised = true`)
still runs reconciliation in `__exit__` and rewrites the file: with the
identity adapter, original contents `"a\n"` and the parsed value mutated
to `"b\n"`, the exceptional exit writes `"b\n"` and changes the file. -/
theorem C9_counterexample :
    editorExit ⟨fun s => s, fun s => s⟩ "debian/control".data
      ⟨false, false, some "a\n".data⟩ (some "a\n".data) (some "a\n".data)
      (some "b\n".data) true false false = .edit (.written "b\n".data) ∧
    applyExit (editorExit ⟨fun s => s, fun s => s⟩ "debian/control".data
      ⟨false, false, some "a\n".data⟩ (some "a\n".data) (some "a\n".data)
      (some "b\n".data) true false false) ⟨false, false, some "a\n".data⟩ ≠
      ⟨false, false, some "a\n".data⟩ := by
  constructor
  · rfl
  · decide

/-- C9 amended: `Editor.__exit__` ignores the exception information — the
reconciliation (recomputing the updated content, merging, writing or
deleting) runs identically on normal and exceptional scope exit, and the
exception then propagates (`__exit__` returns `False`). -/
theorem C9_exit_reconciles_unconditionally {P : Type} (ctx : EditorCtx P)
    (path : Chars) (fs : FS) (origContent rewrittenContent : Option Chars)
    (parsedNow : Option P) (exc1 exc2 ag ar : Bool) :
    editorExit ctx path fs origContent rewrittenContent parsedNow exc1 ag ar =
    editorExit ctx path fs origContent rewrittenContent parsedNow exc2 ag ar := rfl

/-- C10: when the original and rewritten contents differ only up to
leading/trailing whitespace, `edit_formatted_file` treats the edit as
format-preserving: the updated contents are written verbatim and `True`
is returned, with no `FormattingUnpreservable` and no merge, even with
`allow_reformatting = false`. -/
theorem C10_strip_compare_preserves (path : Chars) (fs : FS)
    (o r u : Chars) (ag : Bool)
    (hgen : ag = true ∨ check_generated_file path fs = .ok)
    (hor : o ≠ r) (hstrip : pyStrip o = pyStrip r)
    (huo : u ≠ o) (hur : u ≠ r) :
    edit_formatted_file path fs (some o) (some r) (some u) ag false =
      .written u := by
  unfold edit_formatted_file
  have hcond : ¬(some u = some r ∨ some u = some o) := by
    simp [huo, hur]
  rw [if_neg hcond]
  have hgen' : (if !ag then check_generated_file path fs else .ok) = .ok := by
    rcases hgen with h | h
    · simp [h]
    · cases ag <;> simp [h]
  rw [hgen']
  unfold check_preserve_formatting
  simp [hstrip]

/-- Witness for C10. -/
theorem C10_strip_compare_preserves_witness :
    ("a\nb".data ≠ "a\nb\n".data ∧
      pyStrip "a\nb".data = pyStrip "a\nb\n".data ∧
      "x".data ≠ "a\nb".data ∧ "x".data ≠ "a\nb\n".data) ∧
    edit_formatted_file "debian/control".data ⟨false, false, some "a\nb".data⟩
      (some "a\nb".data) (some "a\nb\n".data) (some "x".data) false false =
      .written "x".data := by
  refine ⟨⟨by decide, by decide, by decide, by decide⟩, ?_⟩
  exact C10_strip_compare_preserves "debian/control".data
    ⟨false, false, some "a\nb".data⟩ "a\nb".data "a\nb\n".data "x".data false
    (Or.inr (by decide)) (by decide) (by decide) (by decide) (by decide)

/-- C1 counterexample: with `original = "a"`, `rewritten = "a\n"`,
`updated = "b\n"` all three contents differ pairwise and the three-way
merge (base `"a\n"`, side A `"a"`, side B `"b\n"`) has a conflict region,
yet `edit_formatted_file` raises nothing and writes `updated_contents`:
the preservability comparison strips whitespace first, so this case never
reaches the merge. -/
theorem C1_counterexample :
    ("b\n".data ≠ "a\n".data ∧ "b\n".data ≠ "a".data ∧
      "a\n".data ≠ "a".data ∧
      hasConflict (pySplitlinesKeep "a\n".data) (pySplitlinesKeep "a".data)
        (pySplitlinesKeep "b\n".data) = true) ∧
    edit_formatted_file "debian/control".data ⟨false, false, some "a".data⟩
      (some "a".data) (some "a\n".data) (some "b\n".data) false false =
      .written "b\n".data := by
  exact ⟨⟨by decide, by decide, by decide, by decide⟩, by decide⟩

/-- C1 amended: when the updated contents differ from both the rewritten
and the original contents and the rewritten and original contents still
differ after stripping leading/trailing whitespace (and the generated-file
check passes), `edit_formatted_file` with `allow_reformatting = false`
raises `FormattingUnpreservable` — carrying the stripped original and
rewritten contents — exactly when the three-way merge with the rewritten
contents as base, the original as side A and the updated as side B has a
conflict region; with no conflict the merge result (not
`updated_contents`) is written and `True` is returned. -/
theorem C1_merge_fallback (path : Chars) (fs : FS) (o r u : Chars) (ag : Bool)
    (hgen : ag = true ∨ check_generated_file path fs = .ok)
    (hstrip : pyStrip r ≠ pyStrip o)
    (huo : u ≠ o) (hur : u ≠ r) :
    edit_formatted_file path fs (some o) (some r) (some u) ag false =
      (if hasConflict (pySplitlinesKeep r) (pySplitlinesKeep o) (pySplitlinesKeep u)
       then .unpreservable (some (pyStrip o)) (some (pyStrip r))
       else .written (mergeLines (pySplitlinesKeep r) (pySplitlinesKeep o)
         (pySplitlinesKeep u)).flatten) := by
  unfold edit_formatted_file
  have hcond : ¬(some u = some r ∨ some u = some o) := by
    simp [huo, hur]
  rw [if_neg hcond]
  have hgen' : (if !ag then check_generated_file path fs else .ok) = .ok := by
    rcases hgen with h | h
    · simp [h]
    · cases ag <;> simp [h]
  rw [hgen']
  unfold check_preserve_formatting
  have hne : ¬((some (pyStrip r) : Option Chars) = some (pyStrip o)) := by
    simpa using hstrip
  simp only [Option.map_some']
  rw [if_neg hne]
  by_cases hc : hasConflict (pySplitlinesKeep r) (pySplitlinesKeep o)
      (pySplitlinesKeep u) = true
  · simp [hc]
  · simp [hc]

/-- Witness for C1: a clean merge writes the merged text
(`"a!\nb\nc\n"`, keeping side A's exclamation mark and side B's new
line), not `updated_contents`. -/
theorem C1_merge_fallback_witness :
    (pyStrip "a\nb\n".data ≠ pyStrip "a!\nb\n".data ∧
      "a\nb\nc\n".data ≠ "a!\nb\n".data ∧ "a\nb\nc\n".data ≠ "a\nb\n".data) ∧
    edit_formatted_file "debian/control".data
      ⟨false, false, some "a!\nb\n".data⟩
      (some "a!\nb\n".data) (some "a\nb\n".data) (some "a\nb\nc\n".data)
      false false = .written "a!\nb\nc\n".data := by
  refine ⟨⟨by decide, by decide, by decide⟩, ?_⟩
  have := C1_merge_fallback "debian/control".data
    ⟨false, false, some "a!\nb\n".data⟩ "a!\nb\n".data "a\nb\n".data
    "a\nb\nc\n".data false (Or.inr (by decide)) (by decide) (by decide)
    (by decide)
  rw [this]
  decide

/-- C8: `check_generated_file` raises `GeneratedFile` naming
`path + ".in"` when that sibling exists, else naming `path + ".m4"` when
that exists, else raises a template-less `GeneratedFile` exactly when the
literal marker `DO NOT EDIT` occurs in the first 21 lines (indices 0–20,
"roughly the first 20") of the file; it returns normally otherwise, a
missing file included.  `edit_formatted_file` runs this check — when
`allow_generated` is false and a write is needed — before the
formatting-preservation check, so a generated file surfaces as
`GeneratedFile` rather than being overwritten. -/
theorem C8_generated_file_detection :
    (∀ (path : Chars) (fs : FS), fs.inExists = true →
      check_generated_file path fs = .generated (some (path ++ ".in".data))) ∧
    (∀ (path : Chars) (fs : FS), fs.inExists = false → fs.m4Exists = true →
      check_generated_file path fs = .generated (some (path ++ ".m4".data))) ∧
    (∀ (path : Chars) (fs : FS) (c : Chars), fs.inExists = false →
      fs.m4Exists = false → fs.contents = some c →
      (check_generated_file path fs = .generated none ↔
        ((pySplit '\n' c).take 21).any (containsSub "DO NOT EDIT".data) = true)) ∧
    (∀ (path : Chars) (fs : FS), fs.inExists = false → fs.m4Exists = false →
      fs.contents = none → check_generated_file path fs = .ok) ∧
    (∀ (path : Chars) (fs : FS) (original rewritten updated : Option Chars)
      (ar : Bool) (t : Option Chars),
      ¬(updated = rewritten ∨ updated = original) →
      check_generated_file path fs = .generated t →
      edit_formatted_file path fs original rewritten updated false ar =
        .generatedFile path t) := by
  refine ⟨?_, ?_, ?_, ?_, ?_⟩
  · intro path fs h
    unfold check_generated_file
    simp [h]
  · intro path fs h1 h2
    unfold check_generated_file
    simp [h1, h2]
  · intro path fs c h1 h2 h3
    unfold check_generated_file
    simp only [h1, h2, h3, Bool.false_eq_true, if_false]
    by_cases hm : ((pySplit '\n' c).take 21).any (containsSub "DO NOT EDIT".data) = true
    · simp [hm]
    · simp [hm]
  · intro path fs h1 h2 h3
    unfold check_generated_file
    simp [h1, h2, h3]
  · intro path fs original rewritten updated ar t hne hgen
    unfold edit_formatted_file
    rw [if_neg hne]
    simp [hgen]

/-- Witness for C8: a `DO NOT EDIT` marker on line 2 is detected; a
matching `debian/control.in` makes `edit_formatted_file` raise
`GeneratedFile` naming the template instead of writing. -/
theorem C8_generated_file_detection_witness :
    check_generated_file "debian/control".data
      ⟨false, false, some "x\nq DO NOT EDIT q\ny\n".data⟩ = .generated none ∧
    edit_formatted_file "debian/control".data ⟨true, false, some "a".data⟩
      (some "a".data) (some "a".data) (some "b".data) false false =
      .generatedFile "debian/control".data (some "debian/control.in".data) := by
  constructor
  · exact (C8_generated_file_detection.2.2.1 "debian/control".data
      ⟨false, false, some "x\nq DO NOT EDIT q\ny\n".data⟩
      "x\nq DO NOT EDIT q\ny\n".data rfl rfl rfl).mpr (by decide)
  · exact C8_generated_file_detection.2.2.2.2 "debian/control".data
      ⟨true, false, some "a".data⟩ (some "a".data) (some "a".data)
      (some "b".data) false (some "debian/control.in".data) (by decide)
      (C8_generated_file_detection.1 "debian/control".data
        ⟨true, false, some "a".data⟩ rfl)


/-- Helper: `Version` comparison succeeds on valid version strings. -/
theorem vcmp_valid {a b : Chars} (ha : validVersion a = true)
    (hb : validVersion b = true) : vcmp a b = .ok (pyVersionCmp a b) := by
  unfold vcmp pyVersionE
  rw [if_pos ha, if_pos hb]
  rfl

/-- Helper: bind on a successful `Except`. -/
theorem ok_bind {e a b : Type} (x : a) (f : a → Except e b) :
    (Except.ok x >>= f) = f x := rfl

/-- Shared helper: `is_dep_implied` computes the spec's implication table
on the five standard operators. -/
theorem dep_implied_table (dep outer : PkgRelation)
    (hd : tableVersion dep.version = true)
    (ho : tableVersion outer.version = true) :
    is_dep_implied dep outer = .ok (depImpliedSpec dep outer) := by
  by_cases hname : dep.name ≠ outer.name
  · simp [is_dep_implied, depImpliedSpec, hname]
  · match hdv : dep.version with
    | none => simp [is_dep_implied, depImpliedSpec, hname, hdv]
    | some (dop, dv) =>
      match hov : outer.version with
      | none => simp [is_dep_implied, depImpliedSpec, hname, hdv, hov]
      | some (oop, ov) =>
        rw [hdv] at hd
        rw [hov] at ho
        simp only [tableVersion, Bool.and_eq_true] at hd ho
        obtain ⟨hdop, hdvv⟩ := hd
        obtain ⟨hoop, hovv⟩ := ho
        by_cases heq : oop = dop ∧ ov = dv
        · obtain ⟨h1, h2⟩ := heq
          subst h1
          subst h2
          simp [is_dep_implied, depImpliedSpec, hname, hdv, hov]
        · have hne : ¬(oop = dop ∧ ov = dv) := heq
          simp only [stdOp, Bool.or_eq_true, decide_eq_true_eq] at hdop hoop
          rcases hdop with (((h1 | h1) | h1) | h1) | h1 <;>
            rcases hoop with (((h2 | h2) | h2) | h2) | h2 <;>
            subst h1 <;> subst h2 <;>
            simp [is_dep_implied, depImpliedSpec, hname, hdv, hov, hne,
              vcmp_valid hovv hdvv, ok_bind, pure, Except.pure] <;>
            first
            | (cases pyVersionCmp ov dv <;> rfl)
            | (have hovdv : ov ≠ dv := fun hh => hne ⟨rfl, hh⟩
               rw [if_neg hovdv]
               simp [hovdv])

/-- C4: `is_dep_implied` follows the spec's implication table on the five
standard operators — name mismatch false, unversioned inner true, equal
constraints true, then the operator table with everything else false —
and the two `is_relation_implied` examples behave as stated. -/
theorem C4_dep_implication_table :
    (∀ dep outer : PkgRelation, tableVersion dep.version = true →
      tableVersion outer.version = true →
      is_dep_implied dep outer = .ok (depImpliedSpec dep outer)) ∧
    is_relation_implied "bzr (>= 3)".data "bzr (= 3)".data = .ok true ∧
    is_relation_implied "bzr (= 3)".data "bzr (>= 3)".data = .ok false :=
  ⟨dep_implied_table, by decide, by decide⟩

/-- Witness for C4 at a concrete operator pair. -/
theorem C4_dep_implication_table_witness :
    (tableVersion (some (">=".data, "3".data)) = true ∧
      tableVersion (some (">>".data, "4".data)) = true) ∧
    is_dep_implied ⟨"bzr".data, some (">=".data, "3".data), none, none, none⟩
        ⟨"bzr".data, some (">>".data, "4".data), none, none, none⟩ =
      .ok (depImpliedSpec
        ⟨"bzr".data, some (">=".data, "3".data), none, none, none⟩
        ⟨"bzr".data, some (">>".data, "4".data), none, none, none⟩) := by
  refine ⟨⟨by decide, by decide⟩, ?_⟩
  exact C4_dep_implication_table.1
    ⟨"bzr".data, some (">=".data, "3".data), none, none, none⟩
    ⟨"bzr".data, some (">>".data, "4".data), none, none, none⟩
    (by decide) (by decide)

/-- Helper: `anyME` with an error-free body computes `List.any`. -/
theorem anyME_ok {a : Type} {f : a → Except PyErr Bool} {g : a → Bool} :
    ∀ l : List a, (∀ x ∈ l, f x = .ok (g x)) → anyME f l = .ok (l.any g)
  | [], _ => rfl
  | x :: xs, h => by
    have hx : f x = .ok (g x) := h x (by simp)
    unfold anyME
    rw [hx, ok_bind]
    by_cases hg : g x = true
    · simp [hg]
    · have : g x = false := by simpa using hg
      rw [this]
      simp only [Bool.false_eq_true, if_false, List.any_cons, this,
        Bool.false_or]
      exact anyME_ok xs (fun y hy => h y (by simp [hy]))

/-- C5: over parsed OR-groups with table-compatible constraints,
`is_relation_implied` returns true exactly when the groups are equal or
some inner term is implied by some outer term (existential on both
sides); and it is reflexive on every parseable relation string. -/
theorem C5_relation_implication_existential :
    (∀ inner outer : List PkgRelation,
      (∀ r ∈ inner, tableVersion r.version = true) →
      (∀ r ∈ outer, tableVersion r.version = true) →
      (is_relation_implied_l inner outer = .ok true ↔
        inner = outer ∨ ∃ i ∈ inner, ∃ o ∈ outer, is_dep_implied i o = .ok true)) ∧
    (∀ (s : Chars) (rel : List PkgRelation), parse_relation s = .ok rel →
      is_relation_implied s s = .ok true) := by
  constructor
  · intro inner outer hin hout
    by_cases hio : inner = outer
    · simp [is_relation_implied_l, hio]
    · unfold is_relation_implied_l
      rw [if_neg hio]
      have hstep : anyME (fun i => anyME (fun o => is_dep_implied i o) outer) inner =
          .ok (inner.any fun i => outer.any fun o => depImpliedSpec i o) := by
        apply anyME_ok
        intro i hi
        apply anyME_ok
        intro o ho
        exact dep_implied_table i o (hin i hi) (hout o ho)
      rw [hstep]
      simp only [Except.ok.injEq, List.any_eq_true]
      constructor
      · rintro h
        right
        obtain ⟨i, hi, o, ho, hspec⟩ := h
        exact ⟨i, hi, o, ho, by rw [dep_implied_table i o (hin i hi) (hout o ho), hspec]⟩
      · rintro (h | ⟨i, hi, o, ho, himp⟩)
        · exact absurd h hio
        · have := dep_implied_table i o (hin i hi) (hout o ho)
          rw [this] at himp
          have hspec : depImpliedSpec i o = true := Except.ok.inj himp
          exact ⟨i, hi, o, ho, hspec⟩
  · intro s rel h
    unfold is_relation_implied
    rw [h, ok_bind, ok_bind]
    unfold is_relation_implied_l
    simp

/-- Witness for C5 at concrete inputs. -/
theorem C5_relation_implication_existential_witness :
    ((is_relation_implied_l
        [⟨"bzr".data, some (">=".data, "3".data), none, none, none⟩]
        [⟨"bzr".data, some ("=".data, "3".data), none, none, none⟩] = .ok true ↔
      ([⟨"bzr".data, some (">=".data, "3".data), none, none, none⟩] :
          List PkgRelation) =
          [⟨"bzr".data, some ("=".data, "3".data), none, none, none⟩] ∨
        ∃ i ∈ [(⟨"bzr".data, some (">=".data, "3".data), none, none, none⟩ :
            PkgRelation)],
          ∃ o ∈ [(⟨"bzr".data, some ("=".data, "3".data), none, none, none⟩ :
            PkgRelation)], is_dep_implied i o = .ok true)) ∧
    is_relation_implied "foo (>= 2) | bar".data
      "foo (>= 2) | bar".data = .ok true := by
  constructor
  · exact C5_relation_implication_existential.1
      [⟨"bzr".data, some (">=".data, "3".data), none, none, none⟩]
      [⟨"bzr".data, some ("=".data, "3".data), none, none, none⟩]
      (by decide) (by decide)
  · exact C5_relation_implication_existential.2 "foo (>= 2) | bar".data
      [⟨"foo".data, some (">=".data, "2".data), none, none, none⟩,
        ⟨"bar".data, none, none, none, none⟩] (by decide)

/-- Helper: `takeWhile` only keeps satisfying elements. -/
theorem all_takeWhile (p : Char → Bool) : ∀ l : Chars, (l.takeWhile p).all p = true
  | [] => rfl
  | c :: cs => by
    by_cases h : p c = true
    · simp [List.takeWhile_cons, h, all_takeWhile p cs]
    · simp [List.takeWhile_cons, h]

/-- Helper: members of a successful `mapME` come from successful images. -/
theorem mapME_ok_mem {a b : Type} {f : a → Except PyErr b} :
    ∀ {l : List a} {r : List b}, mapME f l = .ok r →
      ∀ y ∈ r, ∃ x ∈ l, f x = .ok y := by
  intro l
  induction l with
  | nil =>
    intro r h y hy
    cases h
    simp at hy
  | cons x xs ih =>
    intro r h y hy
    unfold mapME at h
    match hx : f x with
    | .error e => rw [hx] at h; exact absurd h (by simp [Except.bind, Bind.bind])
    | .ok v =>
      rw [hx, ok_bind] at h
      match hxs : mapME f xs with
      | .error e => rw [hxs] at h; exact absurd h (by simp [Except.bind, Bind.bind])
      | .ok vs =>
        rw [hxs, ok_bind] at h
        cases h
        rcases List.mem_cons.mp hy with rfl | hmem
        · exact ⟨x, by simp, hx⟩
        · obtain ⟨x', hx', hfx'⟩ := ih hxs y hmem
          exact ⟨x', by simp [hx'], hfx'⟩

/-- Helper: the grammar's version class equals the constructor's class. -/
theorem versChar_eq_verChar (c : Char) : versChar c = verChar c := by
  unfold versChar verChar Char.isAlphanum
  cases hA : c.isAlpha <;> cases hD : c.isDigit <;> simp <;>
    apply Bool.eq_iff_iff.mpr <;>
    simp only [Bool.or_eq_true, decide_eq_true_eq] <;> tauto

/-- Helper: a `versChar` run is valid constructor input when nonempty. -/
theorem takeWhile_all_verChar (l : Chars) :
    (l.takeWhile versChar).all verChar = true := by
  have h1 := all_takeWhile versChar l
  rw [List.all_eq_true] at h1 ⊢
  intro x hx
  rw [← versChar_eq_verChar]
  exact h1 x hx

/-- Helper: a version step capture is a valid constructor input. -/
theorem stepVersion_valid {s : Chars} {opv : Chars × Chars} {rest : Chars}
    (h : stepVersion s = some (some opv, rest)) : validVersion opv.2 = true := by
  obtain ⟨op, v⟩ := opv
  unfold stepVersion at h
  split at h
  · split at h
    · simp only [] at h
      split at h
      · exact absurd h (by simp)
      · split at h
        · exact absurd h (by simp)
        · split at h
          · split at h
            · cases h
              simp only [validVersion, Bool.and_eq_true, decide_eq_true_eq, ne_eq]
              exact ⟨by assumption, takeWhile_all_verChar _⟩
            · exact absurd h (by simp)
          · exact absurd h (by simp)
    · exact absurd h (by simp)
  · exact absurd h (by simp)

/-- Helper: any version captured by `relMatch` is valid. -/
theorem relMatch_version_valid {raw : Chars} {m : RelMatch}
    (hm : relMatch raw = some m) :
    (match m.version with
     | none => True
     | some opv => validVersion opv.2 = true) := by
  unfold relMatch at hm
  split at hm
  · cases hm
  · split at hm
    · cases hm
    · split at hm
      · cases hm
      · split at hm
        · cases hm
        · split at hm
          · cases hm
          · cases hm
            split
            · trivial
            · rename_i opv hv
              subst hv
              exact stepVersion_valid (by assumption)

/-- Helper: every atom `parse_rel` produces has a valid version. -/
theorem parse_rel_versionOK {raw : Chars} {r : PkgRelation}
    (h : parse_rel raw = .ok r) : versionOK r = true := by
  unfold parse_rel at h
  split at h
  · cases h
    rfl
  · rename_i m hm
    have hv := relMatch_version_valid hm
    split at h
    · cases h
      unfold versionOK
      split at hv
      · simp_all
      · simp_all
    · rename_i content harchs
      match hpa : parse_archs content with
      | .error e =>
        rw [hpa] at h
        exact absurd h (by simp [Except.map, Except.bind, Bind.bind])
      | .ok l =>
        rw [hpa] at h
        simp only [Except.map, ok_bind] at h
        cases h
        unfold versionOK
        split at hv
        · simp_all
        · simp_all

/-- Helper: every atom `parse_relation` produces has a valid version. -/
theorem parse_relation_versionOK {t : Chars} {rel : List PkgRelation}
    (h : parse_relation t = .ok rel) : rel.all versionOK = true := by
  unfold parse_relation pkgRelationParse at h
  split at h
  · cases h
    rfl
  · rw [List.all_eq_true]
    intro r hr
    obtain ⟨x, _, hx⟩ := mapME_ok_mem h r hr
    exact parse_rel_versionOK hx

/-- Helper: every entry `parse_relations` produces has valid versions. -/
theorem parse_relations_versionOK {text : Chars} {R : List RelEntry}
    (h : parse_relations text = .ok R) : atomVersionsValid R = true := by
  unfold parse_relations at h
  split at h
  · cases h
    rfl
  · unfold atomVersionsValid
    rw [List.all_eq_true]
    intro e he
    obtain ⟨seg, _, hseg⟩ := mapME_ok_mem h e he
    unfold parseSegment at hseg
    split at hseg
    · cases hseg
      rfl
    · simp only [] at hseg
      match hpr : parse_relation (List.take
          ((List.dropWhile pyIsSpace seg).length -
            (List.takeWhile pyIsSpace (List.dropWhile pyIsSpace seg).reverse).reverse.length)
          (List.dropWhile pyIsSpace seg)) with
      | .error er =>
        rw [hpr] at hseg
        exact absurd hseg (by simp [Except.bind, Bind.bind])
      | .ok rel =>
        rw [hpr, ok_bind] at hseg
        cases hseg
        exact parse_relation_versionOK hpr

/-- Helper: the `ensure_exact_version` scan raises exactly when some entry
has two or more names with the package first. -/
theorem eevGo_isErr (p v : Chars) :
    ∀ (es : List RelEntry) (found changed : Bool) (acc : List RelEntry),
    es.all (fun e => e.rel.all versionOK) = true →
    isErr (eevGo p v found changed acc es) =
      es.any (fun e =>
        decide ((e.rel.map (·.name)).length > 1) &&
        decide ((e.rel.map (·.name)).headI = p))
  | [], _, _, _, _ => rfl
  | e :: es, found, changed, acc, hval => by
    have hvale : e.rel.all versionOK = true := by
      rw [List.all_cons, Bool.and_eq_true] at hval
      exact hval.1
    have hvales : es.all (fun e => e.rel.all versionOK) = true := by
      rw [List.all_cons, Bool.and_eq_true] at hval
      exact hval.2
    unfold eevGo
    simp only [List.any_cons]
    match hb : (decide ((e.rel.map (·.name)).length > 1) &&
        decide ((e.rel.map (·.name)).headI = p)) with
    | true =>
      simp [isErr]
    | false =>
      rw [if_neg (by simp), Bool.false_or]
      by_cases hne : e.rel.map (·.name) ≠ [p]
      · rw [if_pos hne]
        exact eevGo_isErr p v es found changed (e :: acc) hvales
      · rw [if_neg hne]
        match hv0 : (e.rel.headI).version with
        | none =>
          simp only [ok_bind, pure, Except.pure]
          split
          · exact eevGo_isErr p v es true true _ hvales
          · exact eevGo_isErr p v es true changed _ hvales
        | some (op, vv) =>
          have hrel : e.rel = [e.rel.headI] := by
            have : (e.rel.map (·.name)) = [p] := not_not.mp hne
            match hr : e.rel with
            | [] => rw [hr] at this; cases this
            | [x] => rfl
            | x :: y :: zs => rw [hr] at this; cases this
          have hvok : versionOK (e.rel.headI) = true := by
            rw [List.all_eq_true] at hvale
            exact hvale _ (by rw [hrel]; simp)
          have hvalid : validVersion vv = true := by
            unfold versionOK at hvok
            rw [hv0] at hvok
            exact hvok
          have hpe : pyVersionE vv = .ok () := by
            unfold pyVersionE
            rw [if_pos hvalid]
          simp only [hpe, ok_bind, pure, Except.pure]
          split
          · exact eevGo_isErr p v es true true _ hvales
          · exact eevGo_isErr p v es true changed _ hvales

/-- Helper: `_add_relation` without an explicit position never raises. -/
theorem _add_relation_none_ok (R : List RelEntry) (rel : List PkgRelation) :
    _add_relation R rel none =
      .ok (addRelInsert (addRelPrep R).1 rel (addRelPrep R).1.length
        (addRelWs (addRelPrep R).1).1 (addRelWs (addRelPrep R).1).2 ++
        (addRelPrep R).2.toList) := by
  unfold _add_relation
  simp

/-- Helper: `ensure_exact_version` (default position) raises exactly when
some entry's OR-group has two or more names with the package first. -/
theorem eev_isErr {s pkg v : Chars} {R : List RelEntry}
    (hp : parse_relations s = .ok R) (hv : validVersion v = true) :
    isErr (ensure_exact_version s pkg v) =
      R.any (fun e =>
        decide ((e.rel.map (·.name)).length > 1) &&
        decide ((e.rel.map (·.name)).headI = pkg)) := by
  unfold ensure_exact_version
  have hpe : pyVersionE v = .ok () := by
    unfold pyVersionE
    rw [if_pos hv]
  rw [hpe, ok_bind, hp, ok_bind]
  have hval : R.all (fun e => e.rel.all versionOK) = true :=
    parse_relations_versionOK hp
  have hgo := eevGo_isErr pkg v R false false [] hval
  match hres : eevGo pkg v false false [] R with
  | .error e =>
    rw [hres] at hgo
    simp only [isErr] at hgo
    rw [← hgo]
    rfl
  | .ok (rels, found, changed) =>
    rw [hres] at hgo
    simp only [isErr] at hgo
    rw [ok_bind]
    simp only []
    by_cases hf : found = true
    · subst hf
      simp only [Bool.not_true, Bool.false_eq_true, if_false, pure,
        Except.pure, ok_bind]
      rw [← hgo]
      split <;> rfl
    · have hf0 : found = false := by simpa using hf
      subst hf0
      simp only [Bool.not_false, if_true, _add_relation_none_ok, ok_bind,
        pure, Except.pure]
      rw [← hgo]
      rfl

/-- Helper: `get_relation`'s scan raises `ValueError` on the first entry
containing the package when it is complex, returns it when it is exactly
the simple dependency, and raises `KeyError` when no entry contains the
package. -/
theorem getRelGo_spec (pkg : Chars) :
    ∀ (es : List RelEntry) (i : Nat),
    (match es.find? (fun e => (e.rel.map (·.name)).contains pkg) with
     | none => getRelGo pkg i es = .error .keyError
     | some e =>
       if e.rel.length > 1 then getRelGo pkg i es = .error .valueError
       else ∃ j, getRelGo pkg i es = .ok (j, e.rel))
  | [], _ => rfl
  | e :: es, i => by
    match hc : (e.rel.map (·.name)).contains pkg with
    | true =>
      rw [List.find?_cons_of_pos _ (by simpa using hc)]
      simp only []
      by_cases hlen : e.rel.length > 1
      · rw [if_pos hlen]
        unfold getRelGo
        simp only []
        rw [if_pos hc, if_pos (by simpa using hlen)]
      · rw [if_neg hlen]
        have hnames : e.rel.map (·.name) = [pkg] := by
          match hr : e.rel with
          | [] => rw [hr] at hc; cases hc
          | [x] =>
            rw [hr] at hc
            have hx : pkg = x.name := by
              have hb : (pkg == x.name) = true := by
                simpa [List.contains_cons] using hc
              exact eq_of_beq hb
            simp [hx]
          | x :: y :: zs =>
            rw [hr] at hlen
            exact absurd (by simp) hlen
        refine ⟨i, ?_⟩
        unfold getRelGo
        simp only []
        rw [if_pos hc, if_neg (by simpa using hlen), if_pos hnames]
    | false =>
      rw [List.find?_cons_of_neg _ (by rw [hc]; exact Bool.false_ne_true)]
      have ih := getRelGo_spec pkg es (i + 1)
      have hstep : getRelGo pkg i (e :: es) = getRelGo pkg (i + 1) es := by
        simp only [getRelGo]
        rw [if_neg (by rw [hc]; exact Bool.false_ne_true)]
      rw [hstep]
      exact ih

/-- C6 counterexample: the package participates in a complex OR-group
(`"bar | foo"` with package `foo`) yet `ensure_exact_version` does not
raise — it leaves the group alone and appends a new entry, because the
refusal check only fires when the package is the group's first name. -/
theorem C6_counterexample :
    ensure_exact_version "bar | foo".data "foo".data "2".data =
      .ok "bar | foo, foo (= 2)".data := by decide

/-- C6 amended: the mutating operations update only entries whose OR-group
is exactly the single named package; `ensure_exact_version` raises exactly
when some OR-group has two or more names with the named package first (so
`ensure_exact_version("foo | bar", "foo", "2")` raises), and
`get_relation` raises when the first OR-group containing the package is
complex and `KeyError` when none contains it. -/
theorem C6_complex_rule_refusal :
    ensure_exact_version "foo | bar".data "foo".data "2".data =
      .error .complexRule ∧
    (∀ (s pkg v : Chars) (R : List RelEntry), parse_relations s = .ok R →
      validVersion v = true →
      isErr (ensure_exact_version s pkg v) =
        R.any (fun e =>
          decide ((e.rel.map (·.name)).length > 1) &&
          decide ((e.rel.map (·.name)).headI = pkg))) ∧
    (∀ (s pkg : Chars) (R : List RelEntry), parse_relations s = .ok R →
      (match R.find? (fun e => (e.rel.map (·.name)).contains pkg) with
       | none => get_relation s pkg = .error .keyError
       | some e =>
         if e.rel.length > 1 then get_relation s pkg = .error .valueError
         else ∃ j, get_relation s pkg = .ok (j, e.rel))) := by
  refine ⟨by decide, ?_, ?_⟩
  · intro s pkg v R hp hv
    exact eev_isErr hp hv
  · intro s pkg R hp
    have := getRelGo_spec pkg R 0
    unfold get_relation
    rw [hp, ok_bind]
    exact this

/-- Witness for C6 at concrete inputs. -/
theorem C6_complex_rule_refusal_witness :
    isErr (ensure_exact_version "baz, foo | bar".data "foo".data "2".data) =
      [(⟨[], [⟨"baz".data, none, none, none, none⟩], []⟩ : RelEntry),
        ⟨[' '], [⟨"foo".data, none, none, none, none⟩,
          ⟨"bar".data, none, none, none, none⟩], []⟩].any (fun e =>
        decide ((e.rel.map (·.name)).length > 1) &&
        decide ((e.rel.map (·.name)).headI = "foo".data)) := by
  exact C6_complex_rule_refusal.2.1 "baz, foo | bar".data "foo".data "2".data
    [⟨[], [⟨"baz".data, none, none, none, none⟩], []⟩,
      ⟨[' '], [⟨"foo".data, none, none, none, none⟩,
        ⟨"bar".data, none, none, none, none⟩], []⟩]
    (by decide) (by decide)

/-! ## Round-trip machinery -/

/-- Helper: `takeWhile` over an append with an all-true prefix and a
false-headed suffix. -/
theorem takeWhile_app {p : Char → Bool} :
    ∀ {xs ys : Chars}, (∀ a ∈ xs, p a = true) →
      (∀ y, ys.head? = some y → p y = false) →
      (xs ++ ys).takeWhile p = xs
  | [], [], _, _ => rfl
  | [], y :: ys, _, h2 => by
    simp [List.takeWhile_cons, h2 y rfl]
  | x :: xs, ys, h1, h2 => by
    have hx : p x = true := h1 x (by simp)
    rw [List.cons_append, List.takeWhile_cons, if_pos hx,
      takeWhile_app (fun a ha => h1 a (by simp [ha])) h2]

/-- Helper: `dropWhile` over the same split. -/
theorem dropWhile_app {p : Char → Bool} :
    ∀ {xs ys : Chars}, (∀ a ∈ xs, p a = true) →
      (∀ y, ys.head? = some y → p y = false) →
      (xs ++ ys).dropWhile p = ys
  | [], [], _, _ => rfl
  | [], y :: ys, _, h2 => by
    simp [List.dropWhile_cons, h2 y rfl]
  | x :: xs, ys, h1, h2 => by
    have hx : p x = true := h1 x (by simp)
    rw [List.cons_append, List.dropWhile_cons, if_pos hx,
      dropWhile_app (fun a ha => h1 a (by simp [ha])) h2]

/-- Helper: dropping a false head leaves the list alone. -/
theorem dropWhile_id {p : Char → Bool} {l : Chars}
    (h : ∀ y, l.head? = some y → p y = false) : l.dropWhile p = l := by
  match l with
  | [] => rfl
  | y :: ys => simp [List.dropWhile_cons, h y rfl]

/-- Helper: `pySplit` never returns the empty list. -/
theorem pySplit_ne_nil (c : Char) : ∀ l : Chars, pySplit c l ≠ []
  | [] => by simp [pySplit]
  | x :: xs => by
    simp only [pySplit]
    cases h : pySplit c xs with
    | nil => simp
    | cons r rs =>
      show ¬(if x = c then [] :: r :: rs else (x :: r) :: rs) = []
      split <;> simp

/-- Helper: `pySplit` peels a leading separator. -/
theorem pySplit_cons_sep (c : Char) (b : Chars) :
    pySplit c (c :: b) = [] :: pySplit c b := by
  simp only [pySplit]
  cases h : pySplit c b with
  | nil => exact absurd h (pySplit_ne_nil c b)
  | cons r rs => simp

/-- Helper: `pySplit` pushes a non-separator head into the first piece. -/
theorem pySplit_cons_nosep (c x : Char) (b : Chars) (hx : ¬x = c) :
    pySplit c (x :: b) = (x :: (pySplit c b).headI) :: (pySplit c b).tail := by
  simp only [pySplit]
  cases h : pySplit c b with
  | nil => exact absurd h (pySplit_ne_nil c b)
  | cons r rs =>
    show (if x = c then [] :: r :: rs else (x :: r) :: rs) = _
    simp [hx]

/-- Helper: `pySplit` pulls off a separator-free prefix. -/
theorem pySplit_app (c : Char) :
    ∀ {a : Chars} (b : Chars), c ∉ a →
      pySplit c (a ++ c :: b) = a :: pySplit c b
  | [], b, _ => by
    simpa using pySplit_cons_sep c b
  | x :: xs, b, hna => by
    have hx : ¬x = c := fun hh => hna (by simp [hh])
    have ih := pySplit_app c (a := xs) b (fun hm => hna (by simp [hm]))
    rw [List.cons_append, pySplit_cons_nosep c x _ hx, ih]
    rfl

/-- Helper: `pySplit` of a separator-free string is one piece. -/
theorem pySplit_nosep (c : Char) :
    ∀ {a : Chars}, c ∉ a → pySplit c a = [a]
  | [], _ => rfl
  | x :: xs, hna => by
    have hx : ¬x = c := fun hh => hna (by simp [hh])
    have ih := pySplit_nosep c (a := xs) (fun hm => hna (by simp [hm]))
    rw [pySplit_cons_nosep c x _ hx, ih]
    rfl

/-- Helper: splitting a join on a separator absent from every piece. -/
theorem pySplit_join (c : Char) :
    ∀ {segs : List Chars}, segs ≠ [] → (∀ s ∈ segs, c ∉ s) →
      pySplit c (pyJoin c segs) = segs
  | [], h, _ => absurd rfl h
  | [s], _, hfree => by
    have h1 : pyJoin c [s] = s := by
      simp [pyJoin, List.intercalate, List.intersperse]
    rw [h1]
    exact pySplit_nosep c (hfree s (by simp))
  | s :: s' :: segs, _, hfree => by
    have hjoin : pyJoin c (s :: s' :: segs) = s ++ c :: pyJoin c (s' :: segs) := by
      simp [pyJoin, List.intercalate, List.intersperse]
    rw [hjoin, pySplit_app c _ (hfree s (by simp))]
    rw [pySplit_join c (by simp) (fun x hx => hfree x (by simp [hx]))]

/-! ## Character-class facts -/

/-- Helper: alphanumeric characters are not whitespace. -/
theorem alnum_not_ws {c : Char} (h : c.isAlphanum = true) : pyIsSpace c = false := by
  cases hw : pyIsSpace c
  · rfl
  · exfalso
    unfold pyIsSpace at hw
    simp only [Bool.or_eq_true, decide_eq_true_eq] at hw
    rcases hw with ((((rfl | rfl) | rfl) | rfl) | rfl) | rfl <;> exact absurd h (by decide)

/-- Helper: alphanumeric characters are not separators. -/
theorem alnum_plain {c : Char} (h : c.isAlphanum = true) : PlainChar c := by
  unfold PlainChar
  refine ⟨?_, ?_, ?_⟩ <;> rintro rfl <;> exact absurd h (by decide)

/-- Helper: package-name characters are not whitespace. -/
theorem nameChar_not_ws {c : Char} (h : nameChar c = true) : pyIsSpace c = false := by
  unfold nameChar at h
  simp only [Bool.or_eq_true, decide_eq_true_eq] at h
  rcases h with ((h | rfl) | rfl) | rfl
  · exact alnum_not_ws h
  all_goals decide

/-- Helper: package-name characters are not separators. -/
theorem nameChar_plain {c : Char} (h : nameChar c = true) : PlainChar c := by
  unfold nameChar at h
  simp only [Bool.or_eq_true, decide_eq_true_eq] at h
  rcases h with ((h | rfl) | rfl) | rfl
  · exact alnum_plain h
  all_goals exact ⟨by decide, by decide, by decide⟩

/-- Helper: arch-qualifier characters are not whitespace. -/
theorem archqualChar_not_ws {c : Char} (h : archqualChar c = true) : pyIsSpace c = false := by
  unfold archqualChar at h
  simp only [Bool.or_eq_true, decide_eq_true_eq] at h
  rcases h with h | rfl
  · exact alnum_not_ws h
  · decide

/-- Helper: arch-qualifier characters are not separators. -/
theorem archqualChar_plain {c : Char} (h : archqualChar c = true) : PlainChar c := by
  unfold archqualChar at h
  simp only [Bool.or_eq_true, decide_eq_true_eq] at h
  rcases h with h | rfl
  · exact alnum_plain h
  · exact ⟨by decide, by decide, by decide⟩

/-- Helper: relation-operator characters are not whitespace. -/
theorem relopChar_not_ws {c : Char} (h : relopChar c = true) : pyIsSpace c = false := by
  unfold relopChar at h
  simp only [Bool.or_eq_true, decide_eq_true_eq] at h
  rcases h with (rfl | rfl) | rfl <;> decide

/-- Helper: relation-operator characters are not separators. -/
theorem relopChar_plain {c : Char} (h : relopChar c = true) : PlainChar c := by
  unfold relopChar at h
  simp only [Bool.or_eq_true, decide_eq_true_eq] at h
  rcases h with (rfl | rfl) | rfl <;> exact ⟨by decide, by decide, by decide⟩

/-- Helper: version characters are not whitespace. -/
theorem versChar_not_ws {c : Char} (h : versChar c = true) : pyIsSpace c = false := by
  unfold versChar at h
  simp only [Bool.or_eq_true, decide_eq_true_eq] at h
  rcases h with ((((h | rfl) | rfl) | rfl) | rfl) | rfl
  · exact alnum_not_ws h
  all_goals decide

/-- Helper: version characters are not separators. -/
theorem versChar_plain {c : Char} (h : versChar c = true) : PlainChar c := by
  unfold versChar at h
  simp only [Bool.or_eq_true, decide_eq_true_eq] at h
  rcases h with ((((h | rfl) | rfl) | rfl) | rfl) | rfl
  · exact alnum_plain h
  all_goals exact ⟨by decide, by decide, by decide⟩

/-- Helper: word characters are not whitespace. -/
theorem wordChar_not_ws {c : Char} (h : wordChar c = true) : pyIsSpace c = false := by
  unfold wordChar at h
  simp only [Bool.or_eq_true, decide_eq_true_eq] at h
  rcases h with h | rfl
  · exact alnum_not_ws h
  · decide

/-- Helper: word characters are not separators. -/
theorem wordChar_plain {c : Char} (h : wordChar c = true) : PlainChar c := by
  unfold wordChar at h
  simp only [Bool.or_eq_true, decide_eq_true_eq] at h
  rcases h with h | rfl
  · exact alnum_plain h
  · exact ⟨by decide, by decide, by decide⟩

/-- Helper: canonical profile characters are not whitespace. -/
theorem profChar_not_ws {c : Char} (h : profChar c = true) : pyIsSpace c = false := by
  unfold profChar at h
  simp only [Bool.and_eq_true, Bool.not_eq_true'] at h
  exact h.1.1.1.1.1

/-- Helper: canonical profile characters are not separators. -/
theorem profChar_plain {c : Char} (h : profChar c = true) : PlainChar c := by
  unfold profChar at h
  simp only [Bool.and_eq_true, Bool.not_eq_true', decide_eq_true_eq, ne_eq] at h
  refine ⟨h.1.1.2, h.1.2, ?_⟩
  rintro rfl
  exact absurd h.1.1.1.1.1 (by decide)

/-! ## Strip and join algebra -/

/-- Helper: dropping from the right across an append with an all-`p` tail. -/
theorem rdrop_app {p : Char → Bool} {s t : Chars} (ht : ∀ a ∈ t, p a = true)
    (hs : LastNot p s) : ((s ++ t).reverse.dropWhile p).reverse = s := by
  rw [List.reverse_append,
    dropWhile_app (fun a ha => ht a (List.mem_reverse.mp ha))
      (fun y hy => hs y (by rwa [List.head?_reverse] at hy)),
    List.reverse_reverse]

/-- Helper: `rstrip` removes exactly an all-whitespace tail. -/
theorem pyRStrip_app {s t : Chars} (ht : ∀ a ∈ t, pyIsSpace a = true)
    (hs : LastNot pyIsSpace s) : pyRStrip (s ++ t) = s :=
  rdrop_app ht hs

/-- Helper: `rstrip` of a string ending in non-whitespace is itself. -/
theorem pyRStrip_id {s : Chars} (hs : LastNot pyIsSpace s) : pyRStrip s = s := by
  have h := pyRStrip_app (s := s) (t := []) (by simp) hs
  simpa using h

/-- Helper: `lstrip` removes exactly an all-whitespace head. -/
theorem pyLStrip_app {s t : Chars} (ht : ∀ a ∈ t, pyIsSpace a = true)
    (hs : HeadNot pyIsSpace s) : pyLStrip (t ++ s) = s :=
  dropWhile_app ht hs

/-- Helper: `lstrip` of a string starting in non-whitespace is itself. -/
theorem pyLStrip_id {s : Chars} (hs : HeadNot pyIsSpace s) : pyLStrip s = s :=
  dropWhile_id hs

/-- Helper: two-sided strip of a sandwich, for any character set. -/
theorem stripSet_sandwich {p : Char → Bool} {t1 s t2 : Chars}
    (h1 : ∀ a ∈ t1, p a = true) (h2 : ∀ a ∈ t2, p a = true) (hs0 : s ≠ [])
    (hh : HeadNot p s) (hl : LastNot p s) :
    pyStripSet p (t1 ++ (s ++ t2)) = s := by
  unfold pyStripSet
  have hd : (t1 ++ (s ++ t2)).dropWhile p = s ++ t2 := by
    apply dropWhile_app h1
    intro y hy
    match s, hs0, hh with
    | c :: s', _, hh =>
      simp only [List.cons_append, List.head?_cons, Option.some.injEq] at hy
      exact hy ▸ hh c rfl
  rw [hd]
  exact rdrop_app h2 hl

/-- Helper: `strip()` is the whitespace instance of the set strip. -/
theorem pyStrip_eq_stripSet (s : Chars) : pyStrip s = pyStripSet pyIsSpace s := rfl

/-- Helper: `strip` of a whitespace sandwich around a trimmed core. -/
theorem pyStrip_sandwich {t1 s t2 : Chars}
    (h1 : ∀ a ∈ t1, pyIsSpace a = true) (h2 : ∀ a ∈ t2, pyIsSpace a = true)
    (hs0 : s ≠ []) (hh : HeadNot pyIsSpace s) (hl : LastNot pyIsSpace s) :
    pyStrip (t1 ++ (s ++ t2)) = s :=
  stripSet_sandwich h1 h2 hs0 hh hl

/-- Helper: `strip` of a trimmed string is itself. -/
theorem pyStrip_id {s : Chars} (hs0 : s ≠ []) (hh : HeadNot pyIsSpace s)
    (hl : LastNot pyIsSpace s) : pyStrip s = s := by
  have h := @pyStrip_sandwich [] s [] (by simp) (by simp) hs0 hh hl
  simpa using h

/-- Helper: a string with a non-whitespace character does not strip to
nothing. -/
theorem pyStrip_ne_nil {s : Chars} {c : Char} (hc : c ∈ s)
    (hw : pyIsSpace c = false) : pyStrip s ≠ [] := by
  intro hnil
  unfold pyStrip at hnil
  have h1 : (s.dropWhile pyIsSpace).reverse.dropWhile pyIsSpace = [] := by
    cases he : (s.dropWhile pyIsSpace).reverse.dropWhile pyIsSpace
    · rfl
    · rw [he] at hnil; simp at hnil
  have h2 : ∀ a ∈ (s.dropWhile pyIsSpace).reverse, pyIsSpace a = true :=
    List.dropWhile_eq_nil_iff.mp h1
  have h3 : ∀ a ∈ s, pyIsSpace a = true := by
    intro a ha
    rcases List.takeWhile_append_dropWhile (p := pyIsSpace) (l := s) ▸ ha with h
    rcases List.mem_append.mp h with h | h
    · exact List.mem_takeWhile_imp h
    · exact h2 a (List.mem_reverse.mpr h)
  rw [h3 c hc] at hw
  cases hw

/-- Helper: a one-separator join of a singleton. -/
theorem pyJoin_single (c : Char) (s : Chars) : pyJoin c [s] = s := by
  simp [pyJoin, List.intercalate, List.intersperse]

/-- Helper: a one-separator join of at least two pieces. -/
theorem pyJoin_cons (c : Char) (s : Chars) {t : List Chars} (h : t ≠ []) :
    pyJoin c (s :: t) = s ++ c :: pyJoin c t := by
  match t with
  | a :: t' => simp [pyJoin, List.intercalate, List.intersperse]

/-- Helper: prefixing the first piece prefixes the join. -/
theorem pyJoin_cons_head (c x : Char) (h : Chars) (t : List Chars) :
    pyJoin c ((x :: h) :: t) = x :: pyJoin c (h :: t) := by
  cases t with
  | nil => rfl
  | cons a t' =>
    rw [show pyJoin c ((x :: h) :: a :: t') = (x :: h) ++ c :: pyJoin c (a :: t') from
        pyJoin_cons c _ (by simp),
      show pyJoin c (h :: a :: t') = h ++ c :: pyJoin c (a :: t') from
        pyJoin_cons c _ (by simp)]
    rfl

/-- Helper: joining what `pySplit` produced restores the string. -/
theorem pyJoin_pySplit (c : Char) : ∀ l : Chars, pyJoin c (pySplit c l) = l
  | [] => rfl
  | x :: xs => by
    by_cases hx : x = c
    · subst hx
      rw [pySplit_cons_sep]
      cases hsp : pySplit x xs with
      | nil => exact absurd hsp (pySplit_ne_nil x xs)
      | cons r rs =>
        rw [pyJoin_cons x [] (by simp)]
        have := pyJoin_pySplit x xs
        rw [hsp] at this
        rw [this]
        rfl
    · rw [pySplit_cons_nosep c x xs hx]
      cases hsp : pySplit c xs with
      | nil => exact absurd hsp (pySplit_ne_nil c xs)
      | cons r rs =>
        have := pyJoin_pySplit c xs
        rw [hsp] at this
        simp only [hsp, List.headI, List.tail]
        rw [pyJoin_cons_head, this]

/-- Helper: a member of an intercalation is in the separator or a piece. -/
theorem mem_joinSep {sep : Chars} {c : Char} :
    ∀ {ls : List Chars}, c ∈ List.intercalate sep ls → c ∈ sep ∨ ∃ p ∈ ls, c ∈ p
  | [], h => by simp [List.intercalate, List.intersperse] at h
  | [p], h => by
    simp only [List.intercalate, List.intersperse, List.flatten] at h
    right
    exact ⟨p, by simp, by simpa using h⟩
  | p :: q :: t, h => by
    have hj : List.intercalate sep (p :: q :: t) = p ++ (sep ++ List.intercalate sep (q :: t)) := by
      simp [List.intercalate, List.intersperse]
    rw [hj] at h
    rcases List.mem_append.mp h with h | h
    · exact Or.inr ⟨p, by simp, h⟩
    · rcases List.mem_append.mp h with h | h
      · exact Or.inl h
      · rcases mem_joinSep h with h | ⟨p', hp', hc⟩
        · exact Or.inl h
        · exact Or.inr ⟨p', by simp [hp'], hc⟩

/-- Helper: pruning keeps every line when no later line is blank. -/
theorem pruneLines_eq_self {L : List Chars}
    (h : ∀ l ∈ L.tail, ¬pyStrip l = []) : pruneLines L = L := by
  match L with
  | [] => rfl
  | l0 :: rest =>
    simp only [pruneLines]
    congr 1
    apply List.filter_eq_self.mpr
    intro a ha
    simpa using h a ha

/-- Helper: `pySplit` across an append whose prefix is separator-free,
stated through the head and tail of the suffix split. -/
theorem pySplit_app_nosep (c : Char) :
    ∀ {a : Chars} (b : Chars), c ∉ a →
      pySplit c (a ++ b) = (a ++ (pySplit c b).headI) :: (pySplit c b).tail
  | [], b, _ => by
    cases hsp : pySplit c b with
    | nil => exact absurd hsp (pySplit_ne_nil c b)
    | cons r rs => simp [hsp]
  | x :: xs, b, hna => by
    have hx : ¬x = c := fun hh => hna (by simp [hh])
    have ih := pySplit_app_nosep c (a := xs) b (fun hm => hna (by simp [hm]))
    rw [List.cons_append, pySplit_cons_nosep c x _ hx, ih]
    simp

/-! ## Word and group splitting recovery -/

/-- Helper: the space join is the one-character join on `' '`. -/
theorem joinSpace_eq_pyJoin (l : List Chars) : joinSpace l = pyJoin ' ' l := rfl

/-- Helper: the word scanner swallows a whitespace-free chunk. -/
theorem splitWordsGo_chunk :
    ∀ (p : Chars) (cur rest : Chars), (∀ c ∈ p, pyIsSpace c = false) →
      splitWordsGo cur (p ++ rest) = splitWordsGo (p.reverse ++ cur) rest
  | [], cur, rest, _ => by simp
  | c :: p', cur, rest, h => by
    have hc : pyIsSpace c = false := h c (by simp)
    rw [List.cons_append,
      show splitWordsGo cur (c :: (p' ++ rest)) = splitWordsGo (c :: cur) (p' ++ rest) by
        simp [splitWordsGo, hc],
      splitWordsGo_chunk p' (c :: cur) rest (fun x hx => h x (by simp [hx]))]
    simp

/-- Helper: the word scanner closes the current word at the end. -/
theorem splitWordsGo_end {cur : Chars} (h : cur ≠ []) :
    splitWordsGo cur [] = [cur.reverse] := by
  simp [splitWordsGo, h]

/-- Helper: the word scanner emits the current word at a space. -/
theorem splitWordsGo_sp {cur : Chars} (rest : Chars) (h : cur ≠ []) :
    splitWordsGo cur (' ' :: rest) = cur.reverse :: splitWordsGo [] rest := by
  simp [splitWordsGo, h, pyIsSpace]

/-- Helper: word-splitting a space join of nonempty whitespace-free words
recovers the words. -/
theorem splitWords_joinSpace :
    ∀ {ps : List Chars}, ps ≠ [] →
      (∀ p ∈ ps, p ≠ [] ∧ ∀ c ∈ p, pyIsSpace c = false) →
      splitWordsGo [] (joinSpace ps) = ps
  | [], h, _ => absurd rfl h
  | [p], _, hp => by
    have h := hp p (by simp)
    rw [joinSpace_eq_pyJoin, pyJoin_single]
    have hch := splitWordsGo_chunk p [] [] h.2
    rw [List.append_nil] at hch
    rw [hch, splitWordsGo_end (by simpa using h.1)]
    simp
  | p :: q :: t, _, hp => by
    have h := hp p (by simp)
    have hjoin : joinSpace (p :: q :: t) = p ++ (' ' :: joinSpace (q :: t)) := by
      rw [joinSpace_eq_pyJoin, joinSpace_eq_pyJoin, pyJoin_cons ' ' _ (by simp)]
    rw [hjoin, splitWordsGo_chunk p [] _ h.2, List.append_nil,
      splitWordsGo_sp _ (by simpa using h.1), List.reverse_reverse,
      splitWords_joinSpace (by simp) (fun x hx => hp x (by simp [hx]))]

/-- Helper: the restriction-separator scanner swallows a `>`-free chunk. -/
theorem srsGo_chunk :
    ∀ (p : Chars) (cur rest : Chars), (∀ c ∈ p, ¬c = '>') →
      splitRestrSepGo cur none (p ++ rest) = splitRestrSepGo (p.reverse ++ cur) none rest
  | [], cur, rest, _ => by simp
  | c :: p', cur, rest, h => by
    have hc : ¬c = '>' := h c (by simp)
    rw [List.cons_append,
      show splitRestrSepGo cur none (c :: (p' ++ rest)) =
          splitRestrSepGo (c :: cur) none (p' ++ rest) by
        simp [splitRestrSepGo, hc],
      srsGo_chunk p' (c :: cur) rest (fun x hx => h x (by simp [hx]))]
    simp

/-- Helper: the scanner closes a piece at the `> <` separator. -/
theorem srsGo_sep (cur rest : Chars) :
    splitRestrSepGo cur none ('>' :: ' ' :: '<' :: rest) =
      cur.reverse :: splitRestrSepGo [] none rest := by
  simp [splitRestrSepGo, pyIsSpace]

/-- Helper: splitting a `> <` join of `>`-free groups recovers the groups. -/
theorem srs_join :
    ∀ {gs : List Chars}, gs ≠ [] → (∀ g ∈ gs, ∀ c ∈ g, ¬c = '>') →
      splitRestrSepGo [] none (List.intercalate ('>' :: ' ' :: ['<']) gs) = gs
  | [], h, _ => absurd rfl h
  | [g], _, hg => by
    have hsingle : List.intercalate ('>' :: ' ' :: ['<']) [g] = g := by
      simp [List.intercalate, List.intersperse]
    rw [hsingle]
    have hch := srsGo_chunk g [] [] (hg g (by simp))
    rw [List.append_nil] at hch
    rw [hch]
    simp [splitRestrSepGo]
  | g :: g' :: t, _, hg => by
    have hjoin : List.intercalate ('>' :: ' ' :: ['<']) (g :: g' :: t) =
        g ++ ('>' :: ' ' :: '<' :: List.intercalate ('>' :: ' ' :: ['<']) (g' :: t)) := by
      simp [List.intercalate, List.intersperse]
    rw [hjoin, srsGo_chunk g [] _ (hg g (by simp)), List.append_nil, srsGo_sep,
      List.reverse_reverse,
      srs_join (by simp) (fun x hx => hg x (by simp [hx]))]

/-- Helper: a list with exactly one occurrence splits around it. -/
theorem count_one_split {a : Char} :
    ∀ {l : Chars}, l.count a = 1 → ∃ u v, l = u ++ a :: v ∧ a ∉ u ∧ a ∉ v := by
  intro l
  induction l with
  | nil => intro h; simp at h
  | cons x xs ih =>
    intro h
    by_cases hx : x = a
    · subst hx
      rw [List.count_cons_self] at h
      have hxs : xs.count x = 0 := by omega
      exact ⟨[], xs, by simp, by simp, List.count_eq_zero.mp hxs⟩
    · have hcount : xs.count a = 1 := by
        rw [List.count_cons] at h
        simpa [hx] using h
      obtain ⟨u, v, rfl, hu, hv⟩ := ih hcount
      refine ⟨x :: u, v, by simp, ?_, hv⟩
      simp only [List.mem_cons, not_or]
      exact ⟨fun hh => hx hh.symm, hu⟩

/-- Helper: the `\n`-split of a comma join of entry-shaped pieces has no
blank line after the first (an entry holds at most one newline, always
followed by a non-whitespace character before the entry ends). -/
theorem lines_nonblank :
    ∀ {ps : List Chars},
      (∀ p ∈ ps, ('\n' ∉ p) ∨
        ∃ u w, p = u ++ '\n' :: w ∧ '\n' ∉ u ∧ '\n' ∉ w ∧
          ∃ c ∈ w, pyIsSpace c = false) →
      ∀ l ∈ (pySplit '\n' (pyJoin ',' ps)).tail, ∃ c ∈ l, pyIsSpace c = false
  | [], _, l, hl => by
    simp [pyJoin, List.intercalate, List.intersperse, pySplit] at hl
  | [p], hp, l, hl => by
    rw [pyJoin_single] at hl
    rcases hp p (by simp) with hfree | ⟨u, w, rfl, hu, hw, hnb⟩
    · rw [pySplit_nosep '\n' hfree] at hl
      simp at hl
    · rw [pySplit_app '\n' w hu, pySplit_nosep '\n' hw] at hl
      simp only [List.tail_cons, List.mem_singleton] at hl
      exact hl ▸ hnb
  | p :: q :: t, hp, l, hl => by
    have hjoin : pyJoin ',' (p :: q :: t) = p ++ (',' :: pyJoin ',' (q :: t)) :=
      pyJoin_cons ',' _ (by simp)
    have hcomma : pySplit '\n' (',' :: pyJoin ',' (q :: t)) =
        (',' :: (pySplit '\n' (pyJoin ',' (q :: t))).headI) ::
          (pySplit '\n' (pyJoin ',' (q :: t))).tail :=
      pySplit_cons_nosep '\n' ',' _ (by decide)
    have ih := @lines_nonblank (q :: t) (fun x hx => hp x (by simp [hx]))
    rcases hp p (by simp) with hfree | ⟨u, w, rfl, hu, hw, hnb⟩
    · rw [hjoin, pySplit_app_nosep '\n' _ hfree, hcomma] at hl
      simp only [List.tail_cons] at hl
      exact ih l hl
    · rw [hjoin] at hl
      have hassoc : (u ++ '\n' :: w) ++ (',' :: pyJoin ',' (q :: t)) =
          u ++ '\n' :: (w ++ ',' :: pyJoin ',' (q :: t)) := by
        simp
      rw [hassoc, pySplit_app '\n' _ hu,
        pySplit_app_nosep '\n' _ hw, hcomma] at hl
      simp only [List.tail_cons, List.mem_cons] at hl
      rcases hl with rfl | hl
      · obtain ⟨c, hc, hcw⟩ := hnb
        exact ⟨c, by simp [hc], hcw⟩
      · exact ih l hl

/-! ## Rendered-atom structure -/

/-- Helper: `PkgRelation.str` is the concatenation of its components. -/
theorem pkgRelationStr_eq (r : PkgRelation) :
    pkgRelationStr r = r.name ++ (ppArchqual r.archqual ++ (ppVersion r.version ++
      (ppArchList r.arch ++ ppRestrField r.restrictions))) := by
  obtain ⟨n, ver, ar, aq, rs⟩ := r
  rcases aq with _ | q <;> rcases ver with _ | ⟨op, vv⟩ <;> rcases ar with _ | l <;>
    rcases rs with _ | gs <;>
    simp [pkgRelationStr, ppArchqual, ppVersion, ppArchList, ppRestrField]

/-- Helper: the five well-formedness components of an atom. -/
theorem wfAtom_parts {r : PkgRelation} (h : wfAtom r = true) :
    wfName r.name = true ∧ wfArchqual r.archqual = true ∧
    wfVersionF r.version = true ∧ wfArchF r.arch = true ∧
    wfRestrictionsF r.restrictions = true := by
  unfold wfAtom at h
  simp only [Bool.and_eq_true] at h
  exact ⟨h.1.1.1.1, h.1.1.1.2, h.1.1.2, h.1.2, h.2⟩

/-- Helper: a nonempty join inherits nonemptiness from its first piece. -/
theorem joinSpace_ne_nil {ps : List Chars} (h0 : ps ≠ []) (h1 : ps.headI ≠ []) :
    joinSpace ps ≠ [] := by
  match ps with
  | [p] =>
    rw [joinSpace_eq_pyJoin, pyJoin_single]
    exact h1
  | p :: q :: t =>
    rw [joinSpace_eq_pyJoin, pyJoin_cons ' ' _ (by simp)]
    simp only [List.headI] at h1
    simp [h1]

/-- Helper: the restriction component starts with a space if nonempty. -/
theorem ppRestrField_head {rs : Option (List (List BuildRestriction))} :
    ∀ y, (ppRestrField rs).head? = some y → y = ' ' := by
  intro y hy
  cases rs with
  | none => simp [ppRestrField] at hy
  | some gs =>
    simp only [ppRestrField, List.head?_cons, Option.some.injEq] at hy
    exact hy.symm

/-- Helper: the arch-list-plus-restrictions tail starts with a space. -/
theorem archTail_head {a : Option (List ArchRestriction)}
    {rs : Option (List (List BuildRestriction))} :
    ∀ y, (ppArchList a ++ ppRestrField rs).head? = some y → y = ' ' := by
  intro y hy
  cases a with
  | none =>
    rw [show ppArchList none = [] from rfl, List.nil_append] at hy
    exact ppRestrField_head y hy
  | some l =>
    simp only [ppArchList, List.cons_append, List.head?_cons, Option.some.injEq] at hy
    exact hy.symm

/-- Helper: the version-and-later tail starts with a space. -/
theorem verTail_head {v : Option (Chars × Chars)} {a : Option (List ArchRestriction)}
    {rs : Option (List (List BuildRestriction))} :
    ∀ y, (ppVersion v ++ (ppArchList a ++ ppRestrField rs)).head? = some y → y = ' ' := by
  intro y hy
  rcases v with _ | ⟨op, vv⟩
  · rw [show ppVersion none = [] from rfl, List.nil_append] at hy
    exact archTail_head y hy
  · simp only [ppVersion, List.cons_append, List.head?_cons, Option.some.injEq] at hy
    exact hy.symm

/-- Helper: whatever follows the name starts with `:` or a space. -/
theorem compTail_head {aq : Option Chars} {v : Option (Chars × Chars)}
    {a : Option (List ArchRestriction)} {rs : Option (List (List BuildRestriction))} :
    ∀ y, (ppArchqual aq ++ (ppVersion v ++ (ppArchList a ++ ppRestrField rs))).head? =
      some y → y = ':' ∨ y = ' ' := by
  intro y hy
  cases aq with
  | none =>
    rw [show ppArchqual none = [] from rfl, List.nil_append] at hy
    exact Or.inr (verTail_head y hy)
  | some q =>
    simp only [ppArchqual, List.cons_append, List.head?_cons, Option.some.injEq] at hy
    exact Or.inl hy.symm

/-- Helper: every character of a rendered restriction token is `!` or a
profile character. -/
theorem restrTok_chars {t : BuildRestriction} (h : wfProfile t.profile = true) :
    ∀ c ∈ restrTok t, c = '!' ∨ profChar c = true := by
  intro c hc
  unfold restrTok at hc
  unfold wfProfile at h
  simp only [Bool.and_eq_true, List.all_eq_true] at h
  rcases List.mem_append.mp hc with hc | hc
  · cases ht : t.enabled with
    | true => rw [ht] at hc; simp at hc
    | false =>
      rw [ht] at hc
      simp only [Bool.false_eq_true, if_false, List.mem_singleton] at hc
      exact Or.inl hc
  · exact Or.inr (h.2 c hc)

/-- Helper: a rendered restriction token is nonempty. -/
theorem restrTok_ne_nil {t : BuildRestriction} (h : wfProfile t.profile = true) :
    restrTok t ≠ [] := by
  unfold restrTok
  unfold wfProfile at h
  simp only [Bool.and_eq_true, decide_eq_true_eq, ne_eq] at h
  intro hc
  rcases List.append_eq_nil.mp hc with ⟨-, h2⟩
  exact h.1.1 h2

/-- Helper: every character of a rendered restriction group's content is a
space, `!`, or a profile character. -/
theorem groupContent_chars {g : List BuildRestriction}
    (h : ∀ t ∈ g, wfProfile t.profile = true) :
    ∀ c ∈ groupContent g, c = ' ' ∨ c = '!' ∨ profChar c = true := by
  intro c hc
  unfold groupContent joinSpace at hc
  rcases mem_joinSep hc with hc | ⟨p, hp, hcp⟩
  · exact Or.inl (by simpa using hc)
  · obtain ⟨t, ht, rfl⟩ := List.mem_map.mp hp
    rcases restrTok_chars (h t ht) c hcp with h1 | h1
    · exact Or.inr (Or.inl h1)
    · exact Or.inr (Or.inr h1)

/-- Helper: a rendered restriction group's content is nonempty. -/
theorem groupContent_ne_nil {g : List BuildRestriction} (h0 : g ≠ [])
    (h : ∀ t ∈ g, wfProfile t.profile = true) : groupContent g ≠ [] := by
  unfold groupContent
  match g, h0 with
  | t :: g', _ =>
    apply joinSpace_ne_nil (by simp)
    simp only [List.map_cons, List.headI]
    exact restrTok_ne_nil (h t (by simp))

/-- Helper: the bracketed joined restriction groups are `<`, a nonempty
newline-free middle, then `>`. -/
theorem ppRestrJoin_shape :
    ∀ {gs : List (List BuildRestriction)},
      (∀ g ∈ gs, g ≠ [] ∧ ∀ t ∈ g, wfProfile t.profile = true) → gs ≠ [] →
      ∃ mid, joinSpace (gs.map ppRestrictions) = '<' :: (mid ++ ['>']) ∧ mid ≠ [] ∧
        (∀ c ∈ mid, c = ' ' ∨ c = '!' ∨ c = '<' ∨ c = '>' ∨ profChar c = true)
  | [], _, h0 => absurd rfl h0
  | [g], h, _ => by
    refine ⟨groupContent g, ?_, ?_, ?_⟩
    · rw [show (([g].map ppRestrictions) : List Chars) = [ppRestrictions g] from rfl,
        joinSpace_eq_pyJoin, pyJoin_single]
      rfl
    · exact groupContent_ne_nil (h g (by simp)).1 (h g (by simp)).2
    · intro c hc
      rcases groupContent_chars (h g (by simp)).2 c hc with h1 | h1 | h1
      · exact Or.inl h1
      · exact Or.inr (Or.inl h1)
      · exact Or.inr (Or.inr (Or.inr (Or.inr h1)))
  | g :: g' :: t, h, _ => by
    obtain ⟨mid', hmid', -, hchars'⟩ :=
      @ppRestrJoin_shape (g' :: t) (fun x hx => h x (by simp [hx])) (by simp)
    refine ⟨groupContent g ++ '>' :: ' ' :: '<' :: mid', ?_, by simp, ?_⟩
    · rw [show ((g :: g' :: t).map ppRestrictions : List Chars) =
          ppRestrictions g :: (g' :: t).map ppRestrictions from rfl,
        joinSpace_eq_pyJoin, pyJoin_cons ' ' _ (by simp), ← joinSpace_eq_pyJoin, hmid']
      simp [ppRestrictions, groupContent]
    · intro c hc
      rcases List.mem_append.mp hc with hc | hc
      · rcases groupContent_chars (h g (by simp)).2 c hc with h1 | h1 | h1
        · exact Or.inl h1
        · exact Or.inr (Or.inl h1)
        · exact Or.inr (Or.inr (Or.inr (Or.inr h1)))
      · simp only [List.mem_cons] at hc
        rcases hc with rfl | rfl | rfl | hc
        · exact Or.inr (Or.inr (Or.inr (Or.inl rfl)))
        · exact Or.inl rfl
        · exact Or.inr (Or.inr (Or.inl rfl))
        · exact hchars' c hc

/-! ## The regex steps on a rendered canonical atom -/

/-- Helper: a rendered arch restriction is nonempty. -/
theorem ppArch_ne_nil {a : ArchRestriction} (h : wfArchName a.arch = true) :
    ppArch a ≠ [] := by
  unfold ppArch
  unfold wfArchName at h
  simp only [Bool.and_eq_true, decide_eq_true_eq, ne_eq] at h
  intro hc
  rcases List.append_eq_nil.mp hc with ⟨-, h2⟩
  exact h.1.1 h2

/-- Helper: rendered arch restrictions use the bracket content class. -/
theorem ppArch_chars {a : ArchRestriction} (h : wfArchName a.arch = true) :
    ∀ c ∈ ppArch a, archContentChar c = true := by
  intro c hc
  unfold ppArch at hc
  unfold wfArchName at h
  simp only [Bool.and_eq_true, List.all_eq_true] at h
  rcases List.mem_append.mp hc with hc | hc
  · cases ha : a.enabled with
    | true => rw [ha] at hc; simp at hc
    | false =>
      rw [ha] at hc
      simp only [Bool.false_eq_true, if_false, List.mem_singleton] at hc
      subst hc
      decide
  · have h2 := h.2 c hc
    simp only [Bool.or_eq_true, decide_eq_true_eq] at h2
    unfold archContentChar wordChar
    simp only [Bool.or_eq_true, decide_eq_true_eq]
    rcases h2 with h1 | h1
    · unfold wordChar at h1
      simp only [Bool.or_eq_true, decide_eq_true_eq] at h1
      tauto
    · tauto

/-- Helper: the joined arch list is nonempty bracket-class content. -/
theorem archInner_facts {l : List ArchRestriction}
    (h0 : l ≠ []) (h : ∀ a ∈ l, wfArchName a.arch = true) :
    joinSpace (l.map ppArch) ≠ [] ∧
      ∀ c ∈ joinSpace (l.map ppArch), archContentChar c = true := by
  constructor
  · match l, h0 with
    | a :: l', _ =>
      apply joinSpace_ne_nil (by simp)
      simp only [List.map_cons, List.headI]
      exact ppArch_ne_nil (h a (by simp))
  · intro c hc
    unfold joinSpace at hc
    rcases mem_joinSep hc with hc | ⟨p, hp, hcp⟩
    · simp only [List.mem_singleton] at hc
      subst hc
      decide
    · obtain ⟨a, ha, rfl⟩ := List.mem_map.mp hp
      exact ppArch_chars (h a ha) c hcp

/-- Helper: the restriction field of a canonical atom starts `" <"`. -/
theorem ppRestrField_some_shape {gs : List (List BuildRestriction)}
    (h : ∀ g ∈ gs, g ≠ [] ∧ ∀ t ∈ g, wfProfile t.profile = true) (h0 : gs ≠ []) :
    ∃ tl, ppRestrField (some gs) = ' ' :: '<' :: tl := by
  obtain ⟨mid, hmid, -, -⟩ := ppRestrJoin_shape h h0
  exact ⟨mid ++ ['>'], by rw [show ppRestrField (some gs) =
    ' ' :: joinSpace (gs.map ppRestrictions) from rfl, hmid]⟩

/-- Helper: the well-formedness content of `wfRestrictionsF (some gs)`. -/
theorem wfRestrictionsF_some {gs : List (List BuildRestriction)}
    (h : wfRestrictionsF (some gs) = true) :
    gs ≠ [] ∧ ∀ g ∈ gs, g ≠ [] ∧ ∀ t ∈ g, wfProfile t.profile = true := by
  unfold wfRestrictionsF at h
  simp only [Bool.and_eq_true, List.all_eq_true, decide_eq_true_eq, ne_eq] at h
  refine ⟨h.1, fun g hg => ?_⟩
  have := h.2 g hg
  simp only [Bool.and_eq_true, List.all_eq_true, decide_eq_true_eq, ne_eq] at this
  exact this

/-- Helper: the dropped arch-and-restrictions tail starts `[` or `<` (or is
empty with both fields absent). -/
theorem RP_dropWhile_shape {a : Option (List ArchRestriction)}
    {rs : Option (List (List BuildRestriction))}
    (ha : wfArchF a = true) (hrs : wfRestrictionsF rs = true) :
    (a = none ∧ rs = none ∧ ppArchList a ++ ppRestrField rs = []) ∨
    (∃ c tl, (ppArchList a ++ ppRestrField rs).dropWhile pyIsSpace = c :: tl ∧
      (c = '[' ∨ c = '<')) := by
  cases a with
  | some l =>
    right
    have hshape : ppArchList (some l) ++ ppRestrField rs =
        ' ' :: ('[' :: ((joinSpace (l.map ppArch) ++ [']']) ++ ppRestrField rs)) := by
      simp [ppArchList]
    refine ⟨'[', (joinSpace (l.map ppArch) ++ [']']) ++ ppRestrField rs, ?_, Or.inl rfl⟩
    rw [hshape, List.dropWhile_cons, if_pos (by decide), List.dropWhile_cons,
      if_neg (by decide)]
  | none =>
    cases rs with
    | none => exact Or.inl ⟨rfl, rfl, rfl⟩
    | some gs =>
      right
      obtain ⟨hgs0, hgs⟩ := wfRestrictionsF_some hrs
      obtain ⟨tl, htl⟩ := ppRestrField_some_shape hgs hgs0
      refine ⟨'<', tl, ?_, Or.inr rfl⟩
      rw [show ppArchList none ++ ppRestrField (some gs) = ppRestrField (some gs) from rfl,
        htl, List.dropWhile_cons, if_pos (by decide), List.dropWhile_cons,
        if_neg (by decide)]

/-- Helper: the name step on a rendered canonical atom captures the name. -/
theorem stepName_atom {r : PkgRelation} (h : wfAtom r = true) :
    stepName (pkgRelationStr r) =
      some (r.name, ppArchqual r.archqual ++ (ppVersion r.version ++
        (ppArchList r.arch ++ ppRestrField r.restrictions))) := by
  obtain ⟨hn, -, -, -, -⟩ := wfAtom_parts h
  unfold wfName at hn
  simp only [Bool.and_eq_true, decide_eq_true_eq, List.all_eq_true] at hn
  have hrest : ∀ y,
      (ppArchqual r.archqual ++ (ppVersion r.version ++
        (ppArchList r.arch ++ ppRestrField r.restrictions))).head? = some y →
      nameChar y = false := by
    intro y hy
    rcases compTail_head y hy with rfl | rfl <;> decide
  unfold stepName
  simp only []
  rw [pkgRelationStr_eq]
  generalize hR : ppArchqual r.archqual ++ (ppVersion r.version ++
      (ppArchList r.arch ++ ppRestrField r.restrictions)) = REST at hrest ⊢
  cases hname : r.name with
  | nil => rw [hname] at hn; simp at hn
  | cons c n' =>
    rw [hname] at hn
    have hlen := hn.1
    have hhead : ∀ y, ((c :: n') ++ REST).head? = some y → pyIsSpace y = false := by
      intro y hy
      simp only [List.cons_append, List.head?_cons, Option.some.injEq] at hy
      subst hy
      exact nameChar_not_ws (hn.2 c (by simp))
    rw [dropWhile_id hhead, takeWhile_app hn.2 hrest, dropWhile_app hn.2 hrest,
      if_neg (by simp only [List.length_cons] at hlen ⊢; omega)]

/-- Helper: the archqual step on the rendered tail captures the qualifier. -/
theorem stepArchqual_atom {r : PkgRelation} (h : wfAtom r = true) :
    stepArchqual (ppArchqual r.archqual ++ (ppVersion r.version ++
      (ppArchList r.arch ++ ppRestrField r.restrictions))) =
      some (r.archqual, ppVersion r.version ++
        (ppArchList r.arch ++ ppRestrField r.restrictions)) := by
  obtain ⟨-, haq, -, -, -⟩ := wfAtom_parts h
  cases haqv : r.archqual with
  | none =>
    rw [show ppArchqual none = [] from rfl, List.nil_append]
    cases hin : ppVersion r.version ++ (ppArchList r.arch ++ ppRestrField r.restrictions) with
    | nil => rfl
    | cons c0 tl =>
      have hc0 : c0 = ' ' := verTail_head c0 (by rw [hin]; rfl)
      subst hc0
      simp only [stepArchqual]
      rw [if_neg (by decide)]
  | some q =>
    rw [haqv] at haq
    unfold wfArchqual at haq
    simp only [Bool.and_eq_true, decide_eq_true_eq, List.all_eq_true, ne_eq] at haq
    have hqtail : ∀ y, (ppVersion r.version ++
        (ppArchList r.arch ++ ppRestrField r.restrictions)).head? = some y →
        archqualChar y = false := by
      intro y hy
      rw [verTail_head y hy]
      decide
    have htake := takeWhile_app (p := archqualChar) haq.2 hqtail
    have hdrop := dropWhile_app (p := archqualChar) haq.2 hqtail
    rw [show ppArchqual (some q) = ':' :: q from rfl, List.cons_append]
    simp only [stepArchqual, if_pos]
    simp only [htake, hdrop]
    cases hq : q with
    | nil => exact absurd hq haq.1.1
    | cons qc q' =>
      have halnum : qc.isAlphanum = true := by
        have h2 := haq.1.2
        rw [hq] at h2
        simpa [List.headI] using h2
      simp [halnum]

/-- Helper: the version step on the rendered tail captures the constraint. -/
theorem stepVersion_atom {r : PkgRelation} (h : wfAtom r = true) :
    stepVersion (ppVersion r.version ++ (ppArchList r.arch ++ ppRestrField r.restrictions)) =
      some (r.version, ppArchList r.arch ++ ppRestrField r.restrictions) := by
  obtain ⟨-, -, hv, ha, hrs⟩ := wfAtom_parts h
  cases hver : r.version with
  | none =>
    rw [show ppVersion none = [] from rfl, List.nil_append]
    rcases RP_dropWhile_shape ha hrs with ⟨-, -, hnil⟩ | ⟨c, tl, hdw, hc⟩
    · rw [hnil]
      rfl
    · unfold stepVersion
      rw [hdw]
      rcases hc with rfl | rfl <;> simp
  | some opv =>
    obtain ⟨op, v⟩ := opv
    rw [hver] at hv
    unfold wfVersionF relopStr at hv
    simp only [Bool.and_eq_true, decide_eq_true_eq, List.all_eq_true, ne_eq] at hv
    have hop0 : ¬op = [] := hv.1.1.1
    have hopall : ∀ c ∈ op, relopChar c = true := hv.1.1.2
    have hv0 : ¬v = [] := hv.1.2
    have hvall : ∀ c ∈ v, versChar c = true := hv.2
    have hshape : ppVersion (some (op, v)) ++ (ppArchList r.arch ++ ppRestrField r.restrictions) =
        ' ' :: '(' :: (op ++ ' ' :: (v ++ ')' ::
          (ppArchList r.arch ++ ppRestrField r.restrictions))) := by
      simp [ppVersion]
    have hdw1 : (' ' :: '(' :: (op ++ ' ' :: (v ++ ')' ::
        (ppArchList r.arch ++ ppRestrField r.restrictions)))).dropWhile pyIsSpace =
        '(' :: (op ++ ' ' :: (v ++ ')' ::
          (ppArchList r.arch ++ ppRestrField r.restrictions))) := by
      rw [List.dropWhile_cons, if_pos (by decide), List.dropWhile_cons, if_neg (by decide)]
    have hsp_nrelop : ∀ y, (' ' :: (v ++ ')' ::
        (ppArchList r.arch ++ ppRestrField r.restrictions))).head? = some y →
        relopChar y = false := by
      intro y hy
      simp only [List.head?_cons, Option.some.injEq] at hy
      subst hy
      decide
    have htake_op := takeWhile_app (p := relopChar) hopall hsp_nrelop
    have hdrop_op := dropWhile_app (p := relopChar) hopall hsp_nrelop
    have hdw_op : (op ++ ' ' :: (v ++ ')' ::
        (ppArchList r.arch ++ ppRestrField r.restrictions))).dropWhile pyIsSpace =
        op ++ ' ' :: (v ++ ')' :: (ppArchList r.arch ++ ppRestrField r.restrictions)) := by
      apply dropWhile_id
      intro y hy
      match op, hop0 with
      | oc :: op', _ =>
        simp only [List.cons_append, List.head?_cons, Option.some.injEq] at hy
        subst hy
        exact relopChar_not_ws (hopall _ (by simp))
    have hv_head : ∀ y, (v ++ ')' ::
        (ppArchList r.arch ++ ppRestrField r.restrictions)).head? = some y →
        pyIsSpace y = false := by
      intro y hy
      match v, hv0 with
      | vc :: v', _ =>
        simp only [List.cons_append, List.head?_cons, Option.some.injEq] at hy
        subst hy
        exact versChar_not_ws (hvall _ (by simp))
    have hdrop_ws2 : (' ' :: (v ++ ')' ::
        (ppArchList r.arch ++ ppRestrField r.restrictions))).dropWhile pyIsSpace =
        v ++ ')' :: (ppArchList r.arch ++ ppRestrField r.restrictions) := by
      rw [List.dropWhile_cons, if_pos (by decide)]
      exact dropWhile_id hv_head
    have hnrp : ∀ y, (')' ::
        (ppArchList r.arch ++ ppRestrField r.restrictions)).head? = some y →
        versChar y = false := by
      intro y hy
      simp only [List.head?_cons, Option.some.injEq] at hy
      subst hy
      decide
    have htake_v := takeWhile_app (p := versChar) hvall hnrp
    have hdrop_v := dropWhile_app (p := versChar) hvall hnrp
    have hdw3 : (')' ::
        (ppArchList r.arch ++ ppRestrField r.restrictions)).dropWhile pyIsSpace =
        ')' :: (ppArchList r.arch ++ ppRestrField r.restrictions) := by
      rw [List.dropWhile_cons, if_neg (by decide)]
    rw [hshape]
    unfold stepVersion
    rw [hdw1]
    simp only [hdw_op, htake_op, hdrop_op, hdrop_ws2, htake_v, hdrop_v, hdw3]
    simp [hop0, hv0]

/-- Helper: the architecture step on the rendered tail captures the
bracket content. -/
theorem stepArchs_atom {r : PkgRelation} (h : wfAtom r = true) :
    stepArchs (ppArchList r.arch ++ ppRestrField r.restrictions) =
      some (r.arch.map (fun l => joinSpace (l.map ppArch)),
        ppRestrField r.restrictions) := by
  obtain ⟨-, -, -, ha, hrs⟩ := wfAtom_parts h
  cases harch : r.arch with
  | none =>
    rw [show ppArchList none = [] from rfl, List.nil_append]
    cases hrsv : r.restrictions with
    | none => rfl
    | some gs =>
      obtain ⟨hgs0, hgs⟩ := wfRestrictionsF_some (hrsv ▸ hrs)
      obtain ⟨tl, htl⟩ := ppRestrField_some_shape hgs hgs0
      unfold stepArchs
      rw [htl, List.dropWhile_cons, if_pos (by decide), List.dropWhile_cons,
        if_neg (by decide)]
      simp
  | some l =>
    rw [harch] at ha
    unfold wfArchF at ha
    simp only [Bool.and_eq_true, decide_eq_true_eq, List.all_eq_true, ne_eq] at ha
    obtain ⟨hinner0, hinner⟩ := archInner_facts ha.1 ha.2
    have hshape : ppArchList (some l) ++ ppRestrField r.restrictions =
        ' ' :: '[' :: (joinSpace (l.map ppArch) ++ (']' :: ppRestrField r.restrictions)) := by
      simp [ppArchList]
    have hdw1 : (' ' :: '[' :: (joinSpace (l.map ppArch) ++
        (']' :: ppRestrField r.restrictions))).dropWhile pyIsSpace =
        '[' :: (joinSpace (l.map ppArch) ++ (']' :: ppRestrField r.restrictions)) := by
      rw [List.dropWhile_cons, if_pos (by decide), List.dropWhile_cons, if_neg (by decide)]
    have hbr : ∀ y, ((']' : Char) :: ppRestrField r.restrictions).head? = some y →
        archContentChar y = false := by
      intro y hy
      simp only [List.head?_cons, Option.some.injEq] at hy
      subst hy
      decide
    have htake := takeWhile_app (p := archContentChar) hinner hbr
    have hdrop := dropWhile_app (p := archContentChar) hinner hbr
    rw [hshape]
    unfold stepArchs
    rw [hdw1]
    simp only [htake, hdrop, if_neg hinner0]
    simp

/-- Helper: the restriction step on the rendered field captures the raw
formula text. -/
theorem stepRestr_atom {r : PkgRelation} (h : wfAtom r = true) :
    stepRestr (ppRestrField r.restrictions) =
      some (r.restrictions.map (fun gs => joinSpace (gs.map ppRestrictions))) := by
  obtain ⟨-, -, -, -, hrs⟩ := wfAtom_parts h
  cases hrsv : r.restrictions with
  | none => rfl
  | some gs =>
    obtain ⟨hgs0, hgs⟩ := wfRestrictionsF_some (hrsv ▸ hrs)
    obtain ⟨mid, hmid, hmid0, hmidc⟩ := ppRestrJoin_shape hgs hgs0
    have hshape : ppRestrField (some gs) = ' ' :: ('<' :: (mid ++ ['>'])) := by
      rw [show ppRestrField (some gs) = ' ' :: joinSpace (gs.map ppRestrictions) from rfl,
        hmid]
    have hdw1 : (' ' :: ('<' :: (mid ++ ['>']))).dropWhile pyIsSpace =
        '<' :: (mid ++ ['>']) := by
      rw [List.dropWhile_cons, if_pos (by decide), List.dropWhile_cons, if_neg (by decide)]
    have hlast : ('<' :: (mid ++ ['>'])).getLast? = some '>' := by
      rw [← List.cons_append]
      exact List.getLast?_concat _
    have hrstrip : pyRStrip ('<' :: (mid ++ ['>'])) = '<' :: (mid ++ ['>']) := by
      apply pyRStrip_id
      intro c hc
      rw [hlast] at hc
      cases hc
      decide
    have hlen : ('<' :: (mid ++ ['>'])).length ≥ 3 := by
      have := List.length_pos.mpr hmid0
      simp only [List.length_cons, List.length_append, List.length_singleton]
      omega
    have hnl : (('<' :: (mid ++ ['>'])).drop 1).dropLast.all (· ≠ '\n') = true := by
      rw [show ('<' :: (mid ++ ['>'])).drop 1 = mid ++ ['>'] from rfl,
        List.dropLast_concat]
      rw [List.all_eq_true]
      intro c hc
      rcases hmidc c hc with rfl | rfl | rfl | rfl | hp
      · decide
      · decide
      · decide
      · decide
      · simp only [ne_eq, decide_eq_true_eq]
        intro hcc
        subst hcc
        exact absurd (profChar_not_ws hp) (by decide)
    rw [hshape]
    unfold stepRestr
    rw [hdw1]
    simp only [if_true]
    simp [hrstrip, hlast, hnl, hlen, hmid]
    constructor
    · have := List.length_pos.mpr hmid0
      omega
    · intro hmem
      rcases hmidc '\n' hmem with h1 | h1 | h1 | h1 | h1
      · exact absurd h1 (by decide)
      · exact absurd h1 (by decide)
      · exact absurd h1 (by decide)
      · exact absurd h1 (by decide)
      · exact absurd (profChar_not_ws h1) (by decide)

/-- Helper: the full regex match on a rendered canonical atom. -/
theorem relMatch_atom {r : PkgRelation} (h : wfAtom r = true) :
    relMatch (pkgRelationStr r) = some ⟨r.name, r.archqual, r.version,
      r.arch.map (fun l => joinSpace (l.map ppArch)),
      r.restrictions.map (fun gs => joinSpace (gs.map ppRestrictions))⟩ := by
  unfold relMatch
  simp only [stepName_atom h, stepArchqual_atom h, stepVersion_atom h,
    stepArchs_atom h, stepRestr_atom h]

/-- Helper: a head bound from a bound on every character. -/
theorem headNot_of_all {p : Char → Bool} {l : Chars}
    (h : ∀ c ∈ l, p c = false) : HeadNot p l := by
  intro c hc
  match l, hc with
  | x :: l', hc =>
    simp only [List.head?_cons, Option.some.injEq] at hc
    exact hc ▸ h x (by simp)

/-- Helper: a last-character bound from a bound on every character. -/
theorem lastNot_of_all {p : Char → Bool} {l : Chars}
    (h : ∀ c ∈ l, p c = false) : LastNot p l := by
  intro c hc
  exact h c (List.mem_of_getLast?_eq_some hc)

/-- Helper: the first character of a space join is in some piece's head. -/
theorem joinSpace_head_cases :
    ∀ {ps : List Chars}, ps ≠ [] → (∀ p ∈ ps, p ≠ []) →
      ∃ q ∈ ps, (joinSpace ps).head? = q.head?
  | [q], _, _ => ⟨q, by simp, by rw [joinSpace_eq_pyJoin, pyJoin_single]⟩
  | p :: q :: t, _, hne => by
    refine ⟨p, by simp, ?_⟩
    rw [joinSpace_eq_pyJoin, pyJoin_cons ' ' _ (by simp), List.head?_append]
    match p, hne p (by simp) with
    | c :: p', _ => rfl

/-- Helper: the last character of a space join is in some piece's tail. -/
theorem joinSpace_last_cases :
    ∀ {ps : List Chars}, ps ≠ [] → (∀ p ∈ ps, p ≠ []) →
      ∃ q ∈ ps, (joinSpace ps).getLast? = q.getLast?
  | [q], _, _ => ⟨q, by simp, by rw [joinSpace_eq_pyJoin, pyJoin_single]⟩
  | p :: q :: t, _, hne => by
    obtain ⟨w, hw, hlast⟩ := @joinSpace_last_cases (q :: t) (by simp)
      (fun x hx => hne x (by simp [hx]))
    refine ⟨w, by simp [hw], ?_⟩
    rw [joinSpace_eq_pyJoin, pyJoin_cons ' ' _ (by simp), ← joinSpace_eq_pyJoin,
      List.getLast?_append,
      show (' ' :: joinSpace (q :: t)) = [' '] ++ joinSpace (q :: t) from rfl,
      List.getLast?_append, hlast]
    have hwne : w ≠ [] := hne w (by simp [hw])
    match hwl : w.getLast? with
    | some y => rfl
    | none => exact absurd (List.getLast?_eq_none_iff.mp hwl) hwne

/-- Helper: a rendered arch restriction has no whitespace. -/
theorem ppArch_not_ws {a : ArchRestriction} (h : wfArchName a.arch = true) :
    ∀ c ∈ ppArch a, pyIsSpace c = false := by
  intro c hc
  unfold ppArch at hc
  unfold wfArchName at h
  simp only [Bool.and_eq_true, List.all_eq_true] at h
  rcases List.mem_append.mp hc with hc | hc
  · cases ha : a.enabled with
    | true => rw [ha] at hc; simp at hc
    | false =>
      rw [ha] at hc
      simp only [Bool.false_eq_true, if_false, List.mem_singleton] at hc
      subst hc
      decide
  · have h2 := h.2 c hc
    simp only [Bool.or_eq_true, decide_eq_true_eq] at h2
    rcases h2 with h2 | rfl
    · exact wordChar_not_ws h2
    · decide

/-- Helper: mapping a pointwise-successful function over rendered images
recovers the originals. -/
theorem mapME_map_ok {a b : Type} {f : b → Except PyErr a} {g : a → b} :
    ∀ {l : List a}, (∀ x ∈ l, f (g x) = .ok x) → mapME f (l.map g) = .ok l
  | [], _ => rfl
  | x :: xs, h => by
    rw [List.map_cons]
    unfold mapME
    rw [h x (by simp), ok_bind, mapME_map_ok (fun y hy => h y (by simp [hy])), ok_bind]

/-- Helper: `parse_archs` re-reads a rendered canonical arch list. -/
theorem parse_archs_atom {l : List ArchRestriction} (h0 : l ≠ [])
    (h : ∀ a ∈ l, wfArchName a.arch = true) :
    parse_archs (joinSpace (l.map ppArch)) = .ok l := by
  have hpieces : ∀ p ∈ l.map ppArch, p ≠ [] ∧ ∀ c ∈ p, pyIsSpace c = false := by
    intro p hp
    obtain ⟨a, ha, rfl⟩ := List.mem_map.mp hp
    exact ⟨ppArch_ne_nil (h a ha), ppArch_not_ws (h a ha)⟩
  have hmapne : (l.map ppArch) ≠ [] := by simpa using h0
  have hne : joinSpace (l.map ppArch) ≠ [] := by
    match l, h0 with
    | a :: l', _ =>
      apply joinSpace_ne_nil (by simp)
      simp only [List.map_cons, List.headI]
      exact ppArch_ne_nil (h a (by simp))
  have hstrip : pyStrip (joinSpace (l.map ppArch)) = joinSpace (l.map ppArch) := by
    apply pyStrip_id hne
    · obtain ⟨q, hq, heq⟩ := joinSpace_head_cases hmapne (fun p hp => (hpieces p hp).1)
      intro c hc
      rw [heq] at hc
      exact headNot_of_all (hpieces q hq).2 c hc
    · obtain ⟨q, hq, heq⟩ := joinSpace_last_cases hmapne (fun p hp => (hpieces p hp).1)
      intro c hc
      rw [heq] at hc
      exact lastNot_of_all (hpieces q hq).2 c hc
  unfold parse_archs
  simp only [hstrip, if_neg hne, splitWords_joinSpace hmapne hpieces]
  apply mapME_map_ok
  intro a ha
  have hwf := h a ha
  unfold wfArchName at hwf
  simp only [Bool.and_eq_true, decide_eq_true_eq, List.all_eq_true, ne_eq] at hwf
  obtain ⟨en, ar⟩ := a
  cases en with
  | true =>
    simp only [ppArch, if_pos rfl, List.nil_append]
    match har : ar, hwf.1.1 with
    | c :: ar', _ =>
      have hch : ¬c = '!' := by
        have h2 := hwf.1.2
        simpa [List.headI] using h2
      simp [hch]
  | false =>
    simp only [ppArch, Bool.false_eq_true, if_false]
    match har : ar, hwf.1.1 with
    | c :: ar', _ => simp

/-- Helper: the head of a rendered restriction token is `!` or a profile
character. -/
theorem restrTok_head {t : BuildRestriction} (h : wfProfile t.profile = true) :
    ∀ c, (restrTok t).head? = some c → c = '!' ∨ profChar c = true := by
  intro c hc
  exact restrTok_chars h c (by
    cases hl : restrTok t with
    | nil => rw [hl] at hc; simp at hc
    | cons x l' =>
      rw [hl] at hc
      simp only [List.head?_cons, Option.some.injEq] at hc
      simp [← hc])

/-- Helper: a rendered restriction token ends in a profile character. -/
theorem restrTok_last {t : BuildRestriction} (h : wfProfile t.profile = true) :
    ∀ c, (restrTok t).getLast? = some c → profChar c = true := by
  intro c hc
  unfold wfProfile at h
  simp only [Bool.and_eq_true, decide_eq_true_eq, List.all_eq_true, ne_eq] at h
  unfold restrTok at hc
  rw [List.getLast?_append] at hc
  match hpl : t.profile.getLast? with
  | some y =>
    rw [hpl] at hc
    cases hc
    exact h.2 _ (List.mem_of_getLast?_eq_some hpl)
  | none => exact absurd (List.getLast?_eq_none_iff.mp hpl) h.1.1

/-- Helper: the ends of a rendered restriction group's content. -/
theorem groupContent_ends {g : List BuildRestriction} (h0 : g ≠ [])
    (h : ∀ t ∈ g, wfProfile t.profile = true) :
    (∀ c, (groupContent g).head? = some c → c = '!' ∨ profChar c = true) ∧
    (∀ c, (groupContent g).getLast? = some c → profChar c = true) := by
  have hmapne : (g.map restrTok) ≠ [] := by simpa using h0
  have hpne : ∀ p ∈ g.map restrTok, p ≠ [] := by
    intro p hp
    obtain ⟨t, ht, rfl⟩ := List.mem_map.mp hp
    exact restrTok_ne_nil (h t ht)
  constructor
  · obtain ⟨q, hq, heq⟩ := joinSpace_head_cases hmapne hpne
    intro c hc
    rw [show groupContent g = joinSpace (g.map restrTok) from rfl, heq] at hc
    obtain ⟨t, ht, rfl⟩ := List.mem_map.mp hq
    exact restrTok_head (h t ht) c hc
  · obtain ⟨q, hq, heq⟩ := joinSpace_last_cases hmapne hpne
    intro c hc
    rw [show groupContent g = joinSpace (g.map restrTok) from rfl, heq] at hc
    obtain ⟨t, ht, rfl⟩ := List.mem_map.mp hq
    exact restrTok_last (h t ht) c hc

/-- Helper: the joined restriction groups, decomposed into the bracket
sandwich around a `> <`-intercalated group-content list. -/
theorem ppRestrJoin_decomp :
    ∀ {gs : List (List BuildRestriction)}, gs ≠ [] →
      joinSpace (gs.map ppRestrictions) =
        '<' :: (List.intercalate ('>' :: ' ' :: ['<']) (gs.map groupContent) ++ ['>'])
  | [g], _ => by
    rw [show (([g].map ppRestrictions) : List Chars) = [ppRestrictions g] from rfl,
      joinSpace_eq_pyJoin, pyJoin_single,
      show ((([g].map groupContent) : List Chars)) = [groupContent g] from rfl]
    simp [List.intercalate, List.intersperse, ppRestrictions, groupContent]
  | g :: g' :: t, _ => by
    have ih := @ppRestrJoin_decomp (g' :: t) (by simp)
    rw [show (((g :: g' :: t).map ppRestrictions) : List Chars) =
        ppRestrictions g :: (g' :: t).map ppRestrictions from rfl,
      joinSpace_eq_pyJoin, pyJoin_cons ' ' _ (by simp), ← joinSpace_eq_pyJoin, ih,
      show (((g :: g' :: t).map groupContent) : List Chars) =
        groupContent g :: (g' :: t).map groupContent from rfl]
    rw [show List.intercalate ('>' :: ' ' :: ['<'])
        (groupContent g :: (g' :: t).map groupContent) =
        groupContent g ++ ('>' :: ' ' :: ['<'] ++
          List.intercalate ('>' :: ' ' :: ['<']) ((g' :: t).map groupContent)) by
      simp [List.intercalate, List.intersperse]]
    simp [ppRestrictions, groupContent]

/-- Helper: mapping a character-fixing function is the identity. -/
theorem map_id_of {f : Char → Char} :
    ∀ {l : Chars}, (∀ c ∈ l, f c = c) → l.map f = l
  | [], _ => rfl
  | c :: l', h => by
    rw [List.map_cons, h c (by simp), map_id_of (fun x hx => h x (by simp [hx]))]

/-- Helper: filter-mapping a pointwise-recovering function over rendered
images recovers the originals. -/
theorem filterMap_map_some {a b : Type} {f : b → Option a} {g : a → b} :
    ∀ {l : List a}, (∀ x ∈ l, f (g x) = some x) → (l.map g).filterMap f = l
  | [], _ => rfl
  | x :: xs, h => by
    rw [List.map_cons, List.filterMap_cons, h x (by simp),
      filterMap_map_some (fun y hy => h y (by simp [hy]))]

/-- Helper: an intercalation of nonempty pieces is nonempty. -/
theorem intercalate_ne_nil {sep : Chars} :
    ∀ {ps : List Chars}, ps ≠ [] → (∀ p ∈ ps, p ≠ []) → List.intercalate sep ps ≠ []
  | [q], _, h => by simpa [List.intercalate, List.intersperse] using h q (by simp)
  | p :: q :: t, _, h => by
    rw [show List.intercalate sep (p :: q :: t) =
        p ++ (sep ++ List.intercalate sep (q :: t)) by
      simp [List.intercalate, List.intersperse]]
    simp [h p (by simp)]

/-- Helper: the first character of an intercalation is in a piece's head. -/
theorem intercalate_head_cases {sep : Chars} :
    ∀ {ps : List Chars}, ps ≠ [] → (∀ p ∈ ps, p ≠ []) →
      ∃ q ∈ ps, (List.intercalate sep ps).head? = q.head?
  | [q], _, _ => ⟨q, by simp, by simp [List.intercalate, List.intersperse]⟩
  | p :: q :: t, _, hne => by
    refine ⟨p, by simp, ?_⟩
    rw [show List.intercalate sep (p :: q :: t) =
        p ++ (sep ++ List.intercalate sep (q :: t)) by
      simp [List.intercalate, List.intersperse]]
    rw [List.head?_append]
    match p, hne p (by simp) with
    | c :: p', _ => rfl

/-- Helper: the last character of an intercalation is in a piece's tail. -/
theorem intercalate_last_cases {sep : Chars} :
    ∀ {ps : List Chars}, ps ≠ [] → (∀ p ∈ ps, p ≠ []) →
      ∃ q ∈ ps, (List.intercalate sep ps).getLast? = q.getLast?
  | [q], _, _ => ⟨q, by simp, by simp [List.intercalate, List.intersperse]⟩
  | p :: q :: t, _, hne => by
    obtain ⟨w, hw, hlast⟩ := @intercalate_last_cases sep (q :: t) (by simp)
      (fun x hx => hne x (by simp [hx]))
    refine ⟨w, by simp [hw], ?_⟩
    rw [show List.intercalate sep (p :: q :: t) =
        p ++ (sep ++ List.intercalate sep (q :: t)) by
      simp [List.intercalate, List.intersperse]]
    rw [List.getLast?_append, List.getLast?_append, hlast]
    have hwne : w ≠ [] := hne w (by simp [hw])
    match hwl : w.getLast? with
    | some y => rfl
    | none => exact absurd (List.getLast?_eq_none_iff.mp hwl) hwne

/-- Helper: `parse_restrictions` re-reads a rendered canonical formula. -/
theorem parse_restrictions_atom {gs : List (List BuildRestriction)} (h0 : gs ≠ [])
    (h : ∀ g ∈ gs, g ≠ [] ∧ ∀ t ∈ g, wfProfile t.profile = true) :
    parse_restrictions (joinSpace (gs.map ppRestrictions)) = gs := by
  have hdecomp := ppRestrJoin_decomp h0
  have hplower : ∀ c, profChar c = true → c.toLower = c := by
    intro c hpc
    unfold profChar at hpc
    simp only [Bool.and_eq_true, decide_eq_true_eq] at hpc
    exact hpc.2
  have hmidc : ∀ c ∈ List.intercalate ('>' :: ' ' :: ['<']) (gs.map groupContent),
      c = '>' ∨ c = ' ' ∨ c = '<' ∨ c = '!' ∨ profChar c = true := by
    intro c hc
    rcases mem_joinSep hc with hc | ⟨p, hp, hcp⟩
    · simp only [List.mem_cons, List.not_mem_nil, or_false] at hc
      tauto
    · obtain ⟨g, hg, rfl⟩ := List.mem_map.mp hp
      rcases groupContent_chars (h g hg).2 c hcp with h1 | h1 | h1 <;> tauto
  have hpieces_ne : ∀ p ∈ gs.map groupContent, p ≠ [] := by
    intro p hp
    obtain ⟨g, hg, rfl⟩ := List.mem_map.mp hp
    exact groupContent_ne_nil (h g hg).1 (h g hg).2
  have hmapne : gs.map groupContent ≠ [] := by simpa using h0
  have hmidne : List.intercalate ('>' :: ' ' :: ['<']) (gs.map groupContent) ≠ [] :=
    intercalate_ne_nil hmapne hpieces_ne
  have hlower : (('<' :: (List.intercalate ('>' :: ' ' :: ['<']) (gs.map groupContent) ++
      ['>'])).map Char.toLower) =
      '<' :: (List.intercalate ('>' :: ' ' :: ['<']) (gs.map groupContent) ++ ['>']) := by
    apply map_id_of
    intro c hc
    simp only [List.mem_cons, List.mem_append, List.mem_singleton, List.not_mem_nil,
      or_false] at hc
    rcases hc with rfl | hc | rfl
    · decide
    · rcases hmidc c hc with rfl | rfl | rfl | rfl | hp
      · decide
      · decide
      · decide
      · decide
      · exact hplower c hp
    · decide
  have hprof_not_bad : ∀ c, profChar c = true →
      (c = '<' || c = '>' || c = ' ') = false := by
    intro c hp
    have hnw := profChar_not_ws hp
    unfold profChar at hp
    simp only [Bool.and_eq_true, decide_eq_true_eq, Bool.not_eq_true'] at hp
    have hlt : ¬c = '<' := hp.1.1.1.1.2
    have hgt : ¬c = '>' := hp.1.1.1.2
    have hsp : ¬c = ' ' := by
      rintro rfl
      exact absurd hnw (by decide)
    simp [hlt, hgt, hsp]
  have hhead : HeadNot (fun c => c = '<' || c = '>' || c = ' ')
      (List.intercalate ('>' :: ' ' :: ['<']) (gs.map groupContent)) := by
    obtain ⟨q, hq, heq⟩ := intercalate_head_cases hmapne hpieces_ne
    intro c hc
    rw [heq] at hc
    obtain ⟨g, hg, rfl⟩ := List.mem_map.mp hq
    rcases (groupContent_ends (h g hg).1 (h g hg).2).1 c hc with rfl | hp
    · decide
    · exact hprof_not_bad c hp
  have hlast : LastNot (fun c => c = '<' || c = '>' || c = ' ')
      (List.intercalate ('>' :: ' ' :: ['<']) (gs.map groupContent)) := by
    obtain ⟨q, hq, heq⟩ := intercalate_last_cases hmapne hpieces_ne
    intro c hc
    rw [heq] at hc
    obtain ⟨g, hg, rfl⟩ := List.mem_map.mp hq
    exact hprof_not_bad c ((groupContent_ends (h g hg).1 (h g hg).2).2 c hc)
  have hstrip : pyStripSet (fun c => c = '<' || c = '>' || c = ' ')
      (('<' :: (List.intercalate ('>' :: ' ' :: ['<']) (gs.map groupContent) ++
        ['>'])).map Char.toLower) =
      List.intercalate ('>' :: ' ' :: ['<']) (gs.map groupContent) := by
    rw [hlower,
      show ('<' :: (List.intercalate ('>' :: ' ' :: ['<']) (gs.map groupContent) ++ ['>'])) =
        ['<'] ++ (List.intercalate ('>' :: ' ' :: ['<']) (gs.map groupContent) ++ ['>'])
        from rfl]
    exact stripSet_sandwich (by decide) (by decide) hmidne hhead hlast
  have hgtfree : ∀ g' ∈ gs.map groupContent, ∀ c ∈ g', ¬c = '>' := by
    intro g' hg' c hc
    obtain ⟨g, hg, rfl⟩ := List.mem_map.mp hg'
    rcases groupContent_chars (h g hg).2 c hc with rfl | rfl | hp
    · decide
    · decide
    · intro hcc
      subst hcc
      exact absurd (hprof_not_bad '>' hp) (by decide)
  have hgroup : ∀ g ∈ gs,
      (splitWordsGo [] (groupContent g)).filterMap matchRestrTok = g := by
    intro g hg
    have htoks : ∀ p ∈ g.map restrTok, p ≠ [] ∧ ∀ c ∈ p, pyIsSpace c = false := by
      intro p hp
      obtain ⟨t, ht, rfl⟩ := List.mem_map.mp hp
      refine ⟨restrTok_ne_nil ((h g hg).2 t ht), ?_⟩
      intro c hc
      rcases restrTok_chars ((h g hg).2 t ht) c hc with rfl | hp2
      · decide
      · exact profChar_not_ws hp2
    rw [show groupContent g = joinSpace (g.map restrTok) from rfl,
      splitWords_joinSpace (by simpa using (h g hg).1) htoks]
    apply filterMap_map_some
    intro t ht
    have hwp := (h g hg).2 t ht
    unfold wfProfile at hwp
    simp only [Bool.and_eq_true, decide_eq_true_eq, List.all_eq_true, ne_eq] at hwp
    obtain ⟨en, pf⟩ := t
    cases en with
    | true =>
      match pf, hwp.1.1 with
      | c :: pf', _ =>
        have hch : ¬c = '!' := by simpa [List.headI] using hwp.1.2
        simp [matchRestrTok, restrTok, hch]
    | false =>
      match pf, hwp.1.1 with
      | c :: pf', _ => simp [matchRestrTok, restrTok]
  unfold parse_restrictions
  rw [hdecomp]
  simp only [hstrip, srs_join hmapne hgtfree, List.map_map]
  rw [show gs.map ((fun g => (splitWordsGo [] g).filterMap matchRestrTok) ∘ groupContent) =
      gs.map id from List.map_congr_left (fun g hg => hgroup g hg), List.map_id]

/-- Helper: `parse_rel` re-reads a rendered canonical atom. -/
theorem parse_rel_atom {r : PkgRelation} (h : wfAtom r = true) :
    parse_rel (pkgRelationStr r) = .ok r := by
  have hmatch := relMatch_atom h
  obtain ⟨-, -, -, ha, hrs⟩ := wfAtom_parts h
  unfold parse_rel
  rw [hmatch]
  obtain ⟨n, ver, ar, aq, rs⟩ := r
  rcases ar with _ | l
  · rcases rs with _ | gs
    · rfl
    · obtain ⟨hgs0, hgs⟩ := wfRestrictionsF_some hrs
      simp only [Option.map_some', Option.map_none', parse_restrictions_atom hgs0 hgs]
      rfl
  · unfold wfArchF at ha
    simp only [Bool.and_eq_true, decide_eq_true_eq, List.all_eq_true, ne_eq] at ha
    have hpa := parse_archs_atom ha.1 ha.2
    rcases rs with _ | gs
    · simp only [Option.map_some', Option.map_none', hpa, Except.map]
      rfl
    · obtain ⟨hgs0, hgs⟩ := wfRestrictionsF_some hrs
      simp only [Option.map_some', hpa, Except.map, parse_restrictions_atom hgs0 hgs]
      rfl

/-- Helper: the empty string has no last character. -/
theorem lastNot_nil {p : Char → Bool} : LastNot p [] := by
  intro c hc
  simp at hc

/-- Helper: a last-character bound across an append. -/
theorem lastNot_append_cases {p : Char → Bool} {a b : Chars}
    (hb : LastNot p b) (ha : b = [] → LastNot p a) : LastNot p (a ++ b) := by
  intro c hc
  rw [List.getLast?_append] at hc
  match hbl : b.getLast? with
  | some y =>
    rw [hbl] at hc
    simp only [Option.or_some, Option.some.injEq] at hc
    exact hc ▸ hb y hbl
  | none =>
    rw [hbl] at hc
    simp only [Option.none_or] at hc
    exact ha (List.getLast?_eq_none_iff.mp hbl) c hc

/-- Helper: a rendered canonical atom is nonempty. -/
theorem atomStr_ne_nil {r : PkgRelation} (h : wfAtom r = true) :
    pkgRelationStr r ≠ [] := by
  obtain ⟨hn, -, -, -, -⟩ := wfAtom_parts h
  unfold wfName at hn
  simp only [Bool.and_eq_true, decide_eq_true_eq] at hn
  rw [pkgRelationStr_eq]
  intro hc
  rcases List.append_eq_nil.mp hc with ⟨h1, -⟩
  rw [h1] at hn
  simp at hn

/-- Helper: a rendered canonical atom starts with a name character. -/
theorem atomStr_headNot {r : PkgRelation} (h : wfAtom r = true) :
    HeadNot pyIsSpace (pkgRelationStr r) := by
  obtain ⟨hn, -, -, -, -⟩ := wfAtom_parts h
  unfold wfName at hn
  simp only [Bool.and_eq_true, decide_eq_true_eq, List.all_eq_true] at hn
  rw [pkgRelationStr_eq]
  intro c hc
  cases hname : r.name with
  | nil =>
    rw [hname] at hn
    exact absurd hn.1 (by simp)
  | cons x n' =>
    rw [hname] at hc hn
    simp only [List.cons_append, List.head?_cons, Option.some.injEq] at hc
    exact hc ▸ nameChar_not_ws (hn.2 x (by simp))

/-- Helper: a rendered canonical atom ends in non-whitespace. -/
theorem atomStr_lastNot {r : PkgRelation} (h : wfAtom r = true) :
    LastNot pyIsSpace (pkgRelationStr r) := by
  obtain ⟨hn, haq, hv, ha, hrs⟩ := wfAtom_parts h
  rw [pkgRelationStr_eq]
  have hP : LastNot pyIsSpace (ppRestrField r.restrictions) := by
    cases hrsv : r.restrictions with
    | none => exact lastNot_nil
    | some gs =>
      obtain ⟨hgs0, hgs⟩ := wfRestrictionsF_some (hrsv ▸ hrs)
      obtain ⟨mid, hmid, -, -⟩ := ppRestrJoin_shape hgs hgs0
      intro c hc
      rw [show ppRestrField (some gs) = ' ' :: joinSpace (gs.map ppRestrictions)
        from rfl, hmid, show (' ' :: ('<' :: (mid ++ ['>']))) =
          (' ' :: '<' :: mid) ++ ['>'] by simp, List.getLast?_concat] at hc
      cases hc
      decide
  have hR : LastNot pyIsSpace (ppArchList r.arch) := by
    cases harch : r.arch with
    | none => exact lastNot_nil
    | some l =>
      intro c hc
      rw [show ppArchList (some l) = (' ' :: '[' :: joinSpace (l.map ppArch)) ++ [']']
        by simp [ppArchList], List.getLast?_concat] at hc
      cases hc
      decide
  have hV : LastNot pyIsSpace (ppVersion r.version) := by
    rcases hver : r.version with _ | ⟨op, v⟩
    · exact lastNot_nil
    · intro c hc
      rw [show ppVersion (some (op, v)) = (' ' :: '(' :: (op ++ ' ' :: v)) ++ [')']
        by simp [ppVersion], List.getLast?_concat] at hc
      cases hc
      decide
  have hA : LastNot pyIsSpace (ppArchqual r.archqual) := by
    cases haqv : r.archqual with
    | none => exact lastNot_nil
    | some q =>
      rw [haqv] at haq
      unfold wfArchqual at haq
      simp only [Bool.and_eq_true, decide_eq_true_eq, List.all_eq_true, ne_eq] at haq
      apply lastNot_of_all
      intro c hc
      rw [show ppArchqual (some q) = ':' :: q from rfl] at hc
      rcases List.mem_cons.mp hc with rfl | hc
      · decide
      · exact archqualChar_not_ws (haq.2 c hc)
  have hName : LastNot pyIsSpace r.name := by
    unfold wfName at hn
    simp only [Bool.and_eq_true, decide_eq_true_eq, List.all_eq_true] at hn
    exact lastNot_of_all (fun c hc => nameChar_not_ws (hn.2 c hc))
  exact lastNot_append_cases
    (lastNot_append_cases
      (lastNot_append_cases
        (lastNot_append_cases hP (fun _ => hR))
        (fun _ => hV))
      (fun _ => hA))
    (fun _ => hName)

/-- Helper: no character of a rendered canonical atom is a separator. -/
theorem atomStr_plain {r : PkgRelation} (h : wfAtom r = true) :
    ∀ c ∈ pkgRelationStr r, PlainChar c := by
  obtain ⟨hn, haq, hv, ha, hrs⟩ := wfAtom_parts h
  unfold wfName at hn
  simp only [Bool.and_eq_true, decide_eq_true_eq, List.all_eq_true] at hn
  rw [pkgRelationStr_eq]
  intro c hc
  rcases List.mem_append.mp hc with hc | hc
  · exact nameChar_plain (hn.2 c hc)
  rcases List.mem_append.mp hc with hc | hc
  · cases haqv : r.archqual with
    | none => rw [haqv] at hc; simp [ppArchqual] at hc
    | some q =>
      rw [haqv] at hc haq
      unfold wfArchqual at haq
      simp only [Bool.and_eq_true, decide_eq_true_eq, List.all_eq_true, ne_eq] at haq
      rcases List.mem_cons.mp hc with rfl | hc
      · exact ⟨by decide, by decide, by decide⟩
      · exact archqualChar_plain (haq.2 c hc)
  rcases List.mem_append.mp hc with hc | hc
  · rcases hver : r.version with _ | ⟨op, v⟩
    · rw [hver] at hc; simp [ppVersion] at hc
    · rw [hver] at hc hv
      unfold wfVersionF relopStr at hv
      simp only [Bool.and_eq_true, decide_eq_true_eq, List.all_eq_true, ne_eq] at hv
      rw [show ppVersion (some (op, v)) = [' ', '('] ++ (op ++ ([' '] ++ (v ++ [')'])))
        by simp [ppVersion]] at hc
      rcases List.mem_append.mp hc with hc | hc
      · rcases List.mem_cons.mp hc with rfl | hc
        · exact ⟨by decide, by decide, by decide⟩
        · simp only [List.mem_singleton] at hc
          exact hc ▸ ⟨by decide, by decide, by decide⟩
      rcases List.mem_append.mp hc with hc | hc
      · exact relopChar_plain (hv.1.1.2 c hc)
      rcases List.mem_append.mp hc with hc | hc
      · simp only [List.mem_singleton] at hc
        exact hc ▸ ⟨by decide, by decide, by decide⟩
      rcases List.mem_append.mp hc with hc | hc
      · exact versChar_plain (hv.2 c hc)
      · simp only [List.mem_singleton] at hc
        exact hc ▸ ⟨by decide, by decide, by decide⟩
  rcases List.mem_append.mp hc with hc | hc
  · cases harch : r.arch with
    | none => rw [harch] at hc; simp [ppArchList] at hc
    | some l =>
      rw [harch] at hc ha
      unfold wfArchF at ha
      simp only [Bool.and_eq_true, decide_eq_true_eq, List.all_eq_true, ne_eq] at ha
      rw [show ppArchList (some l) = [' ', '['] ++ (joinSpace (l.map ppArch) ++ [']'])
        by simp [ppArchList]] at hc
      rcases List.mem_append.mp hc with hc | hc
      · rcases List.mem_cons.mp hc with rfl | hc
        · exact ⟨by decide, by decide, by decide⟩
        · simp only [List.mem_singleton] at hc
          exact hc ▸ ⟨by decide, by decide, by decide⟩
      rcases List.mem_append.mp hc with hc | hc
      · unfold joinSpace at hc
        rcases mem_joinSep hc with hc | ⟨p, hp, hcp⟩
        · simp only [List.mem_singleton] at hc
          exact hc ▸ ⟨by decide, by decide, by decide⟩
        · obtain ⟨a, hamem, rfl⟩ := List.mem_map.mp hp
          have hcl := ppArch_chars (ha.2 a hamem) c hcp
          have hnw := ppArch_not_ws (ha.2 a hamem) c hcp
          unfold archContentChar wordChar at hcl
          simp only [Bool.or_eq_true, decide_eq_true_eq] at hcl
          rcases hcl with ((hws | rfl) | (halnum | rfl)) | rfl
          · rw [hws] at hnw; cases hnw
          · exact ⟨by decide, by decide, by decide⟩
          · exact alnum_plain halnum
          · exact ⟨by decide, by decide, by decide⟩
          · exact ⟨by decide, by decide, by decide⟩
      · simp only [List.mem_singleton] at hc
        exact hc ▸ ⟨by decide, by decide, by decide⟩
  · cases hrsv : r.restrictions with
    | none => rw [hrsv] at hc; simp [ppRestrField] at hc
    | some gs =>
      rw [hrsv] at hc hrs
      obtain ⟨hgs0, hgs⟩ := wfRestrictionsF_some hrs
      obtain ⟨mid, hmid, -, hmidc⟩ := ppRestrJoin_shape hgs hgs0
      rw [show ppRestrField (some gs) = [' ', '<'] ++ (mid ++ ['>'])
        by simp [ppRestrField, hmid]] at hc
      rcases List.mem_append.mp hc with hc | hc
      · rcases List.mem_cons.mp hc with rfl | hc
        · exact ⟨by decide, by decide, by decide⟩
        · simp only [List.mem_singleton] at hc
          exact hc ▸ ⟨by decide, by decide, by decide⟩
      rcases List.mem_append.mp hc with hc | hc
      · rcases hmidc c hc with rfl | rfl | rfl | rfl | hp
        · exact ⟨by decide, by decide, by decide⟩
        · exact ⟨by decide, by decide, by decide⟩
        · exact ⟨by decide, by decide, by decide⟩
        · exact ⟨by decide, by decide, by decide⟩
        · exact profChar_plain hp
      · simp only [List.mem_singleton] at hc
        exact hc ▸ ⟨by decide, by decide, by decide⟩

/-- Helper: the tail stripper of the pipe split recovers the branches. -/
theorem pipeSplitTail_rec :
    ∀ {ss : List Chars}, ss ≠ [] →
      (∀ s ∈ ss, s ≠ [] ∧ HeadNot pyIsSpace s ∧ LastNot pyIsSpace s ∧ '|' ∉ s) →
      pipeSplitTail (pySplit '|' (' ' :: List.intercalate (' ' :: '|' :: [' ']) ss)) = ss
  | [s], _, hs => by
    obtain ⟨hne, hh, -, hbar⟩ := hs s (by simp)
    rw [show List.intercalate (' ' :: '|' :: [' ']) [s] = s by
      simp [List.intercalate, List.intersperse]]
    rw [pySplit_nosep '|' (by simp [hbar])]
    show [pyLStrip (' ' :: s)] = [s]
    rw [show (' ' :: s : Chars) = [' '] ++ s from rfl, pyLStrip_app (by simp; decide) hh]
  | s :: s' :: t, _, hs => by
    obtain ⟨hne, hh, hl, hbar⟩ := hs s (by simp)
    have hsplit : (' ' :: List.intercalate (' ' :: '|' :: [' ']) (s :: s' :: t)) =
        ((' ' :: s) ++ [' ']) ++ '|' ::
          (' ' :: List.intercalate (' ' :: '|' :: [' ']) (s' :: t)) := by
      rw [show List.intercalate (' ' :: '|' :: [' ']) (s :: s' :: t) =
          s ++ ((' ' :: '|' :: [' ']) ++ List.intercalate (' ' :: '|' :: [' ']) (s' :: t)) by
        simp [List.intercalate, List.intersperse]]
      simp
    rw [hsplit, pySplit_app '|' _ (by
      simp only [List.mem_append, List.mem_cons, List.mem_singleton, not_or]
      exact ⟨⟨by decide, hbar⟩, by decide⟩)]
    have hrec := @pipeSplitTail_rec (s' :: t) (by simp)
      (fun x hx => hs x (by simp [hx]))
    cases htail : pySplit '|' (' ' :: List.intercalate (' ' :: '|' :: [' ']) (s' :: t)) with
    | nil => exact absurd htail (pySplit_ne_nil _ _)
    | cons q qs =>
      rw [htail] at hrec
      show pyStrip ((' ' :: s) ++ [' ']) :: pipeSplitTail (q :: qs) = s :: s' :: t
      rw [show ((' ' :: s) ++ [' '] : Chars) = [' '] ++ (s ++ [' ']) by simp,
        pyStrip_sandwich (by simp; decide) (by simp; decide) hne hh hl, hrec]

/-- Helper: the pipe split recovers the rendered OR branches. -/
theorem pipeSplit_rec {ss : List Chars} (h0 : ss ≠ [])
    (hs : ∀ s ∈ ss, s ≠ [] ∧ HeadNot pyIsSpace s ∧ LastNot pyIsSpace s ∧ '|' ∉ s) :
    pipeSplit (List.intercalate (' ' :: '|' :: [' ']) ss) = ss := by
  match ss, h0 with
  | [s], _ =>
    obtain ⟨hne, -, -, hbar⟩ := hs s (by simp)
    rw [show List.intercalate (' ' :: '|' :: [' ']) [s] = s by
      simp [List.intercalate, List.intersperse]]
    unfold pipeSplit
    rw [pySplit_nosep '|' hbar]
  | s :: s' :: t, _ =>
    obtain ⟨hne, hh, hl, hbar⟩ := hs s (by simp)
    have hsplit : List.intercalate (' ' :: '|' :: [' ']) (s :: s' :: t) =
        (s ++ [' ']) ++ '|' ::
          (' ' :: List.intercalate (' ' :: '|' :: [' ']) (s' :: t)) := by
      rw [show List.intercalate (' ' :: '|' :: [' ']) (s :: s' :: t) =
          s ++ ((' ' :: '|' :: [' ']) ++ List.intercalate (' ' :: '|' :: [' ']) (s' :: t)) by
        simp [List.intercalate, List.intersperse]]
      simp
    rw [hsplit, show pipeSplit ((s ++ [' ']) ++ '|' ::
        (' ' :: List.intercalate (' ' :: '|' :: [' ']) (s' :: t))) =
        match pySplit '|' ((s ++ [' ']) ++ '|' ::
          (' ' :: List.intercalate (' ' :: '|' :: [' ']) (s' :: t))) with
        | [] => [[]]
        | [p] => [p]
        | p :: ps => pyRStrip p :: pipeSplitTail ps from rfl,
      pySplit_app '|' _ (by
        simp only [List.mem_append, List.mem_singleton, not_or]
        exact ⟨hbar, by decide⟩)]
    have hrec := @pipeSplitTail_rec (s' :: t) (by simp)
      (fun x hx => hs x (by simp [hx]))
    cases htail : pySplit '|' (' ' :: List.intercalate (' ' :: '|' :: [' ']) (s' :: t)) with
    | nil => exact absurd htail (pySplit_ne_nil _ _)
    | cons q qs =>
      rw [htail] at hrec
      show pyRStrip (s ++ [' ']) :: pipeSplitTail (q :: qs) = s :: s' :: t
      rw [pyRStrip_app (by simp; decide) hl, hrec]

/-- Helper: `parse_relation` re-reads a rendered canonical OR group. -/
theorem parse_relation_entry {rel : List PkgRelation} (h0 : rel ≠ [])
    (hwf : ∀ r ∈ rel, wfAtom r = true) :
    parse_relation (List.intercalate (' ' :: '|' :: [' ']) (rel.map pkgRelationStr)) =
      .ok rel := by
  have hmapne : rel.map pkgRelationStr ≠ [] := by simpa using h0
  have hpieces : ∀ s ∈ rel.map pkgRelationStr,
      s ≠ [] ∧ HeadNot pyIsSpace s ∧ LastNot pyIsSpace s ∧ '|' ∉ s := by
    intro s hsmem
    obtain ⟨r, hr, rfl⟩ := List.mem_map.mp hsmem
    refine ⟨atomStr_ne_nil (hwf r hr), atomStr_headNot (hwf r hr),
      atomStr_lastNot (hwf r hr), ?_⟩
    intro hbar
    exact absurd rfl (atomStr_plain (hwf r hr) '|' hbar).2.1
  have hne : List.intercalate (' ' :: '|' :: [' ']) (rel.map pkgRelationStr) ≠ [] :=
    intercalate_ne_nil hmapne (fun p hp => (hpieces p hp).1)
  unfold parse_relation pkgRelationParse
  rw [if_neg hne, pipeSplit_rec hmapne hpieces]
  exact mapME_map_ok (fun r hr => parse_rel_atom (hwf r hr))

/-- Helper: `parseSegment` re-reads a rendered canonical entry. -/
theorem parseSegment_entry {e : RelEntry} (h : wfEntry e = true) :
    parseSegment (entryStr e) = .ok e := by
  unfold wfEntry at h
  simp only [Bool.and_eq_true, List.all_eq_true, Bool.or_eq_true, Bool.not_eq_true',
    decide_eq_true_eq] at h
  obtain ⟨⟨⟨⟨⟨hhw, htw⟩, hhw1⟩, htw0⟩, hatoms⟩, hlastc⟩ := h
  obtain ⟨hw, rel, tw⟩ := e
  by_cases hrel : rel = []
  · subst hrel
    simp only [List.isEmpty_nil, Bool.true_eq_false, false_or] at hlastc
    have htwnil : tw = [] := by
      have := hlastc.1
      simpa [List.isEmpty_iff] using this
    subst htwnil
    rw [show entryStr ⟨hw, [], []⟩ = hw by
      simp [entryStr, List.intercalate, List.intersperse]]
    cases hhwnil : hw with
    | nil =>
      unfold parseSegment
      rw [if_neg (by simp [pyIsSpaceStr])]
      rfl
    | cons c hw' =>
      unfold parseSegment
      rw [if_pos (by
        unfold pyIsSpaceStr
        simp only [Bool.and_eq_true, decide_eq_true_eq, List.all_eq_true, ne_eq]
        exact ⟨by simp, fun x hx => hhw x (hhwnil ▸ hx)⟩)]
  · have hrelne : rel ≠ [] := hrel
    have hwfrel : ∀ r ∈ rel, wfAtom r = true := hatoms
    have hcore := parse_relation_entry hrelne hwfrel
    have hmapne : rel.map pkgRelationStr ≠ [] := by simpa using hrelne
    have hpne : ∀ p ∈ rel.map pkgRelationStr, p ≠ [] := by
      intro p hp
      obtain ⟨r, hr, rfl⟩ := List.mem_map.mp hp
      exact atomStr_ne_nil (hwfrel r hr)
    have hcne : List.intercalate (' ' :: '|' :: [' ']) (rel.map pkgRelationStr) ≠ [] :=
      intercalate_ne_nil hmapne hpne
    have hch : HeadNot pyIsSpace
        (List.intercalate (' ' :: '|' :: [' ']) (rel.map pkgRelationStr)) := by
      obtain ⟨q, hq, heq⟩ := intercalate_head_cases hmapne hpne
      intro c hc
      rw [heq] at hc
      obtain ⟨r, hr, rfl⟩ := List.mem_map.mp hq
      exact atomStr_headNot (hwfrel r hr) c hc
    have hcl : LastNot pyIsSpace
        (List.intercalate (' ' :: '|' :: [' ']) (rel.map pkgRelationStr)) := by
      obtain ⟨q, hq, heq⟩ := intercalate_last_cases hmapne hpne
      intro c hc
      rw [heq] at hc
      obtain ⟨r, hr, rfl⟩ := List.mem_map.mp hq
      exact atomStr_lastNot (hwfrel r hr) c hc
    -- the segment is hw ++ (core ++ tw)
    have hseg : entryStr ⟨hw, rel, tw⟩ =
        hw ++ (List.intercalate (' ' :: '|' :: [' ']) (rel.map pkgRelationStr) ++ tw) := by
      simp [entryStr]
    -- a head character of core ++ tw is a head character of core
    have hct_head : ∀ y, (List.intercalate (' ' :: '|' :: [' '])
        (rel.map pkgRelationStr) ++ tw).head? = some y → pyIsSpace y = false := by
      intro y hy
      rw [List.head?_append] at hy
      match hch2 : (List.intercalate (' ' :: '|' :: [' '])
          (rel.map pkgRelationStr)).head? with
      | some z =>
        rw [hch2] at hy
        simp only [Option.or_some, Option.some.injEq] at hy
        exact hy ▸ hch z hch2
      | none => exact absurd (List.head?_eq_none_iff.mp hch2) hcne
    have hnotsp : pyIsSpaceStr (entryStr ⟨hw, rel, tw⟩) = false := by
      rw [hseg]
      unfold pyIsSpaceStr
      match hcc : (List.intercalate (' ' :: '|' :: [' '])
          (rel.map pkgRelationStr)), hcne with
      | c0 :: cs, _ =>
        have hc0 : pyIsSpace c0 = false := hch c0 (by rw [hcc]; rfl)
        apply Bool.and_eq_false_iff.mpr
        right
        apply List.all_eq_false.mpr
        exact ⟨c0, by simp, by simp [hc0]⟩
      | [], hcne' => exact absurd rfl hcne'
    unfold parseSegment
    rw [if_neg (by rw [hnotsp]; exact Bool.false_ne_true)]
    rw [hseg, takeWhile_app hhw hct_head, dropWhile_app hhw hct_head]
    simp only []
    have hrev : (List.intercalate (' ' :: '|' :: [' ']) (rel.map pkgRelationStr) ++
        tw).reverse = tw.reverse ++
          (List.intercalate (' ' :: '|' :: [' ']) (rel.map pkgRelationStr)).reverse := by
      simp
    rw [hrev, takeWhile_app (fun a hamem => htw a (List.mem_reverse.mp hamem))
      (fun y hy => hcl y (by rwa [List.head?_reverse] at hy)),
      List.reverse_reverse]
    simp only [List.length_append, List.length_reverse]
    rw [List.take_append_of_le_length (by omega), show
      (List.intercalate (' ' :: '|' :: [' ']) (rel.map pkgRelationStr)).length + tw.length
        - tw.length = (List.intercalate (' ' :: '|' :: [' '])
          (rel.map pkgRelationStr)).length by omega,
      List.take_length, hcore, ok_bind]

/-- Helper: the first piece is contained in the intercalation. -/
theorem mem_intercalate_head {sep : Chars} {p : Chars} {t : List Chars} {c : Char}
    (hc : c ∈ p) : c ∈ List.intercalate sep (p :: t) := by
  cases t with
  | nil => simpa [List.intercalate, List.intersperse] using hc
  | cons q t' =>
    rw [show List.intercalate sep (p :: q :: t') =
        p ++ (sep ++ List.intercalate sep (q :: t')) by
      simp [List.intercalate, List.intersperse]]
    exact List.mem_append.mpr (Or.inl hc)

/-- Helper: the rendered OR-group core of a canonical entry has no newline
and no comma. -/
theorem entryCore_plain {rel : List PkgRelation}
    (hwf : ∀ r ∈ rel, wfAtom r = true) :
    ∀ c ∈ List.intercalate (' ' :: '|' :: [' ']) (rel.map pkgRelationStr),
      c ≠ ',' ∧ c ≠ '\n' := by
  intro c hc
  rcases mem_joinSep hc with hc | ⟨p, hp, hcp⟩
  · simp only [List.mem_cons, List.not_mem_nil, or_false] at hc
    rcases hc with rfl | rfl | rfl
    · exact ⟨by decide, by decide⟩
    · exact ⟨by decide, by decide⟩
    · exact ⟨by decide, by decide⟩
  · obtain ⟨r, hr, rfl⟩ := List.mem_map.mp hp
    have := atomStr_plain (hwf r hr) c hcp
    exact ⟨this.1, this.2.2⟩

/-- Helper: the line shape of a rendered canonical entry: it has no
newline, or exactly one with a non-whitespace character after it. -/
theorem entryStr_shape {e : RelEntry} (h : wfEntry e = true) :
    ('\n' ∉ entryStr e) ∨
      ∃ u w, entryStr e = u ++ '\n' :: w ∧ '\n' ∉ u ∧ '\n' ∉ w ∧
        ∃ c ∈ w, pyIsSpace c = false := by
  have hwf := h
  unfold wfEntry at h
  simp only [Bool.and_eq_true, List.all_eq_true, Bool.or_eq_true, Bool.not_eq_true',
    decide_eq_true_eq] at h
  obtain ⟨⟨⟨⟨⟨hhw, htw⟩, hhw1⟩, htw0⟩, hatoms⟩, hlastc⟩ := h
  have htwnl : '\n' ∉ e.tw := List.count_eq_zero.mp htw0
  have hcorenl : '\n' ∉ List.intercalate (' ' :: '|' :: [' '])
      (e.rel.map pkgRelationStr) := by
    intro hmem
    exact absurd rfl (entryCore_plain hatoms '\n' hmem).2
  cases hcnt : e.hw.count '\n' with
  | zero =>
    left
    have hhwnl : '\n' ∉ e.hw := List.count_eq_zero.mp hcnt
    unfold entryStr
    intro hmem
    rcases List.mem_append.mp hmem with hmem | hmem
    · rcases List.mem_append.mp hmem with hmem | hmem
      · exact hhwnl hmem
      · exact hcorenl hmem
    · exact htwnl hmem
  | succ n =>
    right
    have hone : e.hw.count '\n' = 1 := by omega
    obtain ⟨u, u2, hu, hnu, hnu2⟩ := count_one_split hone
    have hrelne : e.rel ≠ [] := by
      intro hnil
      rcases hlastc with hfalse | ⟨-, hzero⟩
      · rw [hnil] at hfalse; simp at hfalse
      · rw [hzero] at hcnt; cases hcnt
    refine ⟨u, u2 ++ (List.intercalate (' ' :: '|' :: [' '])
      (e.rel.map pkgRelationStr) ++ e.tw), ?_, hnu, ?_, ?_⟩
    · unfold entryStr
      rw [hu]
      simp
    · intro hmem
      rcases List.mem_append.mp hmem with hmem | hmem
      · exact hnu2 hmem
      rcases List.mem_append.mp hmem with hmem | hmem
      · exact hcorenl hmem
      · exact htwnl hmem
    · match hrel : e.rel, hrelne with
      | r0 :: rel', _ =>
        have hwf0 : wfAtom r0 = true := hatoms r0 (by rw [hrel]; simp)
        obtain ⟨hn0, -, -, -, -⟩ := wfAtom_parts hwf0
        unfold wfName at hn0
        simp only [Bool.and_eq_true, decide_eq_true_eq, List.all_eq_true] at hn0
        match hname : r0.name, hn0 with
        | x :: n', hn0 =>
          refine ⟨x, ?_, nameChar_not_ws (hn0.2 x (by simp))⟩
          apply List.mem_append.mpr
          apply Or.inr
          apply List.mem_append.mpr
          apply Or.inl
          simp only [List.map_cons]
          apply mem_intercalate_head
          rw [pkgRelationStr_eq, hname]
          simp

/-- Helper: a rendered canonical entry contains no comma. -/
theorem entryStr_no_comma {e : RelEntry} (h : wfEntry e = true) :
    ',' ∉ entryStr e := by
  unfold wfEntry at h
  simp only [Bool.and_eq_true, List.all_eq_true, Bool.or_eq_true, Bool.not_eq_true',
    decide_eq_true_eq] at h
  obtain ⟨⟨⟨⟨⟨hhw, htw⟩, -⟩, -⟩, hatoms⟩, -⟩ := h
  intro hmem
  unfold entryStr at hmem
  rcases List.mem_append.mp hmem with hmem | hmem
  · rcases List.mem_append.mp hmem with hmem | hmem
    · exact absurd (hhw ',' hmem) (by decide)
    · exact absurd rfl (entryCore_plain hatoms ',' hmem).1
  · exact absurd (htw ',' hmem) (by decide)

/-- Helper: under canonicity a rendered entry is empty only for the
degenerate all-empty entry. -/
theorem entryStr_ne_nil {e : RelEntry} (h : wfEntry e = true)
    (hne : e ≠ ⟨[], [], []⟩) : entryStr e ≠ [] := by
  unfold wfEntry at h
  simp only [Bool.and_eq_true, List.all_eq_true, Bool.or_eq_true, Bool.not_eq_true',
    decide_eq_true_eq] at h
  obtain ⟨⟨⟨⟨⟨-, -⟩, -⟩, -⟩, hatoms⟩, -⟩ := h
  obtain ⟨hw, rel, tw⟩ := e
  intro hnil
  unfold entryStr at hnil
  rcases List.append_eq_nil.mp hnil with ⟨h1, h3⟩
  rcases List.append_eq_nil.mp h1 with ⟨h1, h2⟩
  cases hrel : rel with
  | nil =>
    have h1' : hw = [] := h1
    have h3' : tw = [] := h3
    exact hne (by rw [h1', h3', hrel])
  | cons r0 rel' =>
    rw [hrel] at h2
    have : List.intercalate (' ' :: '|' :: [' '])
        ((r0 :: rel').map pkgRelationStr) ≠ [] := by
      apply intercalate_ne_nil (by simp)
      intro p hp
      obtain ⟨r, hr, rfl⟩ := List.mem_map.mp hp
      exact atomStr_ne_nil (hatoms r (by rw [hrel]; exact hr))
    exact this h2

/-- Helper: on canonical lists the blank-line pruning of
`format_relations` is the identity, so the rendering is just the comma
join of the rendered entries. -/
theorem format_relations_wf {R : List RelEntry} (h : wfRelList R = true) :
    format_relations R = pyJoin ',' (R.map entryStr) := by
  unfold wfRelList at h
  simp only [Bool.and_eq_true, List.all_eq_true, decide_eq_true_eq, ne_eq] at h
  unfold format_relations
  rw [pruneLines_eq_self, pyJoin_pySplit]
  intro l hl
  have hshapes : ∀ p ∈ R.map entryStr, ('\n' ∉ p) ∨
      ∃ u w, p = u ++ '\n' :: w ∧ '\n' ∉ u ∧ '\n' ∉ w ∧
        ∃ c ∈ w, pyIsSpace c = false := by
    intro p hp
    obtain ⟨e, he, rfl⟩ := List.mem_map.mp hp
    exact entryStr_shape (h.1 e he)
  obtain ⟨c, hcmem, hcws⟩ := lines_nonblank hshapes l hl
  exact pyStrip_ne_nil hcmem hcws

/-- Helper: parsing the rendering of a canonical relation list restores
the list. -/
theorem parse_format_roundtrip {R : List RelEntry} (h : wfRelList R = true) :
    parse_relations (format_relations R) = .ok R := by
  have hwfl := h
  unfold wfRelList at h
  simp only [Bool.and_eq_true, List.all_eq_true, decide_eq_true_eq, ne_eq] at h
  rw [format_relations_wf hwfl]
  cases hR : R with
  | nil => rfl
  | cons e0 R' =>
    have hjoinne : pyJoin ',' ((e0 :: R').map entryStr) ≠ [] := by
      cases hR' : R' with
      | nil =>
        simp only [List.map_cons, List.map_nil]
        rw [show pyJoin ',' [entryStr e0] = entryStr e0 from pyJoin_single ',' _]
        apply entryStr_ne_nil (h.1 e0 (by rw [hR]; simp))
        intro hdeg
        exact h.2 (by rw [hR, hR', hdeg])
      | cons e1 R'' =>
        simp only [List.map_cons]
        rw [pyJoin_cons ',' _ (by simp)]
        intro hnil
        rcases List.append_eq_nil.mp hnil with ⟨-, h2⟩
        cases h2
    unfold parse_relations
    rw [if_neg hjoinne,
      pySplit_join ',' (by simp) (fun s hs => by
        obtain ⟨e, he, rfl⟩ := List.mem_map.mp hs
        exact entryStr_no_comma (h.1 e (by rw [hR]; exact he)))]
    exact mapME_map_ok (fun e he => parseSegment_entry (h.1 e (by rw [hR]; exact he)))

/-- C3 counterexample: the valid relation string `"foo  |  bar"` parses
successfully but formats back as `"foo | bar"`: the whitespace around the
OR bar is normalised to one space on each side, so
`format_relations (parse_relations s) = s` fails. -/
theorem C3_counterexample :
    parse_relations "foo  |  bar".data =
      .ok [⟨[], [⟨"foo".data, none, none, none, none⟩,
        ⟨"bar".data, none, none, none, none⟩], []⟩] ∧
    format_relations [⟨[], [⟨"foo".data, none, none, none, none⟩,
      ⟨"bar".data, none, none, none, none⟩], []⟩] = "foo | bar".data ∧
    "foo | bar".data ≠ "foo  |  bar".data :=
  ⟨by decide, by decide, by decide⟩

/-- C3 (corrected): `format_relations ∘ parse_relations` is not the
identity on every valid relation string — whitespace around `|` is
canonicalised, as the counterexample shows — but the round trip holds on
canonical relation lists: parsing a rendering restores the parsed list
exactly, and consequently every rendered string `s = format_relations R`
with `R` canonical satisfies the byte-identical identity
`format_relations (parse_relations s) = s`. -/
theorem C3_roundtrip_canonical (R : List RelEntry) (h : wfRelList R = true) :
    parse_relations (format_relations R) = .ok R ∧
    ∀ R', parse_relations (format_relations R) = .ok R' →
      format_relations R' = format_relations R := by
  refine ⟨parse_format_roundtrip h, ?_⟩
  intro R' hR'
  rw [parse_format_roundtrip h] at hR'
  cases hR'
  rfl

/-- Witness for C3 at a concrete canonical two-entry list covering
versions, arch qualifiers, architecture restrictions and build profiles. -/
theorem C3_roundtrip_canonical_witness :
    wfRelList [⟨[], [⟨"foo".data, some (">=".data, "1.2~a".data), none, none, none⟩], []⟩,
      ⟨['\n', ' '], [⟨"bar".data, none, some [⟨true, "amd64".data⟩, ⟨false, "i386".data⟩],
        some "any".data, some [[⟨false, "nocheck".data⟩], [⟨true, "cross".data⟩]]⟩,
        ⟨"baz".data, none, none, none, none⟩], [' ']⟩] = true ∧
    (parse_relations (format_relations
        [⟨[], [⟨"foo".data, some (">=".data, "1.2~a".data), none, none, none⟩], []⟩,
         ⟨['\n', ' '], [⟨"bar".data, none, some [⟨true, "amd64".data⟩, ⟨false, "i386".data⟩],
           some "any".data, some [[⟨false, "nocheck".data⟩], [⟨true, "cross".data⟩]]⟩,
           ⟨"baz".data, none, none, none, none⟩], [' ']⟩]) =
      .ok [⟨[], [⟨"foo".data, some (">=".data, "1.2~a".data), none, none, none⟩], []⟩,
         ⟨['\n', ' '], [⟨"bar".data, none, some [⟨true, "amd64".data⟩, ⟨false, "i386".data⟩],
           some "any".data, some [[⟨false, "nocheck".data⟩], [⟨true, "cross".data⟩]]⟩,
           ⟨"baz".data, none, none, none, none⟩], [' ']⟩] ∧
     ∀ R', parse_relations (format_relations
        [⟨[], [⟨"foo".data, some (">=".data, "1.2~a".data), none, none, none⟩], []⟩,
         ⟨['\n', ' '], [⟨"bar".data, none, some [⟨true, "amd64".data⟩, ⟨false, "i386".data⟩],
           some "any".data, some [[⟨false, "nocheck".data⟩], [⟨true, "cross".data⟩]]⟩,
           ⟨"baz".data, none, none, none, none⟩], [' ']⟩]) = .ok R' →
       format_relations R' = format_relations
        [⟨[], [⟨"foo".data, some (">=".data, "1.2~a".data), none, none, none⟩], []⟩,
         ⟨['\n', ' '], [⟨"bar".data, none, some [⟨true, "amd64".data⟩, ⟨false, "i386".data⟩],
           some "any".data, some [[⟨false, "nocheck".data⟩], [⟨true, "cross".data⟩]]⟩,
           ⟨"baz".data, none, none, none, none⟩], [' ']⟩]) :=
  ⟨by decide, C3_roundtrip_canonical _ (by decide)⟩

/-! ## Debian version order: transitivity -/

/-- Helper: the lexicographic step is `eq` iff both inputs are. -/
theorem lexComp_eq_iff {o r : Ordering} : lexComp o r = .eq ↔ o = .eq ∧ r = .eq := by
  cases o <;> simp [lexComp]

/-- Helper: the lexicographic step is `lt` iff the head decides or ties. -/
theorem lexComp_lt_iff {o r : Ordering} :
    lexComp o r = .lt ↔ o = .lt ∨ (o = .eq ∧ r = .lt) := by
  cases o <;> simp [lexComp]

/-- Helper: the lexicographic step is `gt` iff the head decides or ties. -/
theorem lexComp_gt_iff {o r : Ordering} :
    lexComp o r = .gt ↔ o = .gt ∨ (o = .eq ∧ r = .gt) := by
  cases o <;> simp [lexComp]

/-- Helper: `swap` distributes over the lexicographic step. -/
theorem lexComp_swap {o r : Ordering} : (lexComp o r).swap = lexComp o.swap r.swap := by
  cases o <;> simp [lexComp, Ordering.swap]

/-- Helper: integer comparison is antisymmetric under `swap`. -/
theorem intCompare_swap (a b : Int) : compare a b = (compare b a).swap := by
  rcases lt_trichotomy a b with h | h | h
  · rw [compare_lt_iff_lt.mpr h, compare_gt_iff_gt.mpr h]
    rfl
  · rw [h, compare_eq_iff_eq.mpr rfl]
    rfl
  · rw [compare_gt_iff_gt.mpr h, compare_lt_iff_lt.mpr h]
    rfl

/-- Helper: the zero-padded comparison seen one position at a time (a
missing element reads as `0`, which is also `headI` of the empty list). -/
theorem padLexCmp_view : ∀ (a b : List Int),
    padLexCmp a b = lexComp (compare a.headI b.headI) (padLexCmp a.tail b.tail)
  | [], [] => by
    have h : compare (0 : Int) 0 = .eq := by decide
    simp [padLexCmp, zerosCmp, List.headI, h, lexComp]
  | [], y :: ys => by
    show zerosCmp (y :: ys) = _
    simp only [List.headI, List.tail]
    cases hcmp : compare (0 : Int) y with
    | eq => simp [zerosCmp, hcmp, padLexCmp, lexComp]
    | lt => simp [zerosCmp, hcmp, lexComp]
    | gt => simp [zerosCmp, hcmp, lexComp]
  | x :: xs, [] => by
    simp only [List.headI, List.tail]
    cases hcmp : compare x (0 : Int) with
    | eq => simp [padLexCmp, hcmp, lexComp]
    | lt => simp [padLexCmp, hcmp, lexComp]
    | gt => simp [padLexCmp, hcmp, lexComp]
  | x :: xs, y :: ys => by
    simp only [List.headI, List.tail]
    cases hcmp : compare x y with
    | eq => simp [padLexCmp, hcmp, lexComp]
    | lt => simp [padLexCmp, hcmp, lexComp]
    | gt => simp [padLexCmp, hcmp, lexComp]

/-- Helper: the padded comparison is antisymmetric under `swap`. -/
theorem padLexCmp_swap : ∀ (a b : List Int), padLexCmp a b = (padLexCmp b a).swap := by
  have main : ∀ n (a b : List Int), a.length + b.length ≤ n →
      padLexCmp a b = (padLexCmp b a).swap := by
    intro n
    induction n with
    | zero =>
      intro a b hlen
      have ha : a = [] := List.length_eq_zero.mp (by omega)
      have hb : b = [] := List.length_eq_zero.mp (by omega)
      subst ha; subst hb
      decide
    | succ n ih =>
      intro a b hlen
      rw [padLexCmp_view a b, padLexCmp_view b a, lexComp_swap,
        ← intCompare_swap a.headI b.headI]
      by_cases hab : a = [] ∧ b = []
      · obtain ⟨rfl, rfl⟩ := hab
        rw [show ([] : List Int).tail = [] from rfl]
        congr 1
      · have hlen' : a.tail.length + b.tail.length ≤ n := by
          rw [List.length_tail, List.length_tail]
          rw [not_and_or] at hab
          rcases hab with h | h
          · have := List.length_pos.mpr h
            omega
          · have := List.length_pos.mpr h
            omega
        rw [ih a.tail b.tail hlen']
  intro a b
  exact main (a.length + b.length) a b (le_refl _)

/-- Helper: transitivity family for the zero-padded comparison. -/
theorem padLexCmp_trans_aux :
    ∀ n : Nat, ∀ a b c : List Int, a.length + b.length + c.length ≤ n →
      (padLexCmp a b = .eq → padLexCmp b c = .eq → padLexCmp a c = .eq) ∧
      (padLexCmp a b = .eq → padLexCmp b c = .lt → padLexCmp a c = .lt) ∧
      (padLexCmp a b = .lt → padLexCmp b c = .eq → padLexCmp a c = .lt) ∧
      (padLexCmp a b = .lt → padLexCmp b c = .lt → padLexCmp a c = .lt) := by
  intro n
  induction n with
  | zero =>
    intro a b c hlen
    have ha : a = [] := List.length_eq_zero.mp (by omega)
    have hb : b = [] := List.length_eq_zero.mp (by omega)
    have hc : c = [] := List.length_eq_zero.mp (by omega)
    subst ha; subst hb; subst hc
    refine ⟨fun _ _ => rfl, fun _ h => absurd h (by decide),
      fun h _ => absurd h (by decide), fun h _ => absurd h (by decide)⟩
  | succ n ih =>
    intro a b c hlen
    by_cases hall : a = [] ∧ b = [] ∧ c = []
    · obtain ⟨rfl, rfl, rfl⟩ := hall
      refine ⟨fun _ _ => rfl, fun _ h => absurd h (by decide),
        fun h _ => absurd h (by decide), fun h _ => absurd h (by decide)⟩
    · have hlen' : a.tail.length + b.tail.length + c.tail.length ≤ n := by
        rw [List.length_tail, List.length_tail, List.length_tail]
        rw [not_and_or, not_and_or] at hall
        rcases hall with h | h | h
        · have := List.length_pos.mpr h
          omega
        · have := List.length_pos.mpr h
          omega
        · have := List.length_pos.mpr h
          omega
      obtain ⟨IH1, IH2, IH3, IH4⟩ := ih a.tail b.tail c.tail hlen'
      rw [padLexCmp_view a b, padLexCmp_view b c, padLexCmp_view a c]
      refine ⟨?_, ?_, ?_, ?_⟩
      · intro h1 h2
        obtain ⟨ho1, hr1⟩ := lexComp_eq_iff.mp h1
        obtain ⟨ho2, hr2⟩ := lexComp_eq_iff.mp h2
        apply lexComp_eq_iff.mpr
        refine ⟨?_, IH1 hr1 hr2⟩
        rw [compare_eq_iff_eq.mp ho1, compare_eq_iff_eq.mp ho2]
        exact compare_eq_iff_eq.mpr rfl
      · intro h1 h2
        obtain ⟨ho1, hr1⟩ := lexComp_eq_iff.mp h1
        have he1 := compare_eq_iff_eq.mp ho1
        rcases lexComp_lt_iff.mp h2 with ho2 | ⟨ho2, hr2⟩
        · apply lexComp_lt_iff.mpr
          exact Or.inl (by rw [he1]; exact ho2)
        · apply lexComp_lt_iff.mpr
          exact Or.inr ⟨by rw [he1]; exact ho2, IH2 hr1 hr2⟩
      · intro h1 h2
        obtain ⟨ho2, hr2⟩ := lexComp_eq_iff.mp h2
        have he2 := compare_eq_iff_eq.mp ho2
        rcases lexComp_lt_iff.mp h1 with ho1 | ⟨ho1, hr1⟩
        · apply lexComp_lt_iff.mpr
          exact Or.inl (by rw [← he2]; exact ho1)
        · apply lexComp_lt_iff.mpr
          exact Or.inr ⟨by rw [← he2]; exact ho1, IH3 hr1 hr2⟩
      · intro h1 h2
        apply lexComp_lt_iff.mpr
        rcases lexComp_lt_iff.mp h1 with ho1 | ⟨ho1, hr1⟩ <;>
          rcases lexComp_lt_iff.mp h2 with ho2 | ⟨ho2, hr2⟩
        · exact Or.inl (compare_lt_iff_lt.mpr
            (lt_trans (compare_lt_iff_lt.mp ho1) (compare_lt_iff_lt.mp ho2)))
        · exact Or.inl (by rw [← compare_eq_iff_eq.mp ho2]; exact ho1)
        · exact Or.inl (by rw [compare_eq_iff_eq.mp ho1]; exact ho2)
        · exact Or.inr ⟨by rw [compare_eq_iff_eq.mp ho1]; exact ho2, IH4 hr1 hr2⟩

/-- Helper: digit characters order in `[1, 10]`. -/
theorem verCharOrd_digit {c : Char} (h : c.isDigit = true) :
    1 ≤ verCharOrd c ∧ verCharOrd c ≤ 10 := by
  have hnt : ¬c = '~' := by
    rintro rfl
    exact absurd h (by decide)
  have hb : 48 ≤ c.toNat ∧ c.toNat ≤ 57 := by
    simp only [Char.isDigit, Bool.and_eq_true, decide_eq_true_eq, ge_iff_le] at h
    obtain ⟨h1, h2⟩ := h
    rw [UInt32.le_def, BitVec.le_def] at h1 h2
    exact ⟨h1, h2⟩
  unfold verCharOrd
  rw [if_neg hnt, if_pos h]
  have h48 : '0'.toNat = 48 := rfl
  omega

/-- Helper: the tilde orders as `-1`. -/
theorem verCharOrd_tilde : verCharOrd '~' = -1 := by decide

/-- Helper: non-digit non-tilde characters order at `65` or above. -/
theorem verCharOrd_other {c : Char} (h1 : c.isDigit = false) (h2 : ¬c = '~') :
    65 ≤ verCharOrd c := by
  unfold verCharOrd
  rw [if_neg h2, if_neg (by simp [h1])]
  cases ha : c.isAlpha with
  | true =>
    rw [if_pos rfl]
    have : 65 ≤ c.toNat := by
      simp only [Char.isAlpha, Char.isUpper, Char.isLower, Bool.or_eq_true,
        Bool.and_eq_true, decide_eq_true_eq, ge_iff_le] at ha
      have hceq : c.toNat = c.val.toBitVec.toNat := rfl
      rcases ha with ⟨hl, -⟩ | ⟨hl, -⟩
      · rw [UInt32.le_def, BitVec.le_def] at hl
        have hc65 : (65 : UInt32).toBitVec.toNat = 65 := by decide
        omega
      · rw [UInt32.le_def, BitVec.le_def] at hl
        have hc97 : (97 : UInt32).toBitVec.toNat = 97 := by decide
        omega
    omega
  | false =>
    rw [if_neg (by simp)]
    have : 0 ≤ (c.toNat : Int) := by positivity
    omega

/-- Helper: a class-1 run is all digits. -/
theorem allDigits_of_class1 {x : Chars} (h : runClass x = 1) : allDigits x = true := by
  unfold runClass at h
  by_cases h0 : x.headI = '~'
  · rw [if_pos h0] at h
    cases h
  · rw [if_neg h0] at h
    by_cases h1 : allDigits x = true
    · exact h1
    · rw [if_neg h1] at h
      cases h

/-- Helper: a class-0 or class-2 run is not all digits. -/
theorem not_allDigits_of_ne1 {x : Chars} (hx : GoodRun x) (h : runClass x ≠ 1) :
    allDigits x = false := by
  unfold runClass at h
  by_cases h0 : x.headI = '~'
  · obtain ⟨hne, -⟩ := hx
    match x, hne, h0 with
    | c :: x', _, h0 =>
      simp only [List.headI] at h0
      subst h0
      cases hd : allDigits ('~' :: x') with
      | false => rfl
      | true =>
        unfold allDigits at hd
        simp only [Bool.and_eq_true, List.all_eq_true] at hd
        exact absurd (hd.2 '~' (by simp)) (by decide)
  · rw [if_neg h0] at h
    by_cases h1 : allDigits x = true
    · rw [if_pos h1] at h
      exact absurd rfl h
    · simpa using h1

/-- Helper: a good run of class 0 starts with `~`. -/
theorem class0_head {x : Chars} (hx : GoodRun x) (h : runClass x = 0) :
    ∃ x', x = '~' :: x' := by
  unfold runClass at h
  by_cases h0 : x.headI = '~'
  · obtain ⟨hne, -⟩ := hx
    match x, hne, h0 with
    | c :: x', _, h0 =>
      simp only [List.headI] at h0
      exact ⟨x', by rw [h0]⟩
  · rw [if_neg h0] at h
    split at h <;> cases h

/-- Helper: a good run that is not all digits has no digits at all. -/
theorem goodRun_no_digit {x : Chars} (hx : GoodRun x) (h : allDigits x = false) :
    ∀ c ∈ x, c.isDigit = false := by
  obtain ⟨hne, hhom | hhom⟩ := hx
  · exfalso
    unfold allDigits at h
    rw [Bool.and_eq_false_iff] at h
    rcases h with h | h
    · exact hne (by simpa using h)
    · rw [hhom] at h
      cases h
  · intro c hc
    have := List.all_eq_true.mp hhom c hc
    simpa using this

/-- Helper: run comparison is antisymmetric under `swap`. -/
theorem cmpRun_swap (x y : Chars) : cmpRun x y = (cmpRun y x).swap := by
  unfold cmpRun
  cases hx : allDigits x <;> cases hy : allDigits y <;>
    simp only [Bool.false_and, Bool.and_false, Bool.true_and, Bool.and_true,
      Bool.false_eq_true, if_false, if_true]
  · exact padLexCmp_swap _ _
  · exact padLexCmp_swap _ _
  · exact padLexCmp_swap _ _
  · rw [← Nat.compare_swap]

/-- Helper: the run class is one of `0`, `1`, `2`. -/
theorem runClass_lt3 (x : Chars) : runClass x < 3 := by
  unfold runClass
  split
  · omega
  · split <;> omega

/-- Helper: the order image of a class-0 run starts with `-1`. -/
theorem headOrd_class0 {x : Chars} (hx : GoodRun x) (h : runClass x = 0) :
    ∃ x1, x.map verCharOrd = -1 :: x1 := by
  obtain ⟨x', rfl⟩ := class0_head hx h
  exact ⟨x'.map verCharOrd, by simp [verCharOrd_tilde]⟩

/-- Helper: the order image of a class-1 run starts in `[1, 10]`. -/
theorem headOrd_class1 {x : Chars} (hx : GoodRun x) (h : runClass x = 1) :
    ∃ o x1, x.map verCharOrd = o :: x1 ∧ 1 ≤ o ∧ o ≤ 10 := by
  have hd := allDigits_of_class1 h
  unfold allDigits at hd
  simp only [Bool.and_eq_true, List.all_eq_true, decide_eq_true_eq, ne_eq] at hd
  match x, hd.1 with
  | c :: x', _ =>
    obtain ⟨h1, h2⟩ := verCharOrd_digit (hd.2 c (by simp))
    exact ⟨verCharOrd c, x'.map verCharOrd, by simp, h1, h2⟩

/-- Helper: the order image of a class-2 run starts at `65` or above. -/
theorem headOrd_class2 {x : Chars} (hx : GoodRun x) (h : runClass x = 2) :
    ∃ o x1, x.map verCharOrd = o :: x1 ∧ 65 ≤ o := by
  have hnad : allDigits x = false := not_allDigits_of_ne1 hx (by omega)
  have hnd := goodRun_no_digit hx hnad
  have hnt : x.headI ≠ '~' := by
    unfold runClass at h
    by_cases h0 : x.headI = '~'
    · rw [if_pos h0] at h
      cases h
    · exact h0
  obtain ⟨hne, -⟩ := hx
  match x, hne, hnt, hnd with
  | c :: x', _, hnt, hnd =>
    refine ⟨verCharOrd c, x'.map verCharOrd, by simp, ?_⟩
    exact verCharOrd_other (hnd c (by simp)) (by simpa [List.headI] using hnt)

/-- Helper: a run of strictly smaller class compares below. -/
theorem cmpRun_class_lt {x y : Chars} (hx : GoodRun x) (hy : GoodRun y)
    (h : runClass x < runClass y) : cmpRun x y = .lt := by
  have h3x := runClass_lt3 x
  have h3y := runClass_lt3 y
  have hcases : (runClass x = 0 ∧ runClass y = 1) ∨ (runClass x = 0 ∧ runClass y = 2) ∨
      (runClass x = 1 ∧ runClass y = 2) := by omega
  have step : ∀ ox x1 oy y1, x.map verCharOrd = ox :: x1 → y.map verCharOrd = oy :: y1 →
      ox < oy → padLexCmp (x.map verCharOrd) (y.map verCharOrd) = .lt := by
    intro ox x1 oy y1 hx1 hy1 hlt
    rw [padLexCmp_view, hx1, hy1]
    simp only [List.headI]
    rw [compare_lt_iff_lt.mpr hlt]
    rfl
  rcases hcases with ⟨hc1, hc2⟩ | ⟨hc1, hc2⟩ | ⟨hc1, hc2⟩
  · have hnad : allDigits x = false := not_allDigits_of_ne1 hx (by omega)
    unfold cmpRun
    rw [hnad]
    simp only [Bool.false_and, Bool.false_eq_true, if_false]
    obtain ⟨x1, hx1⟩ := headOrd_class0 hx hc1
    obtain ⟨o, y1, hy1, ho1, -⟩ := headOrd_class1 hy hc2
    exact step _ _ _ _ hx1 hy1 (by omega)
  · have hnad : allDigits x = false := not_allDigits_of_ne1 hx (by omega)
    unfold cmpRun
    rw [hnad]
    simp only [Bool.false_and, Bool.false_eq_true, if_false]
    obtain ⟨x1, hx1⟩ := headOrd_class0 hx hc1
    obtain ⟨o, y1, hy1, ho1⟩ := headOrd_class2 hy hc2
    exact step _ _ _ _ hx1 hy1 (by omega)
  · have hnad : allDigits y = false := not_allDigits_of_ne1 hy (by omega)
    unfold cmpRun
    rw [hnad]
    simp only [Bool.and_false, Bool.false_eq_true, if_false]
    obtain ⟨o, x1, hx1, -, ho2⟩ := headOrd_class1 hx hc1
    obtain ⟨o', y1, hy1, ho1⟩ := headOrd_class2 hy hc2
    exact step _ _ _ _ hx1 hy1 (by omega)

/-- Helper: equal runs have equal classes. -/
theorem cmpRun_eq_class {x y : Chars} (hx : GoodRun x) (hy : GoodRun y)
    (h : cmpRun x y = .eq) : runClass x = runClass y := by
  rcases Nat.lt_trichotomy (runClass x) (runClass y) with hc | hc | hc
  · rw [cmpRun_class_lt hx hy hc] at h
    cases h
  · exact hc
  · rw [cmpRun_swap, cmpRun_class_lt hy hx hc] at h
    cases h

/-- Helper: a run comparing below has class at most the other's. -/
theorem cmpRun_lt_class {x y : Chars} (hx : GoodRun x) (hy : GoodRun y)
    (h : cmpRun x y = .lt) : runClass x ≤ runClass y := by
  by_contra hgt
  rw [cmpRun_swap, cmpRun_class_lt hy hx (by omega)] at h
  cases h

/-- Helper: both-digit run comparison is numeric. -/
theorem cmpRun_digit {x y : Chars} (hx : allDigits x = true) (hy : allDigits y = true) :
    cmpRun x y = compare (digitsVal x) (digitsVal y) := by
  unfold cmpRun
  rw [hx, hy]
  rfl

/-- Helper: run comparison with a non-digit left run is by character
order. -/
theorem cmpRun_nondigitL {x y : Chars} (hx : allDigits x = false) :
    cmpRun x y = padLexCmp (x.map verCharOrd) (y.map verCharOrd) := by
  unfold cmpRun
  rw [hx]
  rfl

/-- Helper: run comparison with a non-digit right run is by character
order. -/
theorem cmpRun_nondigitR {x y : Chars} (hy : allDigits y = false) :
    cmpRun x y = padLexCmp (x.map verCharOrd) (y.map verCharOrd) := by
  unfold cmpRun
  rw [hy, Bool.and_false]
  rfl

/-- Helper: transitivity family for homogeneous run comparison. -/
theorem cmpRun_trans_family {x y z : Chars} (hx : GoodRun x) (hy : GoodRun y)
    (hz : GoodRun z) :
    (cmpRun x y = .eq → cmpRun y z = .eq → cmpRun x z = .eq) ∧
    (cmpRun x y = .eq → cmpRun y z = .lt → cmpRun x z = .lt) ∧
    (cmpRun x y = .lt → cmpRun y z = .eq → cmpRun x z = .lt) ∧
    (cmpRun x y = .lt → cmpRun y z = .lt → cmpRun x z = .lt) := by
  have hPL := padLexCmp_trans_aux ((x.map verCharOrd).length + (y.map verCharOrd).length +
    (z.map verCharOrd).length) (x.map verCharOrd) (y.map verCharOrd) (z.map verCharOrd)
    (le_refl _)
  have same_class : ∀ {u v w : Chars}, GoodRun u → GoodRun v → GoodRun w →
      runClass u = runClass v → runClass v = runClass w →
      ((runClass u = 1 → cmpRun u v = compare (digitsVal u) (digitsVal v) ∧
          cmpRun v w = compare (digitsVal v) (digitsVal w) ∧
          cmpRun u w = compare (digitsVal u) (digitsVal w)) ∧
       (runClass u ≠ 1 → cmpRun u v = padLexCmp (u.map verCharOrd) (v.map verCharOrd) ∧
          cmpRun v w = padLexCmp (v.map verCharOrd) (w.map verCharOrd) ∧
          cmpRun u w = padLexCmp (u.map verCharOrd) (w.map verCharOrd))) := by
    intro u v w hu hv hw huv hvw
    constructor
    · intro h1
      exact ⟨cmpRun_digit (allDigits_of_class1 h1) (allDigits_of_class1 (huv ▸ h1)),
        cmpRun_digit (allDigits_of_class1 (huv ▸ h1))
          (allDigits_of_class1 (hvw ▸ huv ▸ h1)),
        cmpRun_digit (allDigits_of_class1 h1) (allDigits_of_class1 (hvw ▸ huv ▸ h1))⟩
    · intro h1
      have hnu : allDigits u = false := not_allDigits_of_ne1 hu h1
      exact ⟨cmpRun_nondigitL hnu, cmpRun_nondigitL
        (not_allDigits_of_ne1 hv (by omega)), cmpRun_nondigitL hnu⟩
  refine ⟨?_, ?_, ?_, ?_⟩
  · intro h1 h2
    have hc1 := cmpRun_eq_class hx hy h1
    have hc2 := cmpRun_eq_class hy hz h2
    obtain ⟨hdig, hnon⟩ := same_class hx hy hz hc1 hc2
    by_cases hcl : runClass x = 1
    · obtain ⟨e1, e2, e3⟩ := hdig hcl
      rw [e1] at h1
      rw [e2] at h2
      rw [e3, Nat.compare_eq_eq.mp h1, Nat.compare_eq_eq.mp h2]
      exact Nat.compare_eq_eq.mpr rfl
    · obtain ⟨e1, e2, e3⟩ := hnon hcl
      rw [e1] at h1
      rw [e2] at h2
      rw [e3]
      exact hPL.1 h1 h2
  · intro h1 h2
    have hc1 := cmpRun_eq_class hx hy h1
    have hc2 := cmpRun_lt_class hy hz h2
    rcases Nat.lt_or_ge (runClass y) (runClass z) with hlt | hge
    · exact cmpRun_class_lt hx hz (by omega)
    · have hc2' : runClass y = runClass z := by omega
      obtain ⟨hdig, hnon⟩ := same_class hx hy hz hc1 hc2'
      by_cases hcl : runClass x = 1
      · obtain ⟨e1, e2, e3⟩ := hdig hcl
        rw [e1] at h1
        rw [e2] at h2
        rw [e3, Nat.compare_eq_eq.mp h1]
        exact h2
      · obtain ⟨e1, e2, e3⟩ := hnon hcl
        rw [e1] at h1
        rw [e2] at h2
        rw [e3]
        exact hPL.2.1 h1 h2
  · intro h1 h2
    have hc1 := cmpRun_lt_class hx hy h1
    have hc2 := cmpRun_eq_class hy hz h2
    rcases Nat.lt_or_ge (runClass x) (runClass y) with hlt | hge
    · exact cmpRun_class_lt hx hz (by omega)
    · have hc1' : runClass x = runClass y := by omega
      obtain ⟨hdig, hnon⟩ := same_class hx hy hz hc1' hc2
      by_cases hcl : runClass x = 1
      · obtain ⟨e1, e2, e3⟩ := hdig hcl
        rw [e1] at h1
        rw [e2] at h2
        rw [e3, ← Nat.compare_eq_eq.mp h2]
        exact h1
      · obtain ⟨e1, e2, e3⟩ := hnon hcl
        rw [e1] at h1
        rw [e2] at h2
        rw [e3]
        exact hPL.2.2.1 h1 h2
  · intro h1 h2
    have hc1 := cmpRun_lt_class hx hy h1
    have hc2 := cmpRun_lt_class hy hz h2
    rcases Nat.lt_or_ge (runClass x) (runClass z) with hlt | hge
    · exact cmpRun_class_lt hx hz hlt
    · have hc1' : runClass x = runClass y := by omega
      have hc2' : runClass y = runClass z := by omega
      obtain ⟨hdig, hnon⟩ := same_class hx hy hz hc1' hc2'
      by_cases hcl : runClass x = 1
      · obtain ⟨e1, e2, e3⟩ := hdig hcl
        rw [e1] at h1
        rw [e2] at h2
        rw [e3]
        exact Nat.compare_eq_lt.mpr
          (lt_trans (Nat.compare_eq_lt.mp h1) (Nat.compare_eq_lt.mp h2))
      · obtain ⟨e1, e2, e3⟩ := hnon hcl
        rw [e1] at h1
        rw [e2] at h2
        rw [e3]
        exact hPL.2.2.2 h1 h2

/-- Helper: the padding run `"0"` is a good run. -/
theorem goodRun_pad : GoodRun ['0'] :=
  ⟨by decide, Or.inl (by decide)⟩

/-- Helper: the head (or padding) of a good run list is a good run. -/
theorem goodRuns_headD {l : List Chars} (h : GoodRuns l) : GoodRun (l.headD ['0']) := by
  cases l with
  | nil => exact goodRun_pad
  | cons x xs => exact h x (by simp)

/-- Helper: the tail of a good run list is one. -/
theorem goodRuns_tail {l : List Chars} (h : GoodRuns l) : GoodRuns l.tail := by
  cases l with
  | nil => exact h
  | cons x xs => exact fun r hr => h r (List.mem_cons_of_mem x (by simpa using hr))

/-- Helper: the run-list comparison seen one position at a time (a missing
run reads as `"0"`). -/
theorem cmpRuns_view : ∀ (a b : List Chars),
    cmpRuns a b = lexComp (cmpRun (a.headD ['0']) (b.headD ['0'])) (cmpRuns a.tail b.tail)
  | [], [] => by decide
  | [], y :: ys => by
    show zeroRunsCmp (y :: ys) = _
    simp only [List.headD, List.tail]
    cases hcmp : cmpRun ['0'] y with
    | eq => simp [zeroRunsCmp, hcmp, cmpRuns, lexComp]
    | lt => simp [zeroRunsCmp, hcmp, lexComp]
    | gt => simp [zeroRunsCmp, hcmp, lexComp]
  | x :: xs, [] => by
    simp only [List.headD, List.tail]
    cases hcmp : cmpRun x ['0'] with
    | eq => simp [cmpRuns, hcmp, lexComp]
    | lt => simp [cmpRuns, hcmp, lexComp]
    | gt => simp [cmpRuns, hcmp, lexComp]
  | x :: xs, y :: ys => by
    simp only [List.headD, List.tail]
    cases hcmp : cmpRun x y with
    | eq => simp [cmpRuns, hcmp, lexComp]
    | lt => simp [cmpRuns, hcmp, lexComp]
    | gt => simp [cmpRuns, hcmp, lexComp]

/-- Helper: the run-list comparison is antisymmetric under `swap`. -/
theorem cmpRuns_swap : ∀ (a b : List Chars), cmpRuns a b = (cmpRuns b a).swap := by
  have main : ∀ n (a b : List Chars), a.length + b.length ≤ n →
      cmpRuns a b = (cmpRuns b a).swap := by
    intro n
    induction n with
    | zero =>
      intro a b hlen
      have ha : a = [] := List.length_eq_zero.mp (by omega)
      have hb : b = [] := List.length_eq_zero.mp (by omega)
      subst ha; subst hb
      decide
    | succ n ih =>
      intro a b hlen
      rw [cmpRuns_view a b, cmpRuns_view b a, lexComp_swap,
        ← cmpRun_swap (a.headD ['0']) (b.headD ['0'])]
      by_cases hab : a = [] ∧ b = []
      · obtain ⟨rfl, rfl⟩ := hab
        rw [show ([] : List Chars).tail = [] from rfl]
        congr 1
      · have hlen' : a.tail.length + b.tail.length ≤ n := by
          rw [List.length_tail, List.length_tail]
          rw [not_and_or] at hab
          rcases hab with h | h
          · have := List.length_pos.mpr h
            omega
          · have := List.length_pos.mpr h
            omega
        rw [ih a.tail b.tail hlen']
  intro a b
  exact main (a.length + b.length) a b (le_refl _)

/-- Helper: transitivity family for the run-list comparison on good run
lists. -/
theorem cmpRuns_trans_aux :
    ∀ n : Nat, ∀ a b c : List Chars, a.length + b.length + c.length ≤ n →
      GoodRuns a → GoodRuns b → GoodRuns c →
      (cmpRuns a b = .eq → cmpRuns b c = .eq → cmpRuns a c = .eq) ∧
      (cmpRuns a b = .eq → cmpRuns b c = .lt → cmpRuns a c = .lt) ∧
      (cmpRuns a b = .lt → cmpRuns b c = .eq → cmpRuns a c = .lt) ∧
      (cmpRuns a b = .lt → cmpRuns b c = .lt → cmpRuns a c = .lt) := by
  intro n
  induction n with
  | zero =>
    intro a b c hlen h1 h2 h3
    have ha : a = [] := List.length_eq_zero.mp (by omega)
    have hb : b = [] := List.length_eq_zero.mp (by omega)
    have hc : c = [] := List.length_eq_zero.mp (by omega)
    subst ha; subst hb; subst hc
    refine ⟨fun _ _ => rfl, fun _ h => absurd h (by decide),
      fun h _ => absurd h (by decide), fun h _ => absurd h (by decide)⟩
  | succ n ih =>
    intro a b c hlen hga hgb hgc
    by_cases hall : a = [] ∧ b = [] ∧ c = []
    · obtain ⟨rfl, rfl, rfl⟩ := hall
      refine ⟨fun _ _ => rfl, fun _ h => absurd h (by decide),
        fun h _ => absurd h (by decide), fun h _ => absurd h (by decide)⟩
    · have hlen' : a.tail.length + b.tail.length + c.tail.length ≤ n := by
        rw [List.length_tail, List.length_tail, List.length_tail]
        rw [not_and_or, not_and_or] at hall
        rcases hall with h | h | h
        · have := List.length_pos.mpr h
          omega
        · have := List.length_pos.mpr h
          omega
        · have := List.length_pos.mpr h
          omega
      obtain ⟨IH1, IH2, IH3, IH4⟩ := ih a.tail b.tail c.tail hlen'
        (goodRuns_tail hga) (goodRuns_tail hgb) (goodRuns_tail hgc)
      obtain ⟨F1, F2, F3, F4⟩ := cmpRun_trans_family
        (goodRuns_headD hga) (goodRuns_headD hgb) (goodRuns_headD hgc)
      rw [cmpRuns_view a b, cmpRuns_view b c, cmpRuns_view a c]
      refine ⟨?_, ?_, ?_, ?_⟩
      · intro h1 h2
        obtain ⟨ho1, hr1⟩ := lexComp_eq_iff.mp h1
        obtain ⟨ho2, hr2⟩ := lexComp_eq_iff.mp h2
        exact lexComp_eq_iff.mpr ⟨F1 ho1 ho2, IH1 hr1 hr2⟩
      · intro h1 h2
        obtain ⟨ho1, hr1⟩ := lexComp_eq_iff.mp h1
        rcases lexComp_lt_iff.mp h2 with ho2 | ⟨ho2, hr2⟩
        · exact lexComp_lt_iff.mpr (Or.inl (F2 ho1 ho2))
        · exact lexComp_lt_iff.mpr (Or.inr ⟨F1 ho1 ho2, IH2 hr1 hr2⟩)
      · intro h1 h2
        obtain ⟨ho2, hr2⟩ := lexComp_eq_iff.mp h2
        rcases lexComp_lt_iff.mp h1 with ho1 | ⟨ho1, hr1⟩
        · exact lexComp_lt_iff.mpr (Or.inl (F3 ho1 ho2))
        · exact lexComp_lt_iff.mpr (Or.inr ⟨F1 ho1 ho2, IH3 hr1 hr2⟩)
      · intro h1 h2
        rcases lexComp_lt_iff.mp h1 with ho1 | ⟨ho1, hr1⟩ <;>
          rcases lexComp_lt_iff.mp h2 with ho2 | ⟨ho2, hr2⟩
        · exact lexComp_lt_iff.mpr (Or.inl (F4 ho1 ho2))
        · exact lexComp_lt_iff.mpr (Or.inl (F3 ho1 ho2))
        · exact lexComp_lt_iff.mpr (Or.inl (F2 ho1 ho2))
        · exact lexComp_lt_iff.mpr (Or.inr ⟨F1 ho1 ho2, IH4 hr1 hr2⟩)

/-- Helper: the run-splitting loop emits nonempty homogeneous runs. -/
theorem splitRunsGo_good : ∀ (cs : Chars) (d : Bool) (cur : Chars),
    cur ≠ [] → cur.all (fun c => c.isDigit == d) = true →
    GoodRuns (splitRunsGo d cur cs)
  | [], d, cur, hne, hall => by
    intro r hr
    simp only [splitRunsGo, List.mem_singleton] at hr
    subst hr
    refine ⟨by simpa using hne, ?_⟩
    cases d with
    | true =>
      refine Or.inl ?_
      simp only [List.all_eq_true, List.mem_reverse]
      intro c hc
      have := (List.all_eq_true.mp hall) c hc
      simpa using this
    | false =>
      refine Or.inr ?_
      simp only [List.all_eq_true, List.mem_reverse]
      intro c hc
      have := (List.all_eq_true.mp hall) c hc
      simpa using this
  | c :: cs, d, cur, hne, hall => by
    unfold splitRunsGo
    by_cases hd : c.isDigit = d
    · rw [if_pos hd]
      apply splitRunsGo_good cs d (c :: cur) (by simp)
      simp only [List.all_cons, Bool.and_eq_true]
      exact ⟨by simp [hd], hall⟩
    · rw [if_neg hd]
      intro r hr
      rcases List.mem_cons.mp hr with hr | hr
      · subst hr
        refine ⟨by simpa using hne, ?_⟩
        cases d with
        | true =>
          refine Or.inl ?_
          simp only [List.all_eq_true, List.mem_reverse]
          intro x hx
          have := (List.all_eq_true.mp hall) x hx
          simpa using this
        | false =>
          refine Or.inr ?_
          simp only [List.all_eq_true, List.mem_reverse]
          intro x hx
          have := (List.all_eq_true.mp hall) x hx
          simpa using this
      · exact splitRunsGo_good cs c.isDigit [c] (by simp) (by simp) r hr

/-- Helper: `splitRuns` yields good runs. -/
theorem splitRuns_good (s : Chars) : GoodRuns (splitRuns s) := by
  cases s with
  | nil => intro r hr; cases hr
  | cons c cs => exact splitRunsGo_good cs c.isDigit [c] (by simp) (by simp)

/-- Helper: the part comparison is antisymmetric under `swap`. -/
theorem cmpPart_swap (a b : Chars) : cmpPart a b = (cmpPart b a).swap :=
  cmpRuns_swap _ _

/-- Helper: transitivity family for the part comparison. -/
theorem cmpPart_trans_family (a b c : Chars) :
    (cmpPart a b = .eq → cmpPart b c = .eq → cmpPart a c = .eq) ∧
    (cmpPart a b = .eq → cmpPart b c = .lt → cmpPart a c = .lt) ∧
    (cmpPart a b = .lt → cmpPart b c = .eq → cmpPart a c = .lt) ∧
    (cmpPart a b = .lt → cmpPart b c = .lt → cmpPart a c = .lt) :=
  cmpRuns_trans_aux
    ((splitRuns a).length + (splitRuns b).length + (splitRuns c).length)
    (splitRuns a) (splitRuns b) (splitRuns c) (le_refl _)
    (splitRuns_good a) (splitRuns_good b) (splitRuns_good c)

/-- Helper: natural comparison is antisymmetric under `swap`. -/
theorem natCompare_swap (a b : Nat) : compare a b = (compare b a).swap := by
  rcases Nat.lt_trichotomy a b with h | h | h
  · rw [Nat.compare_eq_lt.mpr h, Nat.compare_eq_gt.mpr h]
    rfl
  · rw [h, Nat.compare_eq_eq.mpr rfl]
    rfl
  · rw [Nat.compare_eq_gt.mpr h, Nat.compare_eq_lt.mpr h]
    rfl

/-- Helper: transitivity family for natural comparison. -/
theorem natCompare_trans_family (a b c : Nat) :
    (compare a b = .eq → compare b c = .eq → compare a c = .eq) ∧
    (compare a b = .eq → compare b c = .lt → compare a c = .lt) ∧
    (compare a b = .lt → compare b c = .eq → compare a c = .lt) ∧
    (compare a b = .lt → compare b c = .lt → compare a c = .lt) := by
  refine ⟨fun h1 h2 => ?_, fun h1 h2 => ?_, fun h1 h2 => ?_, fun h1 h2 => ?_⟩
  · have e1 := Nat.compare_eq_eq.mp h1
    have e2 := Nat.compare_eq_eq.mp h2
    exact Nat.compare_eq_eq.mpr (by omega)
  · have e1 := Nat.compare_eq_eq.mp h1
    have e2 := Nat.compare_eq_lt.mp h2
    exact Nat.compare_eq_lt.mpr (by omega)
  · have e1 := Nat.compare_eq_lt.mp h1
    have e2 := Nat.compare_eq_eq.mp h2
    exact Nat.compare_eq_lt.mpr (by omega)
  · have e1 := Nat.compare_eq_lt.mp h1
    have e2 := Nat.compare_eq_lt.mp h2
    exact Nat.compare_eq_lt.mpr (by omega)

/-- Helper: the lexicographic step composes transitivity families. -/
theorem lexComp_trans_family {o1 o2 o3 r1 r2 r3 : Ordering}
    (HO : (o1 = .eq → o2 = .eq → o3 = .eq) ∧ (o1 = .eq → o2 = .lt → o3 = .lt) ∧
      (o1 = .lt → o2 = .eq → o3 = .lt) ∧ (o1 = .lt → o2 = .lt → o3 = .lt))
    (HR : (r1 = .eq → r2 = .eq → r3 = .eq) ∧ (r1 = .eq → r2 = .lt → r3 = .lt) ∧
      (r1 = .lt → r2 = .eq → r3 = .lt) ∧ (r1 = .lt → r2 = .lt → r3 = .lt)) :
    (lexComp o1 r1 = .eq → lexComp o2 r2 = .eq → lexComp o3 r3 = .eq) ∧
    (lexComp o1 r1 = .eq → lexComp o2 r2 = .lt → lexComp o3 r3 = .lt) ∧
    (lexComp o1 r1 = .lt → lexComp o2 r2 = .eq → lexComp o3 r3 = .lt) ∧
    (lexComp o1 r1 = .lt → lexComp o2 r2 = .lt → lexComp o3 r3 = .lt) := by
  obtain ⟨F1, F2, F3, F4⟩ := HO
  obtain ⟨G1, G2, G3, G4⟩ := HR
  refine ⟨?_, ?_, ?_, ?_⟩
  · intro h1 h2
    obtain ⟨ho1, hr1⟩ := lexComp_eq_iff.mp h1
    obtain ⟨ho2, hr2⟩ := lexComp_eq_iff.mp h2
    exact lexComp_eq_iff.mpr ⟨F1 ho1 ho2, G1 hr1 hr2⟩
  · intro h1 h2
    obtain ⟨ho1, hr1⟩ := lexComp_eq_iff.mp h1
    rcases lexComp_lt_iff.mp h2 with ho2 | ⟨ho2, hr2⟩
    · exact lexComp_lt_iff.mpr (Or.inl (F2 ho1 ho2))
    · exact lexComp_lt_iff.mpr (Or.inr ⟨F1 ho1 ho2, G2 hr1 hr2⟩)
  · intro h1 h2
    obtain ⟨ho2, hr2⟩ := lexComp_eq_iff.mp h2
    rcases lexComp_lt_iff.mp h1 with ho1 | ⟨ho1, hr1⟩
    · exact lexComp_lt_iff.mpr (Or.inl (F3 ho1 ho2))
    · exact lexComp_lt_iff.mpr (Or.inr ⟨F1 ho1 ho2, G3 hr1 hr2⟩)
  · intro h1 h2
    rcases lexComp_lt_iff.mp h1 with ho1 | ⟨ho1, hr1⟩ <;>
      rcases lexComp_lt_iff.mp h2 with ho2 | ⟨ho2, hr2⟩
    · exact lexComp_lt_iff.mpr (Or.inl (F4 ho1 ho2))
    · exact lexComp_lt_iff.mpr (Or.inl (F3 ho1 ho2))
    · exact lexComp_lt_iff.mpr (Or.inl (F2 ho1 ho2))
    · exact lexComp_lt_iff.mpr (Or.inr ⟨F1 ho1 ho2, G4 hr1 hr2⟩)

/-- Helper: the version comparison as a two-level lexicographic composite
(epoch, then upstream part, then revision part). -/
theorem pyVersionCmp_view (a b : Chars) :
    pyVersionCmp a b = lexComp (compare (splitEpoch a).1 (splitEpoch b).1)
      (lexComp
        (cmpPart (splitRevision (splitEpoch a).2).1 (splitRevision (splitEpoch b).2).1)
        (cmpPart (splitRevision (splitEpoch a).2).2 (splitRevision (splitEpoch b).2).2)) := by
  unfold pyVersionCmp
  cases h1 : compare (splitEpoch a).1 (splitEpoch b).1 with
  | eq =>
    cases h2 : cmpPart (splitRevision (splitEpoch a).2).1 (splitRevision (splitEpoch b).2).1 <;>
      simp [h1, h2, lexComp]
  | lt => simp [h1, lexComp]
  | gt => simp [h1, lexComp]

/-- Helper: the version comparison is antisymmetric under `swap`. -/
theorem pyVersionCmp_swap (a b : Chars) : pyVersionCmp a b = (pyVersionCmp b a).swap := by
  rw [pyVersionCmp_view a b, pyVersionCmp_view b a, lexComp_swap, lexComp_swap,
    natCompare_swap (splitEpoch a).1 (splitEpoch b).1,
    cmpPart_swap (splitRevision (splitEpoch a).2).1 (splitRevision (splitEpoch b).2).1,
    cmpPart_swap (splitRevision (splitEpoch a).2).2 (splitRevision (splitEpoch b).2).2]

/-- Helper: transitivity family for the full version comparison. -/
theorem pyVersionCmp_trans_family (a b c : Chars) :
    (pyVersionCmp a b = .eq → pyVersionCmp b c = .eq → pyVersionCmp a c = .eq) ∧
    (pyVersionCmp a b = .eq → pyVersionCmp b c = .lt → pyVersionCmp a c = .lt) ∧
    (pyVersionCmp a b = .lt → pyVersionCmp b c = .eq → pyVersionCmp a c = .lt) ∧
    (pyVersionCmp a b = .lt → pyVersionCmp b c = .lt → pyVersionCmp a c = .lt) := by
  rw [pyVersionCmp_view a b, pyVersionCmp_view b c, pyVersionCmp_view a c]
  exact lexComp_trans_family (natCompare_trans_family _ _ _)
    (lexComp_trans_family (cmpPart_trans_family _ _ _) (cmpPart_trans_family _ _ _))

/-- Helper: `>=` in the Debian version order is transitive. -/
theorem pyVersionCmp_ge_trans {a b c : Chars} (h1 : pyVersionCmp a b ≠ .lt)
    (h2 : pyVersionCmp b c ≠ .lt) : pyVersionCmp a c ≠ .lt := by
  intro hac
  obtain ⟨T1, T2, T3, T4⟩ := pyVersionCmp_trans_family c b a
  have hswap : ∀ x y : Chars, pyVersionCmp x y = .gt → pyVersionCmp y x = .lt := by
    intro x y hxy
    rw [pyVersionCmp_swap y x, hxy]
    rfl
  have hswap2 : ∀ x y : Chars, pyVersionCmp x y = .eq → pyVersionCmp y x = .eq := by
    intro x y hxy
    rw [pyVersionCmp_swap y x, hxy]
    rfl
  have hca : pyVersionCmp c a = .gt := by
    rw [pyVersionCmp_swap c a, hac]
    rfl
  cases hab : pyVersionCmp a b with
  | lt => exact h1 hab
  | eq =>
    cases hbc : pyVersionCmp b c with
    | lt => exact h2 hbc
    | eq => exact absurd (T1 (hswap2 _ _ hbc) (hswap2 _ _ hab)) (by rw [hca]; decide)
    | gt => exact absurd (T3 (hswap _ _ hbc) (hswap2 _ _ hab)) (by rw [hca]; decide)
  | gt =>
    cases hbc : pyVersionCmp b c with
    | lt => exact h2 hbc
    | eq => exact absurd (T2 (hswap2 _ _ hbc) (hswap _ _ hab)) (by rw [hca]; decide)
    | gt => exact absurd (T4 (hswap _ _ hbc) (hswap _ _ hab)) (by rw [hca]; decide)

/-- Helper: an error propagates through `Except` bind. -/
theorem err_bind {e a b : Type} (x : e) (f : a → Except e b) :
    (Except.error x >>= f) = Except.error x := rfl

/-- Helper: `mapME` unfolded on a cons cell. -/
theorem mapME_cons {a b : Type} (f : a → Except PyErr b) (x : a) (xs : List a) :
    mapME f (x :: xs) = (do
      let y ← f x
      let ys ← mapME f xs
      .ok (y :: ys)) := rfl

/-- Helper: one entry of the `ensure_minimum_version` scan is the
per-entry step followed by the updated recursion. -/
theorem emvGo_cons (package minimum_version : Chars) (e : RelEntry)
    (es : List RelEntry) (i : Nat) (found changed : Bool) (obs : List Nat)
    (acc : List RelEntry) :
    emvGo package minimum_version i found changed obs acc (e :: es) = (do
      let p ← emvStep package minimum_version e
      emvGo package minimum_version (i + 1) (found || p.2.1) (changed || p.2.2.1)
        (if p.2.2.2 then i :: obs else obs) (p.1 :: acc) es) := by
  unfold emvStep
  simp only [emvGo]
  cases hcx : (e.rel.map (·.name)).length > 1 &&
      (e.rel.map (·.name)).contains package with
  | false =>
    simp only [Bool.false_eq_true, if_false, pure, Except.pure, ok_bind]
    by_cases hne : e.rel.map (·.name) ≠ [package]
    · rw [if_pos hne, if_pos hne]
      simp [ok_bind]
    · rw [if_neg hne, if_neg hne]
      cases hv0 : (e.rel.headI).version with
      | none => simp [pure, Except.pure, ok_bind]
      | some opv =>
        match opv with
        | (op, vv) =>
        simp only []
        cases hvc : vcmp vv minimum_version with
        | error err => rfl
        | ok o =>
          simp only [ok_bind, pure, Except.pure]
          cases ho : o == Ordering.lt with
          | true => simp [pure, Except.pure, ok_bind]
          | false => simp [pure, Except.pure, ok_bind]
  | true =>
    rw [if_pos rfl]
    cases hob : is_obsolete package minimum_version e.rel with
    | error err => rfl
    | ok b =>
      rw [ok_bind, ok_bind]
      cases b with
      | true =>
        simp only [pure, Except.pure, ok_bind, eq_self_iff_true, if_true]
        by_cases hne : e.rel.map (·.name) ≠ [package]
        · rw [if_pos hne, if_pos hne]
          simp [ok_bind]
        · rw [if_neg hne, if_neg hne]
          cases hv0 : (e.rel.headI).version with
          | none => simp [pure, Except.pure, ok_bind]
          | some opv =>
            match opv with
            | (op, vv) =>
            simp only []
            cases hvc : vcmp vv minimum_version with
            | error err => rfl
            | ok o =>
              simp only [ok_bind, pure, Except.pure]
              cases ho : o == Ordering.lt with
              | true => simp [pure, Except.pure, ok_bind]
              | false => simp [pure, Except.pure, ok_bind]
      | false =>
        simp only [Bool.false_eq_true, if_false, pure, Except.pure, ok_bind]
        by_cases hne : e.rel.map (·.name) ≠ [package]
        · rw [if_pos hne, if_pos hne]
          simp [ok_bind]
        · rw [if_neg hne, if_neg hne]
          cases hv0 : (e.rel.headI).version with
          | none => simp [pure, Except.pure, ok_bind]
          | some opv =>
            match opv with
            | (op, vv) =>
            simp only []
            cases hvc : vcmp vv minimum_version with
            | error err => rfl
            | ok o =>
              simp only [ok_bind, pure, Except.pure]
              cases ho : o == Ordering.lt with
              | true => simp [pure, Except.pure, ok_bind]
              | false => simp [pure, Except.pure, ok_bind]

/-- Helper: the `ensure_minimum_version` scan is the per-entry step mapped
over the entries, with the accumulators flushed. -/
theorem emvGo_spec (package minimum_version : Chars) :
    ∀ (es : List RelEntry) (i : Nat) (found changed : Bool) (obs : List Nat)
      (acc : List RelEntry),
    emvGo package minimum_version i found changed obs acc es =
      match mapME (emvStep package minimum_version) es with
      | .error err => .error err
      | .ok L => .ok (acc.reverse ++ L.map (·.1), found || L.any (·.2.1),
          changed || L.any (fun p => p.2.2.1), obs.reverse ++ obsIdxs i L)
  | [], i, found, changed, obs, acc => by
    simp [emvGo, mapME, obsIdxs]
  | e :: es, i, found, changed, obs, acc => by
    have IH := emvGo_spec package minimum_version es
    rw [emvGo_cons, mapME_cons]
    cases hstep : emvStep package minimum_version e with
    | error err => rfl
    | ok p =>
      rw [ok_bind, ok_bind, IH]
      cases hL : mapME (emvStep package minimum_version) es with
      | error err => rfl
      | ok L =>
        rw [ok_bind]
        cases hp : p.2.2.2 with
        | true =>
          simp [obsIdxs, hp, List.any_cons, Bool.or_assoc]
        | false =>
          simp [obsIdxs, hp, List.any_cons, Bool.or_assoc]

/-- Helper: a successful mapped list has the source's length and pointwise
successful steps. -/
theorem mapME_ok_get {a b : Type} {f : a → Except PyErr b} :
    ∀ {l : List a} {r : List b}, mapME f l = .ok r →
      r.length = l.length ∧
      ∀ i (hi : i < l.length) (hi2 : i < r.length),
        f (l.get ⟨i, hi⟩) = .ok (r.get ⟨i, hi2⟩)
  | [], r, h => by
    cases h
    exact ⟨rfl, fun i hi _ => absurd hi (by simp)⟩
  | x :: xs, r, h => by
    rw [mapME_cons] at h
    match hx : f x with
    | .error err =>
      rw [hx, err_bind] at h
      cases h
    | .ok y =>
      rw [hx, ok_bind] at h
      match hys : mapME f xs with
      | .error err =>
        rw [hys, err_bind] at h
        cases h
      | .ok ys =>
        rw [hys, ok_bind] at h
        cases h
        obtain ⟨hlen, hpt⟩ := mapME_ok_get hys
        refine ⟨by simp [hlen], ?_⟩
        intro i hi hi2
        match i with
        | 0 => exact hx
        | Nat.succ j =>
          exact hpt j (Nat.lt_of_succ_lt_succ hi) (Nat.lt_of_succ_lt_succ hi2)

/-- Helper: pointwise successful steps produce a successful map with the
promised pointwise property. -/
theorem mapME_ok_exists {a b : Type} {f : a → Except PyErr b} {P : a → b → Prop} :
    ∀ {l : List a}, (∀ x ∈ l, ∃ y, f x = .ok y ∧ P x y) →
      ∃ r, mapME f l = .ok r ∧ r.length = l.length ∧
        ∀ i (hi : i < l.length) (hi2 : i < r.length),
          P (l.get ⟨i, hi⟩) (r.get ⟨i, hi2⟩)
  | [], _ => ⟨[], rfl, rfl, fun i hi _ => absurd hi (by simp)⟩
  | x :: xs, h => by
    obtain ⟨y, hy, hP⟩ := h x (by simp)
    obtain ⟨ys, hys, hlen, hpt⟩ :=
      mapME_ok_exists (l := xs) (fun z hz => h z (by simp [hz]))
    refine ⟨y :: ys, ?_, by simp [hlen], ?_⟩
    · rw [mapME_cons, hy, ok_bind, hys, ok_bind]
    · intro i hi hi2
      match i with
      | 0 => exact hP
      | Nat.succ j =>
        exact hpt j (Nat.lt_of_succ_lt_succ hi) (Nat.lt_of_succ_lt_succ hi2)

/-- Helper: a list pointwise equal to the first components of another is
its first-component image. -/
theorem map_fst_of_pointwise {l : List RelEntry}
    {r : List (RelEntry × Bool × Bool × Bool)} (hlen : r.length = l.length)
    (h : ∀ i (hi : i < l.length) (hi2 : i < r.length),
      (r.get ⟨i, hi2⟩).1 = l.get ⟨i, hi⟩) :
    r.map (·.1) = l := by
  apply List.ext_get (by simp [hlen])
  intro n h1 h2
  rw [List.get_map]
  exact h n h2 (by simpa using h1)

/-- Helper: a successful version comparison names valid versions and the
pure comparison result. -/
theorem vcmp_ok_inv {a b : Chars} {o : Ordering} (h : vcmp a b = .ok o) :
    o = pyVersionCmp a b ∧ validVersion a = true ∧ validVersion b = true := by
  unfold vcmp pyVersionE at h
  by_cases ha : validVersion a = true
  · rw [if_pos ha, ok_bind] at h
    by_cases hb : validVersion b = true
    · rw [if_pos hb, ok_bind] at h
      cases h
      exact ⟨rfl, ha, hb⟩
    · rw [if_neg hb, err_bind] at h
      cases h
  · rw [if_neg ha, err_bind] at h
    cases h

/-- Helper: a singleton name image pins the relation to its head atom. -/
theorem names_singleton {e : RelEntry} {package : Chars}
    (h : e.rel.map (·.name) = [package]) :
    e.rel = [e.rel.headI] ∧ (e.rel.headI).name = package := by
  match hr : e.rel, h with
  | [r], h =>
    simp only [List.map_cons, List.map_nil] at h
    cases h
    exact ⟨rfl, rfl⟩

/-- Helper: `is_obsolete` succeeds on a relation whose version strings are
valid. -/
theorem is_obsolete_ok {package mv : Chars} (hmv : validVersion mv = true) :
    ∀ {rel : List PkgRelation}, rel.all versionOK = true →
      ∃ b, is_obsolete package mv rel = .ok b
  | [], _ => ⟨false, rfl⟩
  | r :: rs, hval => by
    have hvr : versionOK r = true := by
      rw [List.all_cons, Bool.and_eq_true] at hval
      exact hval.1
    have hvrs : rs.all versionOK = true := by
      rw [List.all_cons, Bool.and_eq_true] at hval
      exact hval.2
    obtain ⟨b, hb⟩ := is_obsolete_ok hmv hvrs
    simp only [is_obsolete]
    by_cases hname : r.name ≠ package
    · rw [if_pos hname]
      exact ⟨b, hb⟩
    · rw [if_neg hname]
      cases hv0 : r.version with
      | none => exact ⟨b, hb⟩
      | some opv =>
        match opv with
        | (op, v) =>
        simp only []
        have hvalid : validVersion v = true := by
          unfold versionOK at hvr
          rw [hv0] at hvr
          exact hvr
        have hvc : vcmp v mv = .ok (pyVersionCmp v mv) := vcmp_valid hvalid hmv
        by_cases hop : op = ">>".data
        · rw [if_pos hop, hvc, ok_bind]
          by_cases hlt : pyVersionCmp v mv = .lt
          · rw [if_pos hlt]
            exact ⟨true, rfl⟩
          · rw [if_neg hlt]
            exact ⟨b, hb⟩
        · rw [if_neg hop]
          by_cases hop2 : op = ">=".data
          · rw [if_pos hop2, hvc, ok_bind]
            by_cases hgt : pyVersionCmp v mv ≠ .gt
            · rw [if_pos hgt]
              exact ⟨true, rfl⟩
            · rw [if_neg hgt]
              exact ⟨b, hb⟩
          · rw [if_neg hop2]
            exact ⟨b, hb⟩

/-- Helper: a bind that succeeds factors through a successful first
action. -/
theorem bind_eq_ok {e a b : Type} {m : Except e a} {f : a → Except e b} {y : b}
    (h : (m >>= f) = .ok y) : ∃ x, m = .ok x ∧ f x = .ok y := by
  cases m with
  | error err =>
    rw [err_bind] at h
    cases h
  | ok x =>
    rw [ok_bind] at h
    exact ⟨x, rfl, h⟩

/-- Helper: everything the per-entry scan step guarantees about its
output. -/
theorem emvStep_out {package mv : Chars} {e e' : RelEntry} {fd ch ob : Bool}
    (h : emvStep package mv e = .ok (e', fd, ch, ob)) :
    (fd = false → e' = e ∧ e.rel.map (·.name) ≠ [package]) ∧
    (ch = false → e' = e) ∧
    (fd = true → e.rel.map (·.name) = [package] ∧ e'.rel.map (·.name) = [package] ∧
      ∃ op0 v0, e'.rel.headI.version = some (op0, v0) ∧
        (pyVersionCmp v0 mv ≠ .lt ∨ v0 = mv)) ∧
    (ob = true → 1 < (e.rel.map (·.name)).length) ∧
    (e'.hw = e.hw ∧ e'.tw = e.tw) ∧
    (e'.rel = e.rel ∨ (e.rel.map (·.name) = [package] ∧
      e'.rel = [{ e.rel.headI with version := some (">=".data, mv) }])) := by
  unfold emvStep at h
  simp only [] at h
  cases hcx : (e.rel.map (·.name)).length > 1 &&
      (e.rel.map (·.name)).contains package with
  | false =>
    rw [hcx] at h
    simp only [Bool.false_eq_true, if_false, pure, Except.pure, ok_bind] at h
    by_cases hne : e.rel.map (·.name) ≠ [package]
    · rw [if_pos hne] at h
      simp only [Except.ok.injEq, Prod.mk.injEq] at h
      obtain ⟨he, hfd, hch, hob2⟩ := h
      subst he
      subst hfd
      subst hch
      subst hob2
      exact ⟨fun _ => ⟨rfl, hne⟩, fun _ => rfl, fun hx => absurd hx (by decide), fun hx => absurd hx (by decide),
        ⟨rfl, rfl⟩, Or.inl rfl⟩
    · have hnames : e.rel.map (·.name) = [package] := not_not.mp hne
      obtain ⟨hsing, hname⟩ := names_singleton hnames
      rw [if_neg hne] at h
      cases hv0 : (e.rel.headI).version with
      | none =>
        rw [hv0] at h
        simp only [pure, Except.pure, ok_bind, eq_self_iff_true, if_true] at h
        simp only [Except.ok.injEq, Prod.mk.injEq] at h
        obtain ⟨he, hfd, hch, hob2⟩ := h
        subst he
        subst hfd
        subst hch
        subst hob2
        refine ⟨fun hx => absurd hx (by decide), fun hx => absurd hx (by decide), ?_, fun hx => absurd hx (by decide),
          ⟨rfl, rfl⟩, Or.inr ⟨hnames, rfl⟩⟩
        intro hx
        exact ⟨hnames, by simp [hname], ">=".data, mv, by simp, Or.inr rfl⟩
      | some opv =>
        match opv with
        | (op, vv) =>
        rw [hv0] at h
        simp only [] at h
        obtain ⟨o, hvc, h⟩ := bind_eq_ok h
        obtain ⟨ho2, hva, hvb⟩ := vcmp_ok_inv hvc
        cases ho : o == Ordering.lt with
        | true =>
          rw [ho] at h
          simp only [eq_self_iff_true, if_true] at h
          simp only [Except.ok.injEq, Prod.mk.injEq] at h
          obtain ⟨he, hfd, hch, hob2⟩ := h
          subst he
          subst hfd
          subst hch
          subst hob2
          refine ⟨fun hx => absurd hx (by decide), fun hx => absurd hx (by decide), ?_,
            fun hx => absurd hx (by decide), ⟨rfl, rfl⟩, Or.inr ⟨hnames, rfl⟩⟩
          intro hx
          exact ⟨hnames, by simp [hname], ">=".data, mv, by simp, Or.inr rfl⟩
        | false =>
          rw [ho] at h
          simp only [Bool.false_eq_true, if_false] at h
          simp only [Except.ok.injEq, Prod.mk.injEq] at h
          obtain ⟨he, hfd, hch, hob2⟩ := h
          subst he
          subst hfd
          subst hch
          subst hob2
          refine ⟨fun hx => absurd hx (by decide), fun _ => rfl, ?_, fun hx => absurd hx (by decide),
            ⟨rfl, rfl⟩, Or.inl rfl⟩
          intro hx
          refine ⟨hnames, hnames, op, vv, hv0, Or.inl ?_⟩
          intro hlt
          rw [← ho2] at hlt
          rw [hlt] at ho
          exact absurd ho (by decide)
  | true =>
    rw [hcx, if_pos rfl] at h
    have hlen1 : 1 < (e.rel.map (·.name)).length := by
      simp only [Bool.and_eq_true, decide_eq_true_eq] at hcx
      exact hcx.1
    obtain ⟨b, hob, h⟩ := bind_eq_ok h
    simp only [pure, Except.pure, ok_bind] at h
    by_cases hne : e.rel.map (·.name) ≠ [package]
    · rw [if_pos hne] at h
      simp only [Except.ok.injEq, Prod.mk.injEq] at h
      obtain ⟨he, hfd, hch, hob2⟩ := h
      subst he
      subst hfd
      subst hch
      subst hob2
      exact ⟨fun _ => ⟨rfl, hne⟩, fun _ => rfl, fun hx => absurd hx (by decide), fun _ => hlen1,
        ⟨rfl, rfl⟩, Or.inl rfl⟩
    · have hnames : e.rel.map (·.name) = [package] := not_not.mp hne
      obtain ⟨hsing, hname⟩ := names_singleton hnames
      rw [if_neg hne] at h
      cases hv0 : (e.rel.headI).version with
      | none =>
        rw [hv0] at h
        simp only [pure, Except.pure, ok_bind, eq_self_iff_true, if_true] at h
        simp only [Except.ok.injEq, Prod.mk.injEq] at h
        obtain ⟨he, hfd, hch, hob2⟩ := h
        subst he
        subst hfd
        subst hch
        subst hob2
        refine ⟨fun hx => absurd hx (by decide), fun hx => absurd hx (by decide), ?_, fun _ => hlen1,
          ⟨rfl, rfl⟩, Or.inr ⟨hnames, rfl⟩⟩
        intro hx
        exact ⟨hnames, by simp [hname], ">=".data, mv, by simp, Or.inr rfl⟩
      | some opv =>
        match opv with
        | (op, vv) =>
        rw [hv0] at h
        simp only [] at h
        obtain ⟨o, hvc, h⟩ := bind_eq_ok h
        obtain ⟨ho2, hva, hvb⟩ := vcmp_ok_inv hvc
        cases ho : o == Ordering.lt with
        | true =>
          rw [ho] at h
          simp only [eq_self_iff_true, if_true] at h
          simp only [Except.ok.injEq, Prod.mk.injEq] at h
          obtain ⟨he, hfd, hch, hob2⟩ := h
          subst he
          subst hfd
          subst hch
          subst hob2
          refine ⟨fun hx => absurd hx (by decide), fun hx => absurd hx (by decide), ?_,
            fun _ => hlen1, ⟨rfl, rfl⟩, Or.inr ⟨hnames, rfl⟩⟩
          intro hx
          exact ⟨hnames, by simp [hname], ">=".data, mv, by simp, Or.inr rfl⟩
        | false =>
          rw [ho] at h
          simp only [Bool.false_eq_true, if_false] at h
          simp only [Except.ok.injEq, Prod.mk.injEq] at h
          obtain ⟨he, hfd, hch, hob2⟩ := h
          subst he
          subst hfd
          subst hch
          subst hob2
          refine ⟨fun hx => absurd hx (by decide), fun _ => rfl, ?_, fun _ => hlen1,
            ⟨rfl, rfl⟩, Or.inl rfl⟩
          intro hx
          refine ⟨hnames, hnames, op, vv, hv0, Or.inl ?_⟩
          intro hlt
          rw [← ho2] at hlt
          rw [hlt] at ho
          exact absurd ho (by decide)

/-- Helper: on an entry already at the required minimum, the scan step is
the identity (no change flag). -/
theorem emvStep_noop {package v' : Chars} {e : RelEntry}
    (hval : e.rel.all versionOK = true) (hv' : validVersion v' = true)
    (hver : e.rel.map (·.name) = [package] →
      ∃ op0 v0, e.rel.headI.version = some (op0, v0) ∧ pyVersionCmp v0 v' ≠ .lt) :
    ∃ ob, emvStep package v' e =
      .ok (e, decide (e.rel.map (·.name) = [package]), false, ob) := by
  unfold emvStep
  simp only []
  cases hcx : (e.rel.map (·.name)).length > 1 &&
      (e.rel.map (·.name)).contains package with
  | false =>
    refine ⟨false, ?_⟩
    simp only [Bool.false_eq_true, if_false, pure, Except.pure, ok_bind]
    by_cases hne : e.rel.map (·.name) ≠ [package]
    · rw [if_pos hne]
      simp [hne]
    · have hnames : e.rel.map (·.name) = [package] := not_not.mp hne
      obtain ⟨op0, v0, hv0, hge⟩ := hver hnames
      have hvalid0 : validVersion v0 = true := by
        obtain ⟨hsing, hname⟩ := names_singleton hnames
        have hh := List.all_eq_true.mp hval (e.rel.headI) (by rw [hsing]; simp)
        unfold versionOK at hh
        rw [hv0] at hh
        exact hh
      rw [if_neg hne, hv0]
      simp only []
      rw [vcmp_valid hvalid0 hv', ok_bind]
      have hbeq : (pyVersionCmp v0 v' == Ordering.lt) = false := by
        cases hcmp : pyVersionCmp v0 v' with
        | lt => exact absurd hcmp hge
        | eq => rfl
        | gt => rfl
      simp only [pure, Except.pure, ok_bind, hbeq, Bool.false_eq_true, if_false]
      simp [hnames]
  | true =>
    obtain ⟨b, hob⟩ := is_obsolete_ok hv' hval
    refine ⟨b, ?_⟩
    rw [if_pos rfl, hob, ok_bind]
    by_cases hne : e.rel.map (·.name) ≠ [package]
    · rw [if_pos hne]
      simp [hne]
    · have hnames : e.rel.map (·.name) = [package] := not_not.mp hne
      obtain ⟨op0, v0, hv0, hge⟩ := hver hnames
      have hvalid0 : validVersion v0 = true := by
        obtain ⟨hsing, hname⟩ := names_singleton hnames
        have hh := List.all_eq_true.mp hval (e.rel.headI) (by rw [hsing]; simp)
        unfold versionOK at hh
        rw [hv0] at hh
        exact hh
      rw [if_neg hne, hv0]
      simp only []
      rw [vcmp_valid hvalid0 hv', ok_bind]
      have hbeq : (pyVersionCmp v0 v' == Ordering.lt) = false := by
        cases hcmp : pyVersionCmp v0 v' with
        | lt => exact absurd hcmp hge
        | eq => rfl
        | gt => rfl
      simp only [pure, Except.pure, ok_bind, hbeq, Bool.false_eq_true, if_false]
      simp [hnames]

/-- Helper: what membership in the obsolete-index list means. -/
theorem obsIdxs_spec (d : RelEntry × Bool × Bool × Bool) :
    ∀ (L : List (RelEntry × Bool × Bool × Bool)) (i0 j : Nat),
    j ∈ obsIdxs i0 L →
    i0 ≤ j ∧ j - i0 < L.length ∧ (L.getD (j - i0) d).2.2.2 = true
  | [], i0, j, h => absurd h (by simp [obsIdxs])
  | p :: ps, i0, j, h => by
    unfold obsIdxs at h
    by_cases hp : p.2.2.2 = true
    · rw [if_pos hp] at h
      rcases List.mem_cons.mp h with rfl | h2
      · exact ⟨le_refl _, by simp, by simpa using hp⟩
      · obtain ⟨h1, h2l, h3⟩ := obsIdxs_spec d ps (i0 + 1) j h2
        refine ⟨by omega, by simp only [List.length_cons]; omega, ?_⟩
        have hj : j - i0 = (j - (i0 + 1)) + 1 := by omega
        rw [hj]
        simpa using h3
    · rw [if_neg hp] at h
      obtain ⟨h1, h2l, h3⟩ := obsIdxs_spec d ps (i0 + 1) j h
      refine ⟨by omega, by simp only [List.length_cons]; omega, ?_⟩
      have hj : j - i0 = (j - (i0 + 1)) + 1 := by omega
      rw [hj]
      simpa using h3

/-- Helper: deleting indices keeps only original elements. -/
theorem deleteIndices_sub {l : List RelEntry} {idxs : List Nat} :
    ∀ e ∈ deleteIndices l idxs, e ∈ l := by
  intro e he
  unfold deleteIndices at he
  obtain ⟨⟨i, x⟩, hp, rfl⟩ := List.mem_map.mp he
  have hp2 := List.mem_of_mem_filter hp
  rw [List.enum_eq_zip_range] at hp2
  exact (List.of_mem_zip hp2).2

/-- Helper: an element whose index is not deleted survives the
deletion. -/
theorem get_mem_deleteIndices {l : List RelEntry} {idxs : List Nat} {j : Nat}
    (hj : j < l.length) (hnot : j ∉ idxs) :
    l.get ⟨j, hj⟩ ∈ deleteIndices l idxs := by
  unfold deleteIndices
  apply List.mem_map.mpr
  refine ⟨(j, l.get ⟨j, hj⟩), ?_, rfl⟩
  apply List.mem_filter.mpr
  refine ⟨?_, by simpa using hnot⟩
  apply List.mem_enum_iff_get?.mpr
  exact List.get?_eq_get hj

/-- Helper: the `get?` form of survival. -/
theorem mem_deleteIndices_of_get {l : List RelEntry} {idxs : List Nat} {j : Nat}
    {x : RelEntry} (hx : l.get? j = some x) (hnot : j ∉ idxs) :
    x ∈ deleteIndices l idxs := by
  obtain ⟨hj, hget⟩ := List.get?_eq_some.mp hx
  rw [← hget]
  exact get_mem_deleteIndices hj hnot

/-- Helper: a pass of `ensure_minimum_version` over a string whose
package entries already satisfy the minimum returns the string
unchanged. -/
theorem emv_noop_pass {s1 pkg v' : Chars} {R2 : List RelEntry}
    (hparse : parse_relations s1 = .ok R2)
    (hv' : validVersion v' = true)
    (hall : ∀ e ∈ R2, e.rel.map (·.name) = [pkg] →
      ∃ op0 v0, e.rel.headI.version = some (op0, v0) ∧ pyVersionCmp v0 v' ≠ .lt)
    (hfound : ∃ e ∈ R2, e.rel.map (·.name) = [pkg]) :
    ensure_minimum_version s1 pkg v' = .ok s1 := by
  have hvalall : atomVersionsValid R2 = true := parse_relations_versionOK hparse
  have hsteps : ∀ e ∈ R2, ∃ out, emvStep pkg v' e = .ok out ∧
      (out.1 = e ∧ out.2.1 = decide (e.rel.map (·.name) = [pkg]) ∧
        out.2.2.1 = false) := by
    intro e he
    have hvale : e.rel.all versionOK = true := by
      unfold atomVersionsValid at hvalall
      have hh := List.all_eq_true.mp hvalall e he
      simpa using hh
    obtain ⟨ob, hstep⟩ := emvStep_noop hvale hv' (hall e he)
    exact ⟨(e, decide (e.rel.map (·.name) = [pkg]), false, ob), hstep,
      rfl, rfl, rfl⟩
  obtain ⟨L2, hL2, hlen, hpt⟩ := mapME_ok_exists (l := R2) hsteps
  have hmap : L2.map (·.1) = R2 :=
    map_fst_of_pointwise hlen (fun i hi hi2 => (hpt i hi hi2).1)
  have hfd : L2.any (·.2.1) = true := by
    obtain ⟨e0, he0, hn0⟩ := hfound
    obtain ⟨i0, hi0⟩ := List.mem_iff_get.mp he0
    have hi02 : (i0 : Nat) < L2.length := by
      rw [hlen]
      exact i0.isLt
    apply List.any_eq_true.mpr
    refine ⟨L2.get ⟨i0, hi02⟩, List.get_mem L2 _ _, ?_⟩
    have hp := (hpt i0 i0.isLt hi02).2.1
    have hg : R2.get ⟨(i0 : Nat), i0.isLt⟩ = e0 := by
      rw [← hi0]
    rw [hg] at hp
    rw [hp, hn0]
    simp
  have hch : L2.any (fun p => p.2.2.1) = false := by
    apply List.any_eq_false.mpr
    intro x hx
    obtain ⟨i0, hi0⟩ := List.mem_iff_get.mp hx
    have hi02 : (i0 : Nat) < R2.length := by
      rw [← hlen]
      exact i0.isLt
    have hp := (hpt i0 hi02 i0.isLt).2.2
    rw [hi0] at hp
    simp [hp]
  unfold ensure_minimum_version
  have hpe : pyVersionE v' = .ok () := by
    unfold pyVersionE
    rw [if_pos hv']
  rw [hpe, ok_bind, hparse, ok_bind, emvGo_spec, hL2]
  simp only [List.reverse_nil, List.nil_append, Bool.false_or, hmap, hfd, hch,
    ok_bind]
  simp only [Bool.not_true, Bool.false_eq_true, if_false, pure, Except.pure,
    ok_bind]

/-- Helper: the version-string class contains the regex version class. -/
theorem verChar_versChar {c : Char} (h : verChar c = true) : versChar c = true := by
  unfold verChar at h
  unfold versChar
  simp only [Bool.or_eq_true, decide_eq_true_eq, Char.isAlphanum] at h ⊢
  tauto

/-- Helper: the canonical-entry predicate unpacked. -/
theorem wfEntry_parts {e : RelEntry} (h : wfEntry e = true) :
    e.hw.all pyIsSpace = true ∧ e.tw.all pyIsSpace = true ∧
    e.hw.count '\n' ≤ 1 ∧ e.tw.count '\n' = 0 ∧
    e.rel.all wfAtom = true ∧
    (e.rel = [] → e.tw = [] ∧ e.hw.count '\n' = 0) := by
  unfold wfEntry at h
  simp only [Bool.and_eq_true] at h
  obtain ⟨⟨⟨⟨⟨h1, h2⟩, h3⟩, h4⟩, h5⟩, h6⟩ := h
  refine ⟨h1, h2, by simpa using h3, by simpa using h4, h5, ?_⟩
  intro hrel
  rw [hrel] at h6
  simpa using h6

/-- Helper: rebuilding the canonical-entry predicate. -/
theorem wfEntry_build {e : RelEntry}
    (h1 : e.hw.all pyIsSpace = true) (h2 : e.tw.all pyIsSpace = true)
    (h3 : e.hw.count '\n' ≤ 1) (h4 : e.tw.count '\n' = 0)
    (h5 : e.rel.all wfAtom = true) (h6 : e.rel ≠ []) :
    wfEntry e = true := by
  unfold wfEntry
  simp only [Bool.and_eq_true]
  refine ⟨⟨⟨⟨⟨h1, h2⟩, by simpa⟩, by simpa⟩, h5⟩, ?_⟩
  simp only [Bool.or_eq_true, Bool.not_eq_true', List.isEmpty_eq_false]
  exact Or.inl h6

/-- Helper: the minimum-version update preserves entry canonicity. -/
theorem wfEntry_upd {e : RelEntry} {pkg v : Chars} (hwfe : wfEntry e = true)
    (hnames : e.rel.map (·.name) = [pkg]) (hv : validVersion v = true) :
    wfEntry ⟨e.hw, [{ e.rel.headI with version := some (">=".data, v) }], e.tw⟩
      = true := by
  obtain ⟨h1, h2, h3, h4, h5, h6⟩ := wfEntry_parts hwfe
  obtain ⟨hsing, hname⟩ := names_singleton hnames
  have hatom : wfAtom (e.rel.headI) = true := by
    apply List.all_eq_true.mp h5
    rw [hsing]
    simp
  obtain ⟨ha1, ha2, ha3, ha4, ha5⟩ := wfAtom_parts hatom
  refine wfEntry_build ?_ ?_ ?_ ?_ ?_ (by simp)
  · exact h1
  · exact h2
  · exact h3
  · exact h4
  simp only [List.all_cons, List.all_nil, Bool.and_true]
  unfold wfAtom
  simp only [Bool.and_eq_true]
  refine ⟨⟨⟨⟨ha1, ha2⟩, ?_⟩, ha4⟩, ha5⟩
  unfold wfVersionF
  unfold validVersion at hv
  simp only [Bool.and_eq_true, decide_eq_true_eq, ne_eq, List.all_eq_true] at hv ⊢
  refine ⟨⟨by decide, hv.1⟩, fun c hc => verChar_versChar (hv.2 c hc)⟩

/-- Helper: the last element of a nonempty list is a member. -/
theorem getLastI_mem : ∀ {l : List RelEntry}, l ≠ [] → l.getLastI ∈ l
  | [a], _ => by simp [List.getLastI]
  | [a, b], _ => by simp [List.getLastI]
  | a :: b :: c :: t, _ => by
    have ih := getLastI_mem (l := c :: t) (by simp)
    have he : (a :: b :: c :: t).getLastI = (c :: t).getLastI := rfl
    rw [he]
    simp only [List.mem_cons]
    exact Or.inr (Or.inr (List.mem_cons.mp ih))

/-- Helper: the best-guess whitespace of `_add_relation` is canonical
whitespace. -/
theorem addRelWs_wf {l : List RelEntry} (h : ∀ e ∈ l, wfEntry e = true) :
    ((addRelWs l).1.all pyIsSpace = true ∧ (addRelWs l).1.count '\n' ≤ 1) ∧
    ((addRelWs l).2.all pyIsSpace = true ∧ (addRelWs l).2.count '\n' = 0) := by
  unfold addRelWs
  by_cases h0 : l.length = 0
  · rw [if_pos h0]
    exact ⟨⟨rfl, by simp⟩, ⟨rfl, by simp⟩⟩
  · rw [if_neg h0]
    have hne : l ≠ [] := fun hh => h0 (by rw [hh]; rfl)
    by_cases h1 : l.length = 1
    · rw [if_pos h1]
      have hhead : l.headI ∈ l := by
        match l, hne with
        | x :: xs, _ => simp
      obtain ⟨p1, p2, p3, p4, p5, p6⟩ := wfEntry_parts (h _ hhead)
      refine ⟨?_, ⟨rfl, by simp⟩⟩
      by_cases hw0 : (l.headI).hw = []
      · rw [if_pos hw0]
        exact ⟨by decide, by decide⟩
      · rw [if_neg hw0]
        exact ⟨p1, p3⟩
    · rw [if_neg h1]
      constructor
      · cases hm : (l.drop 1).map (·.hw) with
        | nil =>
          have hlm : l.getLastI ∈ l := getLastI_mem hne
          obtain ⟨p1, p2, p3, p4, p5, p6⟩ := wfEntry_parts (h _ hlm)
          exact ⟨p1, p3⟩
        | cons w ws =>
          have hwmem : w ∈ (l.drop 1).map (·.hw) := by
            rw [hm]
            simp
          obtain ⟨e1, he1, hwe1⟩ := List.mem_map.mp hwmem
          have he1l : e1 ∈ l := List.drop_subset 1 l he1
          obtain ⟨q1, q2, q3, q4, q5, q6⟩ := wfEntry_parts (h _ he1l)
          have hlm : l.getLastI ∈ l := getLastI_mem hne
          obtain ⟨p1, p2, p3, p4, p5, p6⟩ := wfEntry_parts (h _ hlm)
          simp only []
          by_cases hall : ws.all (· = w) = true
          · rw [if_pos hall]
            rw [← hwe1]
            exact ⟨q1, q3⟩
          · rw [if_neg hall]
            exact ⟨p1, p3⟩
      · cases hm : (l.dropLast).map (·.tw) with
        | nil =>
          have hhead : l.headI ∈ l := by
            match l, hne with
            | x :: xs, _ => simp
          obtain ⟨p1, p2, p3, p4, p5, p6⟩ := wfEntry_parts (h _ hhead)
          exact ⟨p2, p4⟩
        | cons w ws =>
          have hwmem : w ∈ (l.dropLast).map (·.tw) := by
            rw [hm]
            simp
          obtain ⟨e1, he1, hwe1⟩ := List.mem_map.mp hwmem
          have he1l : e1 ∈ l := List.dropLast_subset l he1
          obtain ⟨q1, q2, q3, q4, q5, q6⟩ := wfEntry_parts (h _ he1l)
          have hhead : l.headI ∈ l := by
            match l, hne with
            | x :: xs, _ => simp
          obtain ⟨p1, p2, p3, p4, p5, p6⟩ := wfEntry_parts (h _ hhead)
          simp only []
          by_cases hall : ws.all (· = w) = true
          · rw [if_pos hall]
            rw [← hwe1]
            exact ⟨q2, q4⟩
          · rw [if_neg hall]
            exact ⟨p2, p4⟩

/-- Helper: appending at the end relocates the old last entry's tail
whitespace. -/
theorem addRelInsert_append {l : List RelEntry} (hne : l ≠ [])
    (rel : List PkgRelation) (w1 w2 : Chars) :
    addRelInsert l rel l.length w1 w2 =
      l.dropLast ++ [⟨(l.getLastI).hw, (l.getLastI).rel, w2⟩,
        ⟨w1, rel, (l.getLastI).tw⟩] := by
  unfold addRelInsert
  rw [if_pos rfl, if_neg (by simpa using hne)]

/-- Helper: `addRelInsert` on the empty list. -/
theorem addRelInsert_nil (rel : List PkgRelation) (w1 w2 : Chars) :
    addRelInsert [] rel 0 w1 w2 = [⟨w1, rel, []⟩] := by
  unfold addRelInsert
  simp

/-- Helper: what `_add_relation` produces when appending a fresh relation:
every output entry is canonical, carries either the new relation or an
existing entry's, and the new entry sits at the popped list's length. -/
theorem add_relation_shape {R : List RelEntry} {rel : List PkgRelation}
    (hwf : ∀ e ∈ R, wfEntry e = true)
    (hlast : ((addRelPrep R).1.getLast?).all (fun e => !e.rel.isEmpty) = true)
    (hrelne : rel ≠ []) (hrelatoms : rel.all wfAtom = true) :
    ∃ R', _add_relation R rel none = .ok R' ∧
      (∀ e ∈ R', wfEntry e = true) ∧
      (∀ e ∈ R', e.rel = rel ∨ ∃ e0 ∈ R, e.rel = e0.rel) ∧
      ∃ enew, R'.get? (addRelPrep R).1.length = some enew ∧ enew.rel = rel ∧
        ((addRelPrep R).1.length < R.length →
          ∃ epop, R.get? (addRelPrep R).1.length = some epop ∧ epop.rel = []) := by
  have hwfnew : ∀ w1 w2 : Chars, w1.all pyIsSpace = true → w1.count '\n' ≤ 1 →
      w2.all pyIsSpace = true → w2.count '\n' = 0 →
      wfEntry ⟨w1, rel, w2⟩ = true := by
    intro w1 w2 a1 a2 a3 a4
    exact wfEntry_build a1 a3 a2 a4 hrelatoms hrelne
  induction R using List.reverseRecOn with
  | nil =>
    refine ⟨[⟨[], rel, []⟩], ?_, ?_, ?_, ⟨[], rel, []⟩, rfl, rfl, ?_⟩
    · rw [_add_relation_none_ok]
      rw [show addRelPrep ([] : List RelEntry) = ([], none) from rfl]
      rw [show addRelWs ([] : List RelEntry) = ([], []) from rfl]
      simp only [List.length_nil]
      rw [addRelInsert_nil]
      rfl
    · intro e he
      simp only [List.mem_singleton] at he
      subst he
      exact hwfnew [] [] rfl (by simp) rfl (by simp)
    · intro e he
      simp only [List.mem_singleton] at he
      subst he
      exact Or.inl rfl
    · intro hlt
      exact absurd hlt (by decide)
  | append_singleton A last ih =>
    clear ih
    have hprep0 : addRelPrep (A ++ [last]) =
        (if last.rel = [] then (A, some last) else (A ++ [last], none)) := by
      unfold addRelPrep
      rw [List.getLast?_concat]
      simp only []
      rw [List.dropLast_concat]
    have hmain := _add_relation_none_ok (A ++ [last]) rel
    by_cases hpop : last.rel = []
    · rw [if_pos hpop] at hprep0
      rw [hprep0] at hmain hlast ⊢
      simp only [] at hmain hlast ⊢
      simp only [Option.toList_some] at hmain
      by_cases hA : A = []
      · subst hA
        simp only [List.length_nil] at hmain ⊢
        rw [show addRelWs ([] : List RelEntry) = ([], []) from rfl] at hmain
        rw [addRelInsert_nil] at hmain
        refine ⟨[⟨[], rel, []⟩, last], by simpa using hmain, ?_, ?_,
          ⟨[], rel, []⟩, rfl, rfl, ?_⟩
        · intro e he
          rcases List.mem_cons.mp he with rfl | he
          · exact hwfnew [] [] rfl (by simp) rfl (by simp)
          · simp only [List.mem_singleton] at he
            rw [he]
            exact hwf last (by simp)
        · intro e he
          rcases List.mem_cons.mp he with rfl | he
          · exact Or.inl rfl
          · simp only [List.mem_singleton] at he
            rw [he]
            exact Or.inr ⟨last, by simp, rfl⟩
        · intro hlt
          exact ⟨last, rfl, hpop⟩
      · obtain ⟨⟨w1s, w1c⟩, w2s, w2c⟩ :=
          addRelWs_wf (l := A) (fun e he => hwf e (by simp [he]))
        have hlastAmem : A.getLastI ∈ A := getLastI_mem hA
        have hlastArel : (A.getLastI).rel ≠ [] := by
          have hgl2 : A.getLast? = some (A.getLast hA) :=
            List.getLast?_eq_getLast_of_ne_nil hA
          rw [hgl2] at hlast
          simp only [Option.all_some, Bool.not_eq_true', List.isEmpty_eq_false,
            ne_eq] at hlast
          have hIe : A.getLastI = A.getLast hA := by
            rw [List.getLastI_eq_getLast?, hgl2]
          rw [hIe]
          simpa using hlast
        obtain ⟨p1, p2, p3, p4, p5, p6⟩ := wfEntry_parts
          (hwf A.getLastI (List.mem_append.mpr (Or.inl hlastAmem)))
        rw [addRelInsert_append hA] at hmain
        refine ⟨_, hmain, ?_, ?_, ⟨(addRelWs A).1, rel, (A.getLastI).tw⟩, ?_, rfl, ?_⟩
        · intro e he
          simp only [List.mem_append, List.mem_cons, List.not_mem_nil,
            or_false] at he
          rcases he with (he | he | he) | he
          · exact hwf e (by simp [List.dropLast_subset A he])
          · subst he
            exact wfEntry_build p1 w2s p3 w2c p5 hlastArel
          · subst he
            exact hwfnew _ _ w1s w1c p2 p4
          · rw [he]
            exact hwf last (by simp)
        · intro e he
          simp only [List.mem_append, List.mem_cons, List.not_mem_nil,
            or_false] at he
          rcases he with (he | he | he) | he
          · exact Or.inr ⟨e, by simp [List.dropLast_subset A he], rfl⟩
          · subst he
            exact Or.inr ⟨A.getLastI, by simp [hlastAmem], rfl⟩
          · subst he
            exact Or.inl rfl
          · rw [he]
            exact Or.inr ⟨last, by simp, rfl⟩
        · have hlen1 : 1 ≤ A.length := by
            cases A with
            | nil => exact absurd rfl hA
            | cons x xs => simp
          rw [List.get?_eq_getElem?, List.getElem?_append,
            if_pos (show A.length < (A.dropLast ++
              [(⟨(A.getLastI).hw, (A.getLastI).rel, (addRelWs A).2⟩ : RelEntry),
                ⟨(addRelWs A).1, rel, (A.getLastI).tw⟩]).length by simp; omega)]
          rw [List.getElem?_append_right (by simp)]
          simp only [List.length_dropLast]
          rw [show A.length - (A.length - 1) = 1 by omega]
          rfl
        · intro hlt
          refine ⟨last, ?_, hpop⟩
          rw [List.get?_eq_getElem?, List.getElem?_append_right (by simp)]
          simp
    · rw [if_neg hpop] at hprep0
      rw [hprep0] at hmain hlast ⊢
      simp only [] at hmain hlast ⊢
      simp only [Option.toList_none, List.append_nil] at hmain
      have hAne : A ++ [last] ≠ [] := by simp
      obtain ⟨⟨w1s, w1c⟩, w2s, w2c⟩ :=
        addRelWs_wf (l := A ++ [last]) hwf
      have hIe : (A ++ [last]).getLastI = last := by
        rw [List.getLastI_eq_getLast?, List.getLast?_concat]
      obtain ⟨p1, p2, p3, p4, p5, p6⟩ := wfEntry_parts (hwf last (by simp))
      rw [addRelInsert_append hAne] at hmain
      rw [hIe] at hmain
      refine ⟨_, hmain, ?_, ?_,
        ⟨(addRelWs (A ++ [last])).1, rel, last.tw⟩, ?_, rfl, ?_⟩
      · intro e he
        simp only [List.mem_append, List.mem_cons, List.not_mem_nil,
          or_false] at he
        rcases he with he | he | he
        · exact hwf e (List.dropLast_subset _ he)
        · subst he
          exact wfEntry_build p1 w2s p3 w2c p5 hpop
        · subst he
          exact hwfnew _ _ w1s w1c p2 p4
      · intro e he
        simp only [List.mem_append, List.mem_cons, List.not_mem_nil,
          or_false] at he
        rcases he with he | he | he
        · exact Or.inr ⟨e, List.dropLast_subset _ he, rfl⟩
        · subst he
          exact Or.inr ⟨last, by simp, rfl⟩
        · subst he
          exact Or.inl rfl
      · rw [List.get?_eq_getElem?,
          List.getElem?_append_right (by simp)]
        simp only [List.length_dropLast, List.length_append,
          List.length_singleton]
        rw [show A.length + 1 - (A.length + 1 - 1) = 1 by omega]
        rfl
      · intro hlt
        simp only [List.length_append, List.length_singleton] at hlt
        omega

/-- Helper: entries with equal fields are equal. -/
theorem relEntry_eq {x y : RelEntry} (h1 : x.hw = y.hw) (h2 : x.rel = y.rel)
    (h3 : x.tw = y.tw) : x = y := by
  cases x
  cases y
  simp_all

/-- Helper: the fresh minimum-version atom is canonical. -/
theorem wfAtom_new {pkg v : Chars} (hpkg : wfName pkg = true)
    (hv : validVersion v = true) :
    wfAtom ⟨pkg, some (">=".data, v), none, none, none⟩ = true := by
  unfold wfAtom
  simp only [Bool.and_eq_true]
  refine ⟨⟨⟨⟨hpkg, rfl⟩, ?_⟩, rfl⟩, rfl⟩
  unfold wfVersionF relopStr
  unfold validVersion at hv
  simp only [Bool.and_eq_true, decide_eq_true_eq, ne_eq, List.all_eq_true] at hv ⊢
  exact ⟨⟨⟨by decide, by decide⟩, hv.1⟩, fun c hc => verChar_versChar (hv.2 c hc)⟩

/-- Helper: a nonempty name image means a nonempty relation. -/
theorem rel_ne_of_names {e : RelEntry} {pkg : Chars}
    (h : e.rel.map (·.name) = [pkg]) : e.rel ≠ [] := by
  intro hrel
  rw [hrel] at h
  cases h

/-- Helper: the second application of `ensure_minimum_version` with a lower
bound returns its input unchanged. -/
theorem emv_idempotent_aux {s s1 pkg v v' : Chars} {R : List RelEntry}
    (hparse : parse_relations s = .ok R)
    (hwf : wfRelList R = true)
    (hlast : ((addRelPrep R).1.getLast?).all (fun e => !e.rel.isEmpty) = true)
    (hpkg : wfName pkg = true)
    (hv : validVersion v = true) (hv' : validVersion v' = true)
    (hge : pyVersionCmp v v' ≠ .lt)
    (h1 : ensure_minimum_version s pkg v = .ok s1) :
    ensure_minimum_version s1 pkg v' = .ok s1 := by
  have hwfR : ∀ e ∈ R, wfEntry e = true := by
    unfold wfRelList at hwf
    simp only [Bool.and_eq_true, List.all_eq_true] at hwf
    exact hwf.1
  have hpe : pyVersionE v = .ok () := by
    unfold pyVersionE
    rw [if_pos hv]
  unfold ensure_minimum_version at h1
  rw [hpe, ok_bind, hparse, ok_bind, emvGo_spec] at h1
  cases hL : mapME (emvStep pkg v) R with
  | error err =>
    rw [hL] at h1
    simp only [] at h1
    obtain ⟨x, hx, -⟩ := bind_eq_ok h1
    cases hx
  | ok L =>
    rw [hL] at h1
    simp only [List.reverse_nil, List.nil_append, Bool.false_or, ok_bind] at h1
    obtain ⟨hlen, hpt⟩ := mapME_ok_get hL
    cases hfd : L.any (·.2.1) with
    | true =>
      rw [hfd] at h1
      simp only [Bool.not_true, Bool.false_eq_true, if_false, pure, Except.pure,
        ok_bind] at h1
      -- locate the found entry
      obtain ⟨outf, houtfL, hfdf⟩ := List.any_eq_true.mp hfd
      obtain ⟨jf, hjf⟩ := List.mem_iff_get.mp houtfL
      have hjfR : (jf : Nat) < R.length := by
        rw [← hlen]
        exact jf.isLt
      have hstepf := hpt jf hjfR jf.isLt
      have houtf := emvStep_out hstepf
      have hfdf' : (L.get jf).2.1 = true := by
        rw [hjf]
        exact hfdf
      obtain ⟨hnf, hnf', opf, vf, hvf, hcasef⟩ := houtf.2.2.1 hfdf'
      have hvf' : pyVersionCmp vf v' ≠ .lt := by
        rcases hcasef with hc | hc
        · exact pyVersionCmp_ge_trans hc hge
        · rw [hc]
          exact hge
      have hnotobs : (jf : Nat) ∉ obsIdxs 0 L := by
        intro hmem
        obtain ⟨-, hlt2, hob⟩ :=
          obsIdxs_spec (⟨[], [], []⟩, false, false, false) L 0 jf hmem
        simp only [Nat.sub_zero] at hlt2 hob
        rw [List.getD_eq_get _ _ hlt2] at hob
        have hob2 := houtf.2.2.2.1 (by
          have he : L.get ⟨(jf : Nat), hlt2⟩ = L.get jf := by
            congr
          rw [he] at hob
          exact hob)
        have := houtf.2.2.1 hfdf'
        rw [this.1] at hob2
        simp at hob2
      have hsurv : (L.get jf).1 ∈ deleteIndices (L.map (·.1)) (obsIdxs 0 L) := by
        apply mem_deleteIndices_of_get _ hnotobs
        rw [List.get?_eq_getElem?, List.getElem?_map]
        rw [List.getElem?_eq_getElem jf.isLt]
        simp only [Option.map_some']
        rfl
      cases hch : L.any (fun p => p.2.2.1) with
      | false =>
        rw [hch] at h1
        simp only [Bool.false_eq_true, if_false] at h1
        injection h1 with h2
        subst h2
        have hchall : ∀ out ∈ L, out.2.2.1 = false := by
          intro out hout
          have := List.any_eq_false.mp hch out hout
          simpa using this
        apply emv_noop_pass hparse hv'
        · intro e he hnames
          obtain ⟨fi, hfi⟩ := List.mem_iff_get.mp he
          have hfiL : (fi : Nat) < L.length := by
            rw [hlen]
            exact fi.isLt
          have hstep := hpt fi fi.isLt hfiL
          have hout := emvStep_out hstep
          have hch0 : (L.get ⟨fi, hfiL⟩).2.2.1 = false :=
            hchall _ (List.get_mem L _ _)
          have heq : (L.get ⟨fi, hfiL⟩).1 = R.get fi := hout.2.1 hch0
          cases hfd0 : (L.get ⟨fi, hfiL⟩).2.1 with
          | false =>
            obtain ⟨-, hne⟩ := hout.1 hfd0
            rw [hfi] at hne
            exact absurd hnames hne
          | true =>
            obtain ⟨hn1, hn2, op0, v0, hv0, hcase0⟩ := hout.2.2.1 hfd0
            refine ⟨op0, v0, ?_, ?_⟩
            · rw [← hfi, ← heq]
              exact hv0
            · rcases hcase0 with hc | hc
              · exact pyVersionCmp_ge_trans hc hge
              · rw [hc]
                exact hge
        · have hchjf : (L.get jf).2.2.1 = false := hchall _ (List.get_mem L _ _)
          have heq : (L.get jf).1 = R.get ⟨jf, hjfR⟩ := emvStep_out (hpt jf hjfR jf.isLt) |>.2.1 hchjf
          refine ⟨(L.get jf).1, ?_, hnf'⟩
          rw [heq]
          exact List.get_mem R _ _
      | true =>
        rw [hch] at h1
        simp only [if_pos rfl, eq_self_iff_true, if_true] at h1
        injection h1 with h2
        subst h2
        have hR2wf : ∀ e ∈ deleteIndices (L.map (·.1)) (obsIdxs 0 L),
            wfEntry e = true := by
          intro e he
          have heL := deleteIndices_sub e he
          obtain ⟨out, houtL, rfl⟩ := List.mem_map.mp heL
          obtain ⟨a, haR, hstepa⟩ := mapME_ok_mem hL out houtL
          have houta := emvStep_out hstepa
          obtain ⟨hhw, htw⟩ := houta.2.2.2.2.1
          rcases houta.2.2.2.2.2 with hrel | ⟨hnames, hrel⟩
          · rw [relEntry_eq hhw hrel htw]
            exact hwfR a haR
          · rw [relEntry_eq (y := ⟨a.hw,
              [{ a.rel.headI with version := some (">=".data, v) }], a.tw⟩)
              hhw hrel htw]
            exact wfEntry_upd (hwfR a haR) hnames hv
        have hR2wfl : wfRelList (deleteIndices (L.map (·.1)) (obsIdxs 0 L)) = true := by
          unfold wfRelList
          simp only [Bool.and_eq_true, List.all_eq_true, decide_eq_true_eq, ne_eq]
          refine ⟨fun e he => hR2wf e he, ?_⟩
          intro hdeg
          have := hsurv
          rw [hdeg] at this
          simp only [List.mem_singleton] at this
          have hrelne := rel_ne_of_names hnf'
          rw [this] at hrelne
          exact hrelne rfl
        apply emv_noop_pass (parse_format_roundtrip hR2wfl) hv'
        · intro e he hnames
          have heL := deleteIndices_sub e he
          obtain ⟨out, houtL, rfl⟩ := List.mem_map.mp heL
          obtain ⟨a, haR, hstepa⟩ := mapME_ok_mem hL out houtL
          have houta := emvStep_out hstepa
          cases hfd0 : out.2.1 with
          | false =>
            obtain ⟨heq, hne⟩ := houta.1 hfd0
            rw [heq] at hnames
            exact absurd hnames hne
          | true =>
            obtain ⟨hn1, hn2, op0, v0, hv0, hcase0⟩ := houta.2.2.1 hfd0
            refine ⟨op0, v0, hv0, ?_⟩
            rcases hcase0 with hc | hc
            · exact pyVersionCmp_ge_trans hc hge
            · rw [hc]
              exact hge
        · exact ⟨(L.get jf).1, hsurv, hnf'⟩
    | false =>
      rw [hfd] at h1
      simp only [Bool.not_false, if_pos rfl, eq_self_iff_true, if_true] at h1
      have hfdall : ∀ out ∈ L, out.2.1 = false := by
        intro out hout
        have := List.any_eq_false.mp hfd out hout
        simpa using this
      have hR1 : L.map (·.1) = R := by
        apply map_fst_of_pointwise hlen
        intro i hi hi2
        exact (emvStep_out (hpt i hi hi2)).1
          (hfdall _ (List.get_mem L _ _)) |>.1
      rw [hR1] at h1
      have hatomwf : ([(⟨pkg, some (">=".data, v), none, none, none⟩ : PkgRelation)]).all
          wfAtom = true := by
        simp only [List.all_cons, List.all_nil, Bool.and_true]
        exact wfAtom_new hpkg hv
      obtain ⟨R1', hadd, hwfR1', hrels', enew, henew, henewrel, hpopfact⟩ :=
        add_relation_shape hwfR hlast (by simp) hatomwf
      rw [hadd] at h1
      simp only [pure, Except.pure, ok_bind, eq_self_iff_true, if_true] at h1
      injection h1 with h2
      subst h2
      have hnotobs : (addRelPrep R).1.length ∉ obsIdxs 0 L := by
        intro hmem
        obtain ⟨-, hlt2, hob⟩ :=
          obsIdxs_spec (⟨[], [], []⟩, false, false, false) L 0 _ hmem
        simp only [Nat.sub_zero] at hlt2 hob
        have hltR : (addRelPrep R).1.length < R.length := by
          rw [hlen] at hlt2
          exact hlt2
        obtain ⟨epop, hpopget, hpoprel⟩ := hpopfact hltR
        rw [List.getD_eq_get _ _ hlt2] at hob
        have hstepp := hpt _ hltR hlt2
        have houtp := emvStep_out hstepp
        have hob2 := houtp.2.2.2.1 hob
        have hgeteq : R.get ⟨(addRelPrep R).1.length, hltR⟩ = epop := by
          have := List.get?_eq_get hltR
          rw [this] at hpopget
          injection hpopget
        rw [hgeteq, hpoprel] at hob2
        simp at hob2
      have hsurv2 : enew ∈ deleteIndices R1' (obsIdxs 0 L) :=
        mem_deleteIndices_of_get henew hnotobs
      have hnewnames : enew.rel.map (·.name) = [pkg] := by
        rw [henewrel]
        rfl
      have hR2wfl : wfRelList (deleteIndices R1' (obsIdxs 0 L)) = true := by
        unfold wfRelList
        simp only [Bool.and_eq_true, List.all_eq_true, decide_eq_true_eq, ne_eq]
        refine ⟨fun e he => hwfR1' e (deleteIndices_sub e he), ?_⟩
        intro hdeg
        have := hsurv2
        rw [hdeg] at this
        simp only [List.mem_singleton] at this
        have hrelne := rel_ne_of_names hnewnames
        rw [this] at hrelne
        exact hrelne rfl
      apply emv_noop_pass (parse_format_roundtrip hR2wfl) hv'
      · intro e he hnames
        have heR1' := deleteIndices_sub e he
        rcases hrels' e heR1' with hrel | ⟨e0, he0, hrel⟩
        · refine ⟨">=".data, v, ?_, hge⟩
          rw [hrel]
          rfl
        · exfalso
          rw [hrel] at hnames
          obtain ⟨fi, hfi⟩ := List.mem_iff_get.mp he0
          have hfiL : (fi : Nat) < L.length := by
            rw [hlen]
            exact fi.isLt
          have hout0 := emvStep_out (hpt fi fi.isLt hfiL)
          obtain ⟨-, hne0⟩ := hout0.1 (hfdall _ (List.get_mem L _ _))
          rw [← hfi] at hnames
          exact hne0 hnames
      · exact ⟨enew, hsurv2, hnewnames⟩

/-- C7 counterexample: `ensure_minimum_version` is not idempotent for every
relation string. On `"foopkg < >"` (an empty build-profile group) the first
application returns `"foopkg (>= 2) <>"`, whose `"<>"` cannot be re-parsed
as a restriction formula, so the second application with the same version
appends a duplicate entry instead of being a no-op. -/
theorem C7_counterexample :
    ensure_minimum_version "foopkg < >".data "foopkg".data "2".data =
      .ok "foopkg (>= 2) <>".data ∧
    pyVersionCmp "2".data "2".data ≠ .lt ∧
    ensure_minimum_version "foopkg (>= 2) <>".data "foopkg".data "2".data ≠
      .ok "foopkg (>= 2) <>".data := by decide

/-- C7: downward idempotence of `ensure_minimum_version` on canonical
inputs: when the input parses to a canonical relation list (whose
pointless-tail pop does not expose a second empty-relation trailing
entry), the package name and both versions are well formed, and
`v' <= v` in the Debian order, a first application returning `s1` makes a
second application with `v'` return `s1` unchanged; and
`ensure_minimum_version("", "debhelper", "9")` returns
`"debhelper (>= 9)"`. -/
theorem C7_min_version_idempotent {s s1 pkg v v' : Chars} {R : List RelEntry}
    (hparse : parse_relations s = .ok R) (hwf : wfRelList R = true)
    (hlast : ((addRelPrep R).1.getLast?).all (fun e => !e.rel.isEmpty) = true)
    (hpkg : wfName pkg = true) (hv : validVersion v = true)
    (hv' : validVersion v' = true) (hge : pyVersionCmp v v' ≠ .lt)
    (h1 : ensure_minimum_version s pkg v = .ok s1) :
    ensure_minimum_version s1 pkg v' = .ok s1 ∧
    ensure_minimum_version [] "debhelper".data "9".data =
      .ok "debhelper (>= 9)".data :=
  ⟨emv_idempotent_aux hparse hwf hlast hpkg hv hv' hge h1, by decide⟩

/-- C7 witness: the theorem applied at `s = "debhelper"`, `v = "10"`,
`v' = "9"`. -/
theorem C7_min_version_idempotent_witness :
    ensure_minimum_version "debhelper (>= 10)".data "debhelper".data "9".data =
      .ok "debhelper (>= 10)".data ∧
    ensure_minimum_version [] "debhelper".data "9".data =
      .ok "debhelper (>= 9)".data :=
  C7_min_version_idempotent (s := "debhelper".data) (v := "10".data)
    (R := [⟨[], [⟨"debhelper".data, none, none, none, none⟩], []⟩])
    (by decide) (by decide) (by decide) (by decide) (by decide) (by decide)
    (by decide) (by decide)
